import Mathlib

/-!
QGpgME distinguished-name parser (`src/dn.cpp`)

A shallow embedding of the DN parser, escaper, serialiser and reorderer of `dn.cpp`
and of the copy-on-write `DN` object, followed by the properties established about
them.

Conventions of the embedding

* A string (`std::string`, `std::string_view`, `QString`) is a `List Nat` of
  character codes.  For `std::string` the codes are bytes (below 256).  The
  conversions `QString::toStdString` and `QString::fromStdString` belong to Qt
  and are not part of `dn.cpp`; they are the identity on ASCII text and the
  embedding identifies a `QString` with the `std::string` it converts to.
* A search result of `std::string_view` (`find_first_of`, `find_first_not_of`,
  `find_last_not_of`) is an `Option Nat`, `none` standing for
  `std::string_view::npos`, whose numeric value is `npos`.
* `return {}` of `parse_dn_part` (no remainder) is `none`.
* `DN` objects share their `Private` data through the pointer `d`.  The embedding
  passes the heap of `Private` objects explicitly: an operation takes the heap and
  the `DN` and returns the new heap (and the new `DN` when `d` can change).
-/

namespace QGpgME

/-! ## Definitions: the program -/

/-- Character codes of a string. -/
abbrev Str := List Nat

/-- The character codes of an ASCII string literal. -/
def str (s : String) : Str := s.toList.map Char.toNat

/-- Parsed attributes: `std::vector<std::pair<std::string, std::string>>`. -/
abbrev Result := List (Str × Str)

/-- Numeric value of `std::string_view::npos`, the largest `size_t` (64-bit target). -/
def npos : Nat := 2 ^ 64 - 1

/-- Numeric value of a search result. -/
def posValue : Option Nat → Nat
  | some i => i
  | none => npos

/-- The table `oidmap()`: pairs (mnemonic, OID). -/
def oidmap : List (Str × Str) :=
  [ (str "SP", str "ST"),
    (str "NameDistinguisher", str "0.2.262.1.10.7.20"),
    (str "EMAIL", str "1.2.840.113549.1.9.1"),
    (str "CN", str "2.5.4.3"),
    (str "SN", str "2.5.4.4"),
    (str "SerialNumber", str "2.5.4.5"),
    (str "T", str "2.5.4.12"),
    (str "D", str "2.5.4.13"),
    (str "BC", str "2.5.4.15"),
    (str "ADDR", str "2.5.4.16"),
    (str "PC", str "2.5.4.17"),
    (str "GN", str "2.5.4.42"),
    (str "Pseudo", str "2.5.4.65") ]

/-- Index of the first character satisfying `p`, as `std::string_view::find_first_*`. -/
def findFirst (p : Nat → Bool) : Str → Option Nat
  | [] => none
  | c :: cs => if p c then some 0 else (findFirst p cs).map (· + 1)

/-- Index of the last character satisfying `p`, as `std::string_view::find_last_*`. -/
def findLast (p : Nat → Bool) : Str → Option Nat
  | [] => none
  | c :: cs =>
    match findLast p cs with
    | some i => some (i + 1)
    | none => if p c then some 0 else none

/-- `view.find_first_of(ch)`. -/
def find_first_of (view : Str) (ch : Nat) : Option Nat :=
  findFirst (fun c => c == ch) view

/-- `view.find_first_not_of(chars)`. -/
def find_first_not_of (view : Str) (chars : Str) : Option Nat :=
  findFirst (fun c => !chars.contains c) view

/-- `view.find_last_not_of(chars)`. -/
def find_last_not_of (view : Str) (chars : Str) : Option Nat :=
  findLast (fun c => !chars.contains c) view

/-- `detail::removeLeadingSpaces`.  The test `pos > view.size()` holds exactly for
`npos` (a found index is below the size, and every size is below `npos`). -/
def removeLeadingSpaces (view : Str) : Str :=
  match find_first_not_of view [32] with
  | none => []
  | some pos => view.drop pos

/-- `detail::removeTrailingSpaces`, with the same reading of `pos > view.size()`. -/
def removeTrailingSpaces (view : Str) : Str :=
  match find_last_not_of view [32] with
  | none => []
  | some pos => view.take (pos + 1)

/-- `detail::xtoi(unsigned char c)`; the result is an `unsigned char`, so the
differences are taken modulo 256. -/
def xtoi (c : Nat) : Nat :=
  if c ≤ 57 then (c + 256 - 48) % 256
  else if c ≤ 70 then (c + 10 - 65) % 256
  else (c + 256 + 10 - 97) % 256

/-- `detail::xtoi(unsigned char first, unsigned char second)`. -/
def xtoi2 (first second : Nat) : Nat :=
  (16 * xtoi first + xtoi second) % 256

/-- The characters of `"1234567890abcdefABCDEF"`. -/
def hexChars : Str := str "1234567890abcdefABCDEF"

/-- `std::isxdigit` in the C locale. -/
def isxdigit (c : Nat) : Bool :=
  (48 ≤ c && c ≤ 57) || (65 ≤ c && c ≤ 70) || (97 ≤ c && c ≤ 102)

/-- The loop of `parseHexString`: `for (i = 0; i < size - 1; i += 2)` pushes
`xtoi(view[i], view[i + 1])`; the argument is the view from index `i` on, and
`i < size - 1` says that at least two characters are left. -/
def parseHexLoop : Str → Str
  | a :: b :: rest => xtoi2 a b :: parseHexLoop rest
  | _ => []

/-- `detail::parseHexString`. -/
def parseHexString (view : Str) : Option Str :=
  if view.length = 0 ∨ view.length % 2 = 1 then none
  else if find_first_not_of view hexChars ≠ none then none
  else some (parseHexLoop view)

/-- The loop over `oidmap()` in `attributeNameForOID`. -/
def lookupOID (oid : Str) : List (Str × Str) → Str
  | [] => []
  | m :: ms => if oid = m.2 then m.1 else lookupOID oid ms

/-- `detail::attributeNameForOID`. -/
def attributeNameForOID (oid : Str) : Str :=
  let oid := if oid.take 4 = str "OID." ∨ oid.take 4 = str "oid." then oid.drop 4 else oid
  lookupOID oid oidmap

/-- The loop of the quoted form in `parse_dn_part`: the input after the opening
quote and the value so far; yields the value and the remainder after the closing
quote, or fails. -/
def quotedLoop : Str → Str → Option (Str × Str)
  | [], _ => none
  | c :: rest, value =>
    if c = 92 then
      match rest with
      | [] => none
      | d :: rest2 =>
        if d = 34 then quotedLoop rest2 (value ++ [34])
        else quotedLoop rest2 (value ++ [92, d])
    else if c = 34 then some (value, rest)
    else quotedLoop rest (value ++ [c])

/-- The characters that a backslash makes literal in the plain form:
`, = + < > # ; \ "` and the space. -/
def escapable (c : Nat) : Bool :=
  c = 44 || c = 61 || c = 43 || c = 60 || c = 62 || c = 35 || c = 59 || c = 92 || c = 34 || c = 32

/-- The characters that end a plain-form value: `, = + < > # ;`. -/
def terminator (c : Nat) : Bool :=
  c = 44 || c = 61 || c = 43 || c = 60 || c = 62 || c = 35 || c = 59

/-- The loop of the plain form in `parse_dn_part`: input, value so far and
`lastAddedEscapedSpace`; yields the value, the flag and the remainder, or fails. -/
def plainLoop : Str → Str → Bool → Option (Str × Bool × Str)
  | [], value, last => some (value, last, [])
  | c :: rest, value, last =>
    if c = 92 then
      match rest with
      | [] => none
      | d :: rest2 =>
        if escapable d then plainLoop rest2 (value ++ [d]) (decide (d = 32))
        else
          match rest2 with
          | [] => none
          | e :: rest3 =>
            if isxdigit d && isxdigit e then plainLoop rest3 (value ++ [xtoi2 d e]) false
            else none
    else if c = 34 then none
    else if terminator c then some (value, last, c :: rest)
    else plainLoop rest (value ++ [c]) false

/-- The name stored for a key: its mnemonic when `attributeNameForOID` finds one. -/
def keyName (key : Str) : Str :=
  if attributeNameForOID key ≠ [] then attributeNameForOID key else key

/-- The value part of `parse_dn_part`: the text after `=` with leading spaces
removed; yields the value and the remainder. -/
def parseValue : Str → Option (Str × Str)
  | [] => none
  | c :: tl =>
    if c = 35 then
      let endHex := find_first_not_of tl hexChars
      if posValue endHex = 0 ∨ posValue endHex % 2 = 1 then none
      else
        match parseHexString (tl.take (posValue endHex)) with
        | none => none
        | some value => some (value, tl.drop (posValue endHex))
    else if c = 34 then quotedLoop tl []
    else
      match plainLoop (c :: tl) [] false with
      | none => none
      | some (value, last, rest) =>
        some (if last then value else removeTrailingSpaces value, rest)

/-- `detail::parse_dn_part`: the remainder and the pair (name, value), or failure. -/
def parse_dn_part (stringv : Str) : Option (Str × (Str × Str)) :=
  match find_first_of stringv 61 with
  | none => none
  | some separatorPos =>
    if separatorPos = 0 then none
    else
      let key := keyName (removeTrailingSpaces (stringv.take separatorPos))
      match parseValue (removeLeadingSpaces (stringv.drop (separatorPos + 1))) with
      | none => none
      | some (value, rest) => some (rest, (key, value))

/-- The characters `, ; +` that separate components. -/
def separator (c : Nat) : Bool :=
  c = 44 || c = 59 || c = 43

/-- The loop of `parseString`, one iteration per unit of fuel; `none` only when the
fuel runs out. -/
def parseStringLoop : Nat → Str → Result → Option Result
  | 0, _, _ => none
  | fuel + 1, string, result =>
    if string = [] then some result
    else
      match removeLeadingSpaces string with
      | [] => some result
      | c :: cs =>
        match parse_dn_part (c :: cs) with
        | none => some []
        | some (rest, dnPair) =>
          let result := if dnPair.1 ≠ [] ∧ dnPair.2 ≠ [] then result ++ [dnPair] else result
          match removeLeadingSpaces rest with
          | [] => some result
          | d :: ds => if separator d then parseStringLoop fuel ds result else some []

/-- `parseString`: every iteration but the last removes a character, so
`string.size() + 1` iterations always suffice. -/
def parseString (string : Str) : Option Result :=
  parseStringLoop (string.length + 1) string []

/-- `parse_dn`: the parsed pairs as attributes.  The loop of the source converts each
name and value with `QString::fromStdString`, which belongs to Qt and is the identity
on ASCII text; the embedding identifies a `QString` with its `std::string` (see the
conventions), so the pairs are stored as they are.  A statement that depends on the
stored text takes the conversion as a parameter and is restricted to ASCII text. -/
def parse_dn (view : Str) : Option Result :=
  parseString view

/-- `dn_escape`. -/
def dn_escape : Str → Str
  | [] => []
  | ch :: s =>
    if ch = 44 ∨ ch = 43 ∨ ch = 34 ∨ ch = 92 ∨ ch = 60 ∨ ch = 62 ∨ ch = 59 then
      92 :: ch :: dn_escape s
    else ch :: dn_escape s

/-- Modelled from the spec: `QChar::isSpace` of Qt, which decides what the "trim" of
§4.6 (`QString::trimmed`) removes: the space, the controls U+0009..U+000D, U+0085,
U+00A0 and the Unicode separators. -/
def isSpace (c : Nat) : Bool :=
  c = 32 || (9 ≤ c && c ≤ 13) || c = 0x85 || c = 0xA0 || c = 0x1680 ||
    (0x2000 ≤ c && c ≤ 0x200A) || c = 0x2028 || c = 0x2029 || c = 0x202F || c = 0x205F ||
    c = 0x3000

/-- Modelled from the spec: `QString::trimmed` of Qt, the "trim" of §4.6: whitespace
removed from both ends. -/
def trimmed (s : Str) : Str :=
  ((s.dropWhile isSpace).reverse.dropWhile isSpace).reverse

/-- `QStringList::join`. -/
def join (sep : Str) : List Str → Str
  | [] => []
  | [a] => a
  | a :: b :: rest => a ++ sep ++ join sep (b :: rest)

/-- `listAttributes`. -/
def listAttributes : Result → List Str
  | [] => []
  | attr :: dn =>
    if attr.1 ≠ [] ∧ attr.2 ≠ [] then
      (trimmed attr.1 ++ 61 :: dn_escape (trimmed attr.2)) :: listAttributes dn
    else listAttributes dn

/-- `serialise`. -/
def serialise (dn : Result) (sep : Str) : Str :=
  join sep (listAttributes dn)

/-- The order token `"_X_"` that stands for the attributes not named in the order. -/
def sentinel : Str := str "_X_"

/-- The second loop of `reorder_dn`: the tokens still to process, `unknownEntries`
and `result`.  The inner loop over `dn` that pushes every attribute named `*oit` is
the filter. -/
def reorderLoop (dn : Result) : List Str → Result → Result → Result
  | [], _, result => result
  | oit :: rest, unknownEntries, result =>
    if oit = sentinel then reorderLoop dn rest [] (result ++ unknownEntries)
    else reorderLoop dn rest unknownEntries (result ++ dn.filter (fun a => a.1 == oit))

/-- `reorder_dn`: the first loop collects in `unknownEntries` the attributes whose
name `attrOrder` does not contain. -/
def reorder_dn (dn : Result) (attrOrder : List Str) : Result :=
  reorderLoop dn attrOrder (dn.filter (fun a => !attrOrder.contains a.1)) []

/-- `QGpgME::DN::Private`. -/
structure Private where
  attributes : Result
  reorderedAttributes : Result
  order : List Str
  mRefCount : Int
deriving DecidableEq

/-- The heap of `Private` objects: the cell at an address holds `none` once the
object is deleted.  Reading through a null or deleted pointer is undefined in the
source; the operations below then leave the heap as it is. -/
abbrev Heap := List (Option Private)

/-- A `DN` object: its pointer `d`, `none` for the null pointer. -/
structure DN where
  d : Option Nat
deriving DecidableEq

/-- The object at an address, if it is alive. -/
def deref (h : Heap) (p : Nat) : Option Private :=
  match h[p]? with
  | some (some P) => some P
  | _ => none

/-- The heap with the cell at an address replaced. -/
def store (h : Heap) (p : Nat) (v : Option Private) : Heap := h.set p v

/-- `Private()`: the constructor sets `mRefCount`; the three lists are
default-constructed, that is empty. -/
def Private.create : Private := ⟨[], [], [], 0⟩

/-- `Private(const Private &other)`: the attributes and the reordered attributes are
copied, `order` is set to the list of the initialiser, `mRefCount` to 0. -/
def Private.copy (other : Private) : Private :=
  ⟨other.attributes, other.reorderedAttributes,
    [str "CN", str "L", str "_X_", str "OU", str "O", str "C"], 0⟩

/-- `Private::ref`. -/
def ref (h : Heap) (p : Nat) : Heap :=
  match deref h p with
  | some P => store h p (some ⟨P.attributes, P.reorderedAttributes, P.order, P.mRefCount + 1⟩)
  | none => h

/-- `Private::unref`: the object is deleted when the decremented count is not
positive. -/
def unref (h : Heap) (p : Nat) : Heap :=
  match deref h p with
  | some P =>
    if P.mRefCount - 1 ≤ 0 then store h p none
    else store h p (some ⟨P.attributes, P.reorderedAttributes, P.order, P.mRefCount - 1⟩)
  | none => h

/-- `DN::DN()`: `new Private()` at a fresh address, then `ref`. -/
def DN.create (h : Heap) : Heap × DN :=
  (ref (h ++ [some Private.create]) h.length, ⟨some h.length⟩)

/-- The assignment `d->attributes = attrs`. -/
def setAttributes (h : Heap) (p : Nat) (attrs : Result) : Heap :=
  match deref h p with
  | some P => store h p (some ⟨attrs, P.reorderedAttributes, P.order, P.mRefCount⟩)
  | none => h

/-- `DN::DN(const QString &dn)`: `new Private()` at a fresh address, `ref`, then the
attributes are set to `parse_dn(dn)`; `none` only when `parse_dn` runs out of fuel. -/
def DN.fromString (h : Heap) (dn : Str) : Option (Heap × DN) :=
  match parse_dn dn with
  | none => none
  | some attrs =>
    some (setAttributes (ref (h ++ [some Private.create]) h.length) h.length attrs,
      ⟨some h.length⟩)

/-- `DN::DN(const char *utf8DN)`: the same steps, the attributes being set only when
the pointer is not null (`none` is the null pointer). -/
def DN.fromUtf8 (h : Heap) (utf8DN : Option Str) : Option (Heap × DN) :=
  match utf8DN with
  | none => some (DN.create h)
  | some s => DN.fromString h s

/-- `DN::DN(const DN &other)`. -/
def DN.copy (h : Heap) (other : DN) : Heap × DN :=
  match other.d with
  | some p => (ref h p, ⟨some p⟩)
  | none => (h, ⟨none⟩)

/-- `DN::~DN`. -/
def DN.destroy (h : Heap) (self : DN) : Heap :=
  match self.d with
  | some p => unref h p
  | none => h

/-- `DN::operator=`. -/
def DN.assign (h : Heap) (self that : DN) : Heap × DN :=
  if self.d = that.d then (h, self)
  else
    let h1 := match that.d with
      | some p => ref h p
      | none => h
    let h2 := match self.d with
      | some p => unref h1 p
      | none => h1
    (h2, ⟨that.d⟩)

/-- The step shared by `prettyDN` and `prettyAttributes`: the reordered attributes
are computed when the stored ones are empty. -/
def fillReordered (P : Private) : Private :=
  if P.reorderedAttributes = [] then
    ⟨P.attributes, reorder_dn P.attributes P.order, P.order, P.mRefCount⟩
  else P

/-- `DN::prettyDN`. -/
def DN.prettyDN (h : Heap) (self : DN) : Heap × Str :=
  match self.d with
  | none => (h, [])
  | some p =>
    match deref h p with
    | none => (h, [])
    | some P =>
      (store h p (some (fillReordered P)),
        serialise (fillReordered P).reorderedAttributes (str ","))

/-- `DN::dn(const QString &sep)`; `DN::dn()` is the case of the separator `","`. -/
def DN.dn (h : Heap) (self : DN) (sep : Str) : Str :=
  match self.d with
  | none => []
  | some p =>
    match deref h p with
    | none => []
    | some P => serialise P.attributes sep

/-- `DN::prettyAttributes`. -/
def DN.prettyAttributes (h : Heap) (self : DN) : Heap × List Str :=
  match self.d with
  | none => (h, [])
  | some p =>
    match deref h p with
    | none => (h, [])
    | some P =>
      (store h p (some (fillReordered P)), listAttributes (fillReordered P).reorderedAttributes)

/-- `DN::detach`. -/
def DN.detach (h : Heap) (self : DN) : Heap × DN :=
  match self.d with
  | none => (ref (h ++ [some Private.create]) h.length, ⟨some h.length⟩)
  | some p =>
    match deref h p with
    | none => (h, self)
    | some P =>
      if P.mRefCount > 1 then
        (unref (ref (h ++ [some (Private.copy P)]) h.length) p, ⟨some h.length⟩)
      else (h, self)

/-- `DN::append`. -/
def DN.append (h : Heap) (self : DN) (attr : Str × Str) : Heap × DN :=
  match (DN.detach h self).2.d with
  | none => DN.detach h self
  | some p =>
    match deref (DN.detach h self).1 p with
    | none => DN.detach h self
    | some P =>
      (store (DN.detach h self).1 p (some ⟨P.attributes ++ [attr], [], P.order, P.mRefCount⟩),
        (DN.detach h self).2)

/-- `DN::setAttributeOrder`. -/
def DN.setAttributeOrder (h : Heap) (self : DN) (order : List Str) : Heap :=
  match self.d with
  | none => h
  | some p =>
    match deref h p with
    | none => h
    | some P => store h p (some ⟨P.attributes, P.reorderedAttributes, order, P.mRefCount⟩)

/-- `DN::attributeOrder`. -/
def DN.attributeOrder (h : Heap) (self : DN) : List Str :=
  match self.d with
  | none => []
  | some p =>
    match deref h p with
    | none => []
    | some P => P.order

/-- The attributes of a `DN`, as `begin()` … `end()` enumerate them. -/
def DN.attributes (h : Heap) (self : DN) : Result :=
  match self.d with
  | none => []
  | some p =>
    match deref h p with
    | none => []
    | some P => P.attributes

/-- `DN::dn()`: the attributes serialised with the separator `","`. -/
def DN.dnComma (h : Heap) (self : DN) : Str :=
  match self.d with
  | none => []
  | some p =>
    match deref h p with
    | none => []
    | some P => serialise P.attributes (str ",")

/-- `DN::escape`. -/
def DN.escape (value : Str) : Str := dn_escape value

/-- The loop of `DN::operator[]`: the value of the first attribute whose name is
`attrUpper`, the empty string when there is none. -/
def lookupLoop (attrUpper : Str) : Result → Str
  | [] => []
  | it :: rest => if it.1 = attrUpper then it.2 else lookupLoop attrUpper rest

/-- `DN::operator[]`.  `QString::toUpper` belongs to Qt and is the parameter
`toUpper`. -/
def DN.lookup (toUpper : Str → Str) (h : Heap) (self : DN) (attr : Str) : Str :=
  match self.d with
  | none => []
  | some p =>
    match deref h p with
    | none => []
    | some P => lookupLoop (toUpper attr) P.attributes

/-- The loop of `parseHexString` with its index `i` and every read of `view[i]` and
`view[i + 1]` checked against the size: `some none` stands for a read outside the
view, `none` for the fuel running out.  `view.size() - 1` and `i += 2` are computed
in `size_t`, that is modulo `2^64`. -/
def parseHexLoopChecked (view : Str) : Nat → Nat → Str → Option (Option Str)
  | 0, _, _ => none
  | fuel + 1, i, result =>
    if i < (view.length + 2 ^ 64 - 1) % 2 ^ 64 then
      match view[i]?, view[i + 1]? with
      | some a, some b =>
        parseHexLoopChecked view fuel ((i + 2) % 2 ^ 64) (result ++ [xtoi2 a b])
      | _, _ => some none
    else some (some result)

/-! ## Definitions: vocabulary of the statements -/

/-- An ASCII letter. -/
def isLetter (c : Nat) : Bool := (65 ≤ c && c ≤ 90) || (97 ≤ c && c ≤ 122)

/-- An ASCII digit. -/
def isDigit (c : Nat) : Bool := 48 ≤ c && c ≤ 57

/-- A character that the plain-form loop copies: no backslash, quote or terminator. -/
def ordinary (c : Nat) : Bool := c != 92 && c != 34 && !terminator c

/-- The result after a component: the pair is kept when name and value are non-empty. -/
def pushPair (result : Result) (dnPair : Str × Str) : Result :=
  if dnPair.1 ≠ [] ∧ dnPair.2 ≠ [] then result ++ [dnPair] else result

/-- A character of a simple value: a letter, a digit, a dot or a space. -/
def simpleChar (c : Nat) : Bool := isLetter c || isDigit c || c == 46 || c == 32

/-- A simple value: non-empty, of letters, digits, dots and inner spaces. -/
def SimpleValue (v : Str) : Prop :=
  v ≠ [] ∧ (∀ c ∈ v, simpleChar c = true) ∧ v.head? ≠ some 32 ∧ v.getLast? ≠ some 32

instance (v : Str) : Decidable (SimpleValue v) := by
  unfold SimpleValue; infer_instance

/-- A simple name: a non-empty token of letters that is not a key of the OID table. -/
def SimpleName (n : Str) : Prop :=
  n ≠ [] ∧ (∀ c ∈ n, isLetter c = true) ∧ ∀ m ∈ oidmap, m.2 ≠ n

instance (n : Str) : Decidable (SimpleName n) := by
  unfold SimpleName; infer_instance

/-- One component `name=value`. -/
def component (p : Str × Str) : Str := p.1 ++ 61 :: p.2

/-- The components joined by the given separators (a comma where the list of
separators is too short). -/
def joinComponents : List (Str × Str) → Str → Str
  | [], _ => []
  | [p], _ => component p
  | p :: q :: ps, seps => component p ++ seps.headD 44 :: joinComponents (q :: ps) seps.tail

/-- A name that the parser stores unchanged: non-empty, without `=`, without a space
at either end, and not mapped by the OID table. -/
def PlainName (n : Str) : Prop :=
  n ≠ [] ∧ (∀ c ∈ n, c ≠ 61) ∧ n.head? ≠ some 32 ∧ n.getLast? ≠ some 32 ∧
    attributeNameForOID n = []

/-- A value that the plain form returns unchanged: non-empty, of ordinary
characters, without a space at either end. -/
def PlainValue (v : Str) : Prop :=
  v ≠ [] ∧ (∀ c ∈ v, ordinary c = true ∧ c ≠ 35) ∧ v.head? ≠ some 32 ∧ v.getLast? ≠ some 32

/-- The seven characters that `dn_escape` escapes: `, + " \ < > ;`. -/
def reserved (c : Nat) : Bool :=
  c = 44 || c = 43 || c = 34 || c = 92 || c = 60 || c = 62 || c = 59

/-- A value of letters, digits, inner spaces and reserved characters. -/
def EscapableValue (v : Str) : Prop :=
  v ≠ [] ∧ (∀ c ∈ v, (isLetter c || isDigit c || c == 32 || reserved c) = true) ∧
    v.head? ≠ some 32 ∧ v.getLast? ≠ some 32

instance (v : Str) : Decidable (EscapableValue v) := by
  unfold EscapableValue; infer_instance

/-- Value of a hex digit, after the specification: `'0'..'9'`, `'A'..'F'` and
`'a'..'f'` map to 0–15 (0 for any other character). -/
def hexDigitValue (c : Nat) : Nat :=
  if 48 ≤ c ∧ c ≤ 57 then c - 48
  else if 65 ≤ c ∧ c ≤ 70 then c - 65 + 10
  else if 97 ≤ c ∧ c ≤ 102 then c - 97 + 10
  else 0

/-- The byte of a digit pair, after the specification:
`decodeHexPair(a,b) = 16*hexDigitValue(a) + hexDigitValue(b)`. -/
def decodeHexPair (a b : Nat) : Nat := 16 * hexDigitValue a + hexDigitValue b

/-- The bytes of successive digit pairs, after the specification. -/
def decodeHexPairs : Str → Str
  | a :: b :: rest => decodeHexPair a b :: decodeHexPairs rest
  | _ => []

/-- An item of a quoted body: a character other than backslash and quote, or a
backslash together with the character after it. -/
inductive QuotedItem where
  | char (c : Nat)
  | pair (c : Nat)

/-- The text of a quoted body. -/
def quotedText : List QuotedItem → Str
  | [] => []
  | QuotedItem.char c :: items => c :: quotedText items
  | QuotedItem.pair c :: items => 92 :: c :: quotedText items

/-- The value a quoted body stands for: a backslash-quote pair is a quote, any other
pair is copied with its backslash. -/
def quotedValue : List QuotedItem → Str
  | [] => []
  | QuotedItem.char c :: items => c :: quotedValue items
  | QuotedItem.pair c :: items =>
    if c = 34 then 34 :: quotedValue items else 92 :: c :: quotedValue items

/-- An item is well formed: a plain character is neither a backslash nor a quote. -/
def QuotedItem.ok : QuotedItem → Bool
  | QuotedItem.char c => c != 92 && c != 34
  | QuotedItem.pair _ => true

/-- The key with a leading `OID.` or `oid.` removed. -/
def stripOid (k : Str) : Str :=
  if (str "OID.").isPrefixOf k || (str "oid.").isPrefixOf k then k.drop 4 else k

/-- The text before the first `=`, without its trailing spaces. -/
def keyText (s : Str) : Str :=
  removeTrailingSpaces (s.takeWhile (fun c => c != 61))

/-- A string that neither begins nor ends with whitespace. -/
def NoOuterSpace (x : Str) : Prop :=
  x.head?.map isSpace ≠ some true ∧ x.getLast?.map isSpace ≠ some true

instance (x : Str) : Decidable (NoOuterSpace x) := by
  unfold NoOuterSpace; infer_instance

/-- What holds of every attribute the parser returns: name and value are non-empty,
the name has no `=` and is not mapped by the OID table. -/
def ParsedAttribute (a : Str × Str) : Prop :=
  a.1 ≠ [] ∧ a.2 ≠ [] ∧ (∀ c ∈ a.1, c ≠ 61) ∧ attributeNameForOID a.1 = []

/-- What may not follow a backslash in the plain form: the end of the input, or a
character that is neither made literal by the backslash nor the first of two hex
digits. -/
def badEscape : Str → Bool
  | [] => true
  | [c] => !escapable c
  | c :: e :: _ => !escapable c && !(isxdigit c && isxdigit e)

/-- A component text without a usable name or value start: it has no `=`, it begins
with `=`, or only spaces (or nothing) follow its first `=`. -/
def Unusable (u : Str) : Prop :=
  (∀ c ∈ u, c ≠ 61) ∨ (∃ y, u = 61 :: y) ∨
    (∃ n sp, u = n ++ 61 :: sp ∧ (∀ c ∈ n, c ≠ 61) ∧ ∀ c ∈ sp, c = 32)

/-- The tokens of an order other than the sentinel: its literal names. -/
def literalTokens (order : List Str) : List Str := order.filter (fun t => t != sentinel)

/-- The concatenation, over the tokens from left to right, of: for a literal name,
the attributes of that name; for the first sentinel, the attributes `unlisted`; for a
later sentinel, nothing.  The flag says whether a sentinel has been passed. -/
def orderPieces (attrs unlisted : Result) : List Str → Bool → Result
  | [], _ => []
  | t :: ts, seen =>
    (if t = sentinel then (if seen then [] else unlisted)
      else attrs.filter (fun a => a.1 == t))
      ++ orderPieces attrs unlisted ts (seen || decide (t = sentinel))

/-- The reordering in the words of the claim: at the first sentinel come the
attributes whose name is not a literal token of the order. -/
def reorderAsClaimed (attrs : Result) (order : List Str) : Result :=
  orderPieces attrs (attrs.filter (fun a => !(literalTokens order).contains a.1)) order false

/-- The reordering as amended: at the first sentinel come the attributes whose name
is no token of the order at all, the sentinel string `"_X_"` included. -/
def reorderByTokens (attrs : Result) (order : List Str) : Result :=
  orderPieces attrs (attrs.filter (fun a => !order.contains a.1)) order false

/-- What a `DN` shows of its attributes is the same in two heaps: the attributes,
`dn(sep)` for every separator, and the string of `prettyDN()`. -/
def SameView (h1 h2 : Heap) (a : DN) : Prop :=
  DN.attributes h1 a = DN.attributes h2 a ∧ (∀ sep, DN.dn h1 a sep = DN.dn h2 a sep) ∧
    (DN.prettyDN h1 a).2 = (DN.prettyDN h2 a).2

/-- Modelled from the spec: `QString::toUpper` of Qt on ASCII text (the
"case-upper-cased" query of §4.7): the letters `a`..`z` become `A`..`Z`. -/
def asciiUpper (s : Str) : Str :=
  s.map (fun c => if 97 ≤ c ∧ c ≤ 122 then c - 32 else c)

/-- One rendered attribute: `trim(name) ++ "=" ++ dn_escape(trim(value))`. -/
def renderAttribute (a : Str × Str) : Str :=
  trimmed a.1 ++ 61 :: dn_escape (trimmed a.2)

/-- The rendering in the words of the claim: an attribute is left out when its
trimmed name or its trimmed value is empty. -/
def renderAsClaimed (attrs : Result) (sep : Str) : Str :=
  List.intercalate sep
    ((attrs.filter (fun a => decide (trimmed a.1 ≠ []) && decide (trimmed a.2 ≠ []))).map
      renderAttribute)

/-- The rendering as amended: an attribute is left out when its name or its value,
as stored, is empty. -/
def renderStored (attrs : Result) (sep : Str) : Str :=
  List.intercalate sep
    ((attrs.filter (fun a => decide (a.1 ≠ []) && decide (a.2 ≠ []))).map renderAttribute)

/-- What `escape` writes for one character: the character, after a backslash when it
is one of `, + " \ < > ;`. -/
def escapeChar (c : Nat) : Str := if reserved c then [92, c] else [c]

/-- A hex digit with the letters `a`..`f` replaced by `A`..`F`. -/
def upperHex (c : Nat) : Nat := if 97 ≤ c ∧ c ≤ 102 then c - 32 else c

/-- The string of `k` spaces. -/
def spaces (k : Nat) : Str := List.replicate k 32

/-- One component with `w.1` spaces before the name, `w.2.1` after it, `w.2.2.1`
before the value and `w.2.2.2` after it. -/
def spacedComponent (w : Nat × Nat × Nat × Nat) (p : Str × Str) : Str :=
  spaces w.1 ++ (p.1 ++ (spaces w.2.1 ++ 61 :: (spaces w.2.2.1 ++ (p.2 ++ spaces w.2.2.2))))

/-- The spaced components joined by the given separators (a comma where the list of
separators is too short). -/
def joinSpaced : List ((Nat × Nat × Nat × Nat) × (Str × Str)) → Str → Str
  | [], _ => []
  | [x], _ => spacedComponent x.1 x.2
  | x :: y :: xs, seps =>
    spacedComponent x.1 x.2 ++ seps.headD 44 :: joinSpaced (y :: xs) seps.tail

/-- An ASCII letter in lower case, any other character unchanged. -/
def asciiLower (c : Nat) : Nat := if 65 ≤ c ∧ c ≤ 90 then c + 32 else c

/-- The eight four-character strings that equal `oid.` when letter case is ignored. -/
def oidPrefixes : List Str :=
  [str "OID.", str "oid.", str "Oid.", str "oId.", str "oiD.", str "OId.", str "OiD.",
    str "oID."]

/-- An attribute with a non-empty value and a non-empty name that has no `=` and
neither begins nor ends with a space. -/
def WellFormedAttribute (a : Str × Str) : Prop :=
  a.2 ≠ [] ∧ a.1 ≠ [] ∧ (∀ c ∈ a.1, c ≠ 61) ∧ a.1.head? ≠ some 32 ∧ a.1.getLast? ≠ some 32

instance (a : Str × Str) : Decidable (WellFormedAttribute a) := by
  unfold WellFormedAttribute; infer_instance

/-- The argument of the call `parseHexString(stringv.substr(0, endHex))` in the hex
branch, for the text `tl` after the `#`. -/
def hexArgument (tl : Str) : Str := tl.take (posValue (find_first_not_of tl hexChars))

/-! ## Theorems -/

theorem findFirst_append_hit (p : Nat → Bool) (a : Str) (c : Nat) (rest : Str)
    (ha : ∀ x ∈ a, p x = false) (hc : p c = true) :
    findFirst p (a ++ c :: rest) = some a.length := by
  induction a with
  | nil => simp [findFirst, hc]
  | cons x xs ih =>
    have hx : p x = false := ha x (List.mem_cons_self _ _)
    have ih2 := ih (fun y hy => ha y (List.mem_cons_of_mem _ hy))
    simp [findFirst, hx, ih2]

theorem findFirst_none (p : Nat → Bool) (a : Str) (ha : ∀ x ∈ a, p x = false) :
    findFirst p a = none := by
  induction a with
  | nil => rfl
  | cons x xs ih =>
    have hx : p x = false := ha x (List.mem_cons_self _ _)
    have ih2 := ih (fun y hy => ha y (List.mem_cons_of_mem _ hy))
    simp [findFirst, hx, ih2]

theorem findLast_concat_hit (p : Nat → Bool) (a : Str) (c : Nat) (hc : p c = true) :
    findLast p (a ++ [c]) = some a.length := by
  induction a with
  | nil => simp [findLast, hc]
  | cons x xs ih => simp [findLast, ih]

theorem removeLeadingSpaces_nil : removeLeadingSpaces [] = [] := rfl

theorem removeLeadingSpaces_cons_ne (c : Nat) (s : Str) (hc : c ≠ 32) :
    removeLeadingSpaces (c :: s) = c :: s := by
  simp [removeLeadingSpaces, find_first_not_of, findFirst, hc]

theorem removeLeadingSpaces_cons_space (s : Str) :
    removeLeadingSpaces (32 :: s) = removeLeadingSpaces s := by
  simp only [removeLeadingSpaces, find_first_not_of, findFirst]
  cases h : findFirst (fun c => !List.contains [32] c) s <;> simp

theorem removeTrailingSpaces_nil : removeTrailingSpaces [] = [] := rfl

theorem removeTrailingSpaces_concat_ne (s : Str) (c : Nat) (hc : c ≠ 32) :
    removeTrailingSpaces (s ++ [c]) = s ++ [c] := by
  have h : findLast (fun c => !List.contains [32] c) (s ++ [c]) = some s.length :=
    findLast_concat_hit _ s c (by simp [hc])
  simp only [removeTrailingSpaces, find_last_not_of, h]
  simp

theorem plainLoop_ordinary_cons (c : Nat) (rest value : Str) (last : Bool)
    (hc : ordinary c = true) :
    plainLoop (c :: rest) value last = plainLoop rest (value ++ [c]) false := by
  simp only [ordinary, Bool.and_eq_true, bne_iff_ne, ne_eq, Bool.not_eq_true'] at hc
  obtain ⟨⟨h1, h2⟩, h3⟩ := hc
  rw [plainLoop.eq_def]
  simp [h1, h2, h3]

theorem plainLoop_ordinary (w : Str) (hw : ∀ c ∈ w, ordinary c = true) (rest value : Str) :
    plainLoop (w ++ rest) value false = plainLoop rest (value ++ w) false := by
  induction w generalizing value with
  | nil => simp
  | cons c cs ih =>
    have hc := hw c (List.mem_cons_self _ _)
    rw [List.cons_append, plainLoop_ordinary_cons c _ value false hc,
      ih (fun y hy => hw y (List.mem_cons_of_mem _ hy))]
    simp

theorem plainLoop_stop (c : Nat) (rest value : Str) (last : Bool) (hc : terminator c = true) :
    plainLoop (c :: rest) value last = some (value, last, c :: rest) := by
  have h1 : c ≠ 92 := by intro h; subst h; simp [terminator] at hc
  have h2 : c ≠ 34 := by intro h; subst h; simp [terminator] at hc
  rw [plainLoop.eq_def]
  simp [h1, h2, hc]

theorem parse_dn_part_eq (n y : Str) (hn : n ≠ []) (heq : ∀ c ∈ n, c ≠ 61) :
    parse_dn_part (n ++ 61 :: y) =
      match parseValue (removeLeadingSpaces y) with
      | none => none
      | some (value, rest) => some (rest, (keyName (removeTrailingSpaces n), value)) := by
  have h : find_first_of (n ++ 61 :: y) 61 = some n.length :=
    findFirst_append_hit _ n 61 y (by simpa using heq) (by simp)
  have hl : n.length ≠ 0 := by simpa using hn
  simp only [parse_dn_part, h, hl, if_false, List.take_left', List.drop_left']
  have : List.drop (n.length + 1) (n ++ 61 :: y) = y := by
    rw [← List.drop_drop]; simp
  rw [this]

theorem parseStringLoop_unfold (fuel : Nat) (s : Str) (result : Result)
    (hne : removeLeadingSpaces s ≠ []) :
    parseStringLoop (fuel + 1) s result =
      match parse_dn_part (removeLeadingSpaces s) with
      | none => some []
      | some (rest, dnPair) =>
        match removeLeadingSpaces rest with
        | [] => some (pushPair result dnPair)
        | d :: ds =>
          if separator d then parseStringLoop fuel ds (pushPair result dnPair) else some [] := by
  have hs : s ≠ [] := by
    intro h; subst h; exact hne rfl
  cases h : removeLeadingSpaces s with
  | nil => exact absurd h hne
  | cons c cs =>
    simp only [parseStringLoop, hs, if_false, h, pushPair]

theorem parseStringLoop_last (fuel : Nat) (s rest : Str) (dnPair : Str × Str)
    (result : Result) (hne : removeLeadingSpaces s ≠ [])
    (hp : parse_dn_part (removeLeadingSpaces s) = some (rest, dnPair))
    (hr : removeLeadingSpaces rest = []) :
    parseStringLoop (fuel + 1) s result = some (pushPair result dnPair) := by
  rw [parseStringLoop_unfold fuel s result hne, hp]
  simp only [hr]

theorem parseStringLoop_more (fuel : Nat) (s rest : Str) (dnPair : Str × Str)
    (result : Result) (d : Nat) (ds : Str) (hne : removeLeadingSpaces s ≠ [])
    (hp : parse_dn_part (removeLeadingSpaces s) = some (rest, dnPair))
    (hr : removeLeadingSpaces rest = d :: ds) (hd : separator d = true) :
    parseStringLoop (fuel + 1) s result
      = parseStringLoop fuel ds (pushPair result dnPair) := by
  rw [parseStringLoop_unfold fuel s result hne, hp]
  simp only [hr, hd, if_true]

theorem parseStringLoop_fail (fuel : Nat) (s : Str) (result : Result)
    (hne : removeLeadingSpaces s ≠ [])
    (hp : parse_dn_part (removeLeadingSpaces s) = none) :
    parseStringLoop (fuel + 1) s result = some [] := by
  rw [parseStringLoop_unfold fuel s result hne, hp]

theorem parseStringLoop_junk (fuel : Nat) (s rest : Str) (dnPair : Str × Str)
    (result : Result) (d : Nat) (ds : Str) (hne : removeLeadingSpaces s ≠ [])
    (hp : parse_dn_part (removeLeadingSpaces s) = some (rest, dnPair))
    (hr : removeLeadingSpaces rest = d :: ds) (hd : separator d = false) :
    parseStringLoop (fuel + 1) s result = some [] := by
  rw [parseStringLoop_unfold fuel s result hne, hp]
  simp [hr, hd]

theorem removeTrailingSpaces_of_getLast (v : Str) (h : v.getLast? ≠ some 32) :
    removeTrailingSpaces v = v := by
  rcases List.eq_nil_or_concat v with h0 | ⟨s, c, h1⟩
  · subst h0; rfl
  · subst h1
    have hc : c ≠ 32 := by
      intro hc; apply h; simp [hc]
    simpa using removeTrailingSpaces_concat_ne s c hc

theorem removeLeadingSpaces_of_head (v : Str) (h : v.head? ≠ some 32) :
    removeLeadingSpaces v = v := by
  cases v with
  | nil => rfl
  | cons c cs =>
    exact removeLeadingSpaces_cons_ne c cs (by intro hc; apply h; simp [hc])

theorem lookupOID_none (oid : Str) (l : List (Str × Str)) (h : ∀ m ∈ l, m.2 ≠ oid) :
    lookupOID oid l = [] := by
  induction l with
  | nil => rfl
  | cons m ms ih =>
    have h1 : oid ≠ m.2 := fun e => h m (List.mem_cons_self _ _) e.symm
    simp [lookupOID, h1, ih (fun x hx => h x (List.mem_cons_of_mem _ hx))]

theorem str_OID : str "OID." = [79, 73, 68, 46] := by decide
theorem str_oid : str "oid." = [111, 105, 100, 46] := by decide

theorem attributeNameForOID_undotted (n : Str) (hdot : ∀ c ∈ n, c ≠ 46)
    (hkey : ∀ m ∈ oidmap, m.2 ≠ n) : attributeNameForOID n = [] := by
  have h1 : n.take 4 ≠ str "OID." := by
    intro h
    have : (46 : Nat) ∈ n.take 4 := by rw [h, str_OID]; simp
    exact hdot 46 (List.mem_of_mem_take this) rfl
  have h2 : n.take 4 ≠ str "oid." := by
    intro h
    have : (46 : Nat) ∈ n.take 4 := by rw [h, str_oid]; simp
    exact hdot 46 (List.mem_of_mem_take this) rfl
  simp only [attributeNameForOID, h1, h2, or_self, if_false]
  exact lookupOID_none n oidmap hkey

theorem simpleName_plain {n : Str} (hn : SimpleName n) : PlainName n := by
  obtain ⟨hne, hl, hk⟩ := hn
  refine ⟨hne, ?_, ?_, ?_, ?_⟩
  · intro c hc h
    have := hl c hc
    subst h
    simp [isLetter] at this
  · intro h
    have := hl 32 (List.mem_of_mem_head? h)
    simp [isLetter] at this
  · intro h
    have := hl 32 (List.mem_of_getLast?_eq_some h)
    simp [isLetter] at this
  · exact attributeNameForOID_undotted n (fun c hc h => by
      have := hl c hc
      subst h
      simp [isLetter] at this) hk

theorem keyName_plain (n : Str) (hn : PlainName n) : keyName (removeTrailingSpaces n) = n := by
  rw [removeTrailingSpaces_of_getLast n hn.2.2.2.1]
  simp [keyName, hn.2.2.2.2]

theorem keyName_simple (n : Str) (hn : SimpleName n) : keyName (removeTrailingSpaces n) = n :=
  keyName_plain n (simpleName_plain hn)

theorem simpleChar_ordinary (c : Nat) (h : simpleChar c = true) : ordinary c = true ∧ c ≠ 35 := by
  simp only [simpleChar, isLetter, isDigit, Bool.or_eq_true, Bool.and_eq_true,
    decide_eq_true_eq, beq_iff_eq] at h
  refine ⟨?_, by omega⟩
  simp only [ordinary, terminator, Bool.and_eq_true, bne_iff_ne, ne_eq, Bool.not_eq_true',
    Bool.or_eq_false_iff, decide_eq_false_iff_not]
  omega

theorem simpleValue_plain {v : Str} (h : SimpleValue v) : PlainValue v :=
  ⟨h.1, fun c hc => simpleChar_ordinary c (h.2.1 c hc), h.2.2.1, h.2.2.2⟩

theorem parseValue_plain (v rest : Str) (hv : PlainValue v)
    (hrest : rest = [] ∨ ∃ d ds, rest = d :: ds ∧ terminator d = true) :
    parseValue (v ++ rest) = some (v, rest) := by
  obtain ⟨hne, hord, _, hlast⟩ := hv
  have hloop : plainLoop (v ++ rest) [] false = some (v, false, rest) := by
    rw [plainLoop_ordinary v (fun c hc => (hord c hc).1) rest []]
    rcases hrest with h | ⟨d, ds, h, hd⟩
    · subst h; simp [plainLoop]
    · subst h; simpa using plainLoop_stop d ds v false hd
  cases v with
  | nil => exact absurd rfl hne
  | cons c cs =>
    have hc := hord c (List.mem_cons_self _ _)
    have h35 : c ≠ 35 := hc.2
    have h34 : c ≠ 34 := by
      have := hc.1
      simp only [ordinary, Bool.and_eq_true, bne_iff_ne, ne_eq] at this
      exact this.1.2
    rw [List.cons_append] at hloop ⊢
    simp only [parseValue, h35, h34, if_false, hloop]
    simp [removeTrailingSpaces_of_getLast _ hlast]

theorem removeLeadingSpaces_append_of_head (v rest : Str) (hne : v ≠ [])
    (h : v.head? ≠ some 32) : removeLeadingSpaces (v ++ rest) = v ++ rest := by
  cases v with
  | nil => exact absurd rfl hne
  | cons c cs =>
    exact removeLeadingSpaces_cons_ne c (cs ++ rest) (by intro hc; apply h; simp [hc])

theorem parse_dn_part_plain (n v rest : Str) (hn : PlainName n) (hv : PlainValue v)
    (hrest : rest = [] ∨ ∃ d ds, rest = d :: ds ∧ terminator d = true) :
    parse_dn_part (n ++ 61 :: (v ++ rest)) = some (rest, (n, v)) := by
  rw [parse_dn_part_eq n _ hn.1 hn.2.1, removeLeadingSpaces_append_of_head v rest hv.1 hv.2.2.1,
    parseValue_plain v rest hv hrest, keyName_plain n hn]

theorem plainName_head_ne_space {n : Str} (hn : PlainName n) (rest : Str) :
    removeLeadingSpaces (n ++ rest) = n ++ rest :=
  removeLeadingSpaces_append_of_head n rest hn.1 hn.2.2.1

theorem separator_terminator (d : Nat) (h : separator d = true) : terminator d = true := by
  simp only [separator, terminator, Bool.or_eq_true, decide_eq_true_eq] at h ⊢
  omega

theorem separator_ne_space (d : Nat) (h : separator d = true) : d ≠ 32 := by
  simp only [separator, Bool.or_eq_true, decide_eq_true_eq] at h
  omega

theorem parseStringLoop_joinComponents (ps : List (Str × Str))
    (hps : ∀ p ∈ ps, PlainName p.1 ∧ PlainValue p.2) :
    ∀ (seps : Str), (∀ c ∈ seps, separator c = true) →
    ∀ (fuel : Nat) (result : Result), ps.length < fuel →
      parseStringLoop fuel (joinComponents ps seps) result = some (result ++ ps) := by
  induction ps with
  | nil =>
    intro seps _ fuel result hf
    cases fuel with
    | zero => omega
    | succ f => simp [joinComponents, parseStringLoop]
  | cons p tl ih =>
    intro seps hseps fuel result hf
    obtain ⟨hn, hv⟩ := hps p (List.mem_cons_self _ _)
    have hpush : pushPair result (p.1, p.2) = result ++ [p] := by
      simp [pushPair, hn.1, hv.1]
    cases fuel with
    | zero => omega
    | succ f =>
      cases tl with
      | nil =>
        have hs : removeLeadingSpaces (joinComponents [p] seps) = p.1 ++ 61 :: (p.2 ++ []) := by
          simpa [joinComponents, component] using plainName_head_ne_space hn (61 :: p.2)
        have hpart := parse_dn_part_plain p.1 p.2 [] hn hv (Or.inl rfl)
        rw [parseStringLoop_last f _ [] (p.1, p.2) result (by rw [hs]; simp)
          (by rw [hs]; exact hpart) rfl, hpush]
      | cons q qs =>
        have hd : separator (seps.headD 44) = true := by
          cases seps with
          | nil => decide
          | cons c cs => exact hseps c (List.mem_cons_self _ _)
        have hs : removeLeadingSpaces (joinComponents (p :: q :: qs) seps)
            = p.1 ++ 61 :: (p.2 ++ seps.headD 44 :: joinComponents (q :: qs) seps.tail) := by
          simpa [joinComponents, component] using plainName_head_ne_space hn
            (61 :: (p.2 ++ seps.headD 44 :: joinComponents (q :: qs) seps.tail))
        have hpart := parse_dn_part_plain p.1 p.2
          (seps.headD 44 :: joinComponents (q :: qs) seps.tail) hn hv
          (Or.inr ⟨_, _, rfl, separator_terminator _ hd⟩)
        rw [parseStringLoop_more f _ _ (p.1, p.2) result (seps.headD 44)
          (joinComponents (q :: qs) seps.tail) (by rw [hs]; simp)
          (by rw [hs]; exact hpart)
          (removeLeadingSpaces_cons_ne _ _ (separator_ne_space _ hd)) hd, hpush,
          ih (fun x hx => hps x (List.mem_cons_of_mem _ hx)) seps.tail
            (fun c hc => hseps c (List.mem_of_mem_tail hc)) f _ (by simpa using hf)]
        simp

theorem joinComponents_length (ps : List (Str × Str)) (seps : Str) :
    ps.length ≤ (joinComponents ps seps).length := by
  induction ps generalizing seps with
  | nil => simp
  | cons p tl ih =>
    cases tl with
    | nil => simp [joinComponents, component]; omega
    | cons q qs =>
      have := ih seps.tail
      simp only [joinComponents, component, List.length_append, List.length_cons] at this ⊢
      omega

/-- Claim C1: parsing a well-formed simple DN returns its components in input order:
for every list of pairs of a simple name (a non-empty token of letters that is not a
key of the OID table) and a simple value (non-empty, of letters, digits, dots and
inner spaces), joined by any choice of the separators `, ; +`, `parseString` returns
exactly the list of pairs, repeated names included; the empty list is the empty
input. -/
theorem parseString_simple_components (ps : List (Str × Str)) (seps : Str)
    (hps : ∀ p ∈ ps, SimpleName p.1 ∧ SimpleValue p.2)
    (hseps : ∀ c ∈ seps, separator c = true) :
    parseString (joinComponents ps seps) = some ps := by
  have h := parseStringLoop_joinComponents ps
    (fun p hp => ⟨simpleName_plain (hps p hp).1, simpleValue_plain (hps p hp).2⟩) seps hseps
    ((joinComponents ps seps).length + 1) []
    (Nat.lt_succ_of_le (joinComponents_length ps seps))
  simpa [parseString] using h

theorem parseString_simple_components_witness :
    (∀ p ∈ [(str "CN", str "Steve Kille"), (str "O", str "Isode Limited"), (str "CN", str "GB")],
        SimpleName p.1 ∧ SimpleValue p.2) ∧
    (∀ c ∈ str ";+", separator c = true) ∧
    joinComponents [(str "CN", str "Steve Kille"), (str "O", str "Isode Limited"),
        (str "CN", str "GB")] (str ";+") = str "CN=Steve Kille;O=Isode Limited+CN=GB" ∧
    parseString (str "CN=Steve Kille;O=Isode Limited+CN=GB")
      = some [(str "CN", str "Steve Kille"), (str "O", str "Isode Limited"),
          (str "CN", str "GB")] :=
  ⟨by decide, by decide, by decide,
    parseString_simple_components
      [(str "CN", str "Steve Kille"), (str "O", str "Isode Limited"), (str "CN", str "GB")]
      (str ";+") (by decide) (by decide)⟩

theorem removeLeadingSpaces_eq_dropWhile (s : Str) :
    removeLeadingSpaces s = s.dropWhile (fun c => c == 32) := by
  induction s with
  | nil => rfl
  | cons c cs ih =>
    by_cases hc : c = 32
    · subst hc
      rw [removeLeadingSpaces_cons_space, ih]; simp
    · rw [removeLeadingSpaces_cons_ne c cs hc]; simp [hc]

theorem removeLeadingSpaces_append_of_ne (a b : Str) (h : removeLeadingSpaces a ≠ []) :
    removeLeadingSpaces (a ++ b) = removeLeadingSpaces a ++ b := by
  induction a with
  | nil => exact absurd rfl h
  | cons c cs ih =>
    by_cases hc : c = 32
    · subst hc
      rw [removeLeadingSpaces_cons_space] at h ⊢
      rw [List.cons_append, removeLeadingSpaces_cons_space, ih h]
    · rw [List.cons_append, removeLeadingSpaces_cons_ne c _ hc, removeLeadingSpaces_cons_ne c _ hc]
      rfl

theorem removeLeadingSpaces_append_of_nil (a b : Str) (h : removeLeadingSpaces a = []) :
    removeLeadingSpaces (a ++ b) = removeLeadingSpaces b := by
  induction a with
  | nil => rfl
  | cons c cs ih =>
    by_cases hc : c = 32
    · subst hc
      rw [removeLeadingSpaces_cons_space] at h
      rw [List.cons_append, removeLeadingSpaces_cons_space, ih h]
    · rw [removeLeadingSpaces_cons_ne c _ hc] at h
      exact absurd h (by simp)

theorem removeLeadingSpaces_ne_nil (t : Str) (h : ∃ c ∈ t, c ≠ 32) :
    removeLeadingSpaces t ≠ [] := by
  rw [removeLeadingSpaces_eq_dropWhile]
  intro h0
  rw [List.dropWhile_eq_nil_iff] at h0
  obtain ⟨c, hc, hne⟩ := h
  exact hne (by simpa using h0 c hc)

theorem mem_removeLeadingSpaces (t : Str) (c : Nat) (h : c ∈ removeLeadingSpaces t) : c ∈ t := by
  rw [removeLeadingSpaces_eq_dropWhile] at h
  exact (List.dropWhile_sublist _).subset h

theorem findFirst_lt (p : Nat → Bool) (a : Str) (i : Nat) (h : findFirst p a = some i) :
    i < a.length := by
  induction a generalizing i with
  | nil => simp [findFirst] at h
  | cons c cs ih =>
    rw [findFirst] at h
    by_cases hc : p c = true
    · simp [hc] at h; subst h; simp
    · rw [if_neg hc] at h
      cases hf : findFirst p cs with
      | none => simp [hf] at h
      | some j =>
        have := ih j hf
        simp [hf] at h
        subst h
        simp; omega

theorem findFirst_append (p : Nat → Bool) (a b : Str) (i : Nat) (h : findFirst p a = some i) :
    findFirst p (a ++ b) = some i := by
  induction a generalizing i with
  | nil => simp [findFirst] at h
  | cons c cs ih =>
    rw [findFirst] at h
    rw [List.cons_append, findFirst]
    by_cases hc : p c = true
    · simpa [hc] using h
    · rw [if_neg hc] at h ⊢
      cases hf : findFirst p cs with
      | none => simp [hf] at h
      | some j => rw [ih j hf]; rw [hf] at h; exact h

theorem parse_dn_part_no_eq (u : Str) (h : ∀ c ∈ u, c ≠ 61) : parse_dn_part u = none := by
  have : find_first_of u 61 = none := findFirst_none _ u (by simpa using h)
  simp [parse_dn_part, this]

theorem quotedLoop_append (x : Str) :
    ∀ (n : Nat) (a value v rest : Str), a.length ≤ n →
      quotedLoop a value = some (v, rest) → quotedLoop (a ++ x) value = some (v, rest ++ x) := by
  intro n
  induction n with
  | zero =>
    intro a value v rest hl h
    have : a = [] := List.length_eq_zero.mp (Nat.le_zero.mp hl)
    subst this
    simp [quotedLoop] at h
  | succ n ih =>
    intro a value v rest hl h
    cases a with
    | nil => simp [quotedLoop] at h
    | cons c cs =>
      rw [quotedLoop.eq_def] at h
      rw [List.cons_append, quotedLoop.eq_def]
      simp only at h ⊢
      by_cases hc : c = 92
      · simp only [hc, if_true] at h ⊢
        cases cs with
        | nil => simp at h
        | cons d ds =>
          simp only [List.cons_append] at h ⊢
          have hl2 : ds.length ≤ n := by simp at hl; omega
          by_cases hd : d = 34
          · simp only [hd, if_true] at h ⊢
            exact ih ds _ v rest hl2 h
          · simp only [hd, if_false] at h ⊢
            exact ih ds _ v rest hl2 h
      · simp only [hc, if_false] at h ⊢
        by_cases hq : c = 34
        · simp only [hq, if_true, Option.some.injEq, Prod.mk.injEq] at h ⊢
          exact ⟨h.1, by rw [h.2]⟩
        · simp only [hq, if_false] at h ⊢
          exact ih cs _ v rest (by simp at hl; omega) h

theorem plainLoop_append (d : Nat) (t : Str) (hd : terminator d = true) :
    ∀ (n : Nat) (a value v rest : Str) (last l : Bool), a.length ≤ n →
      plainLoop a value last = some (v, l, rest) →
      plainLoop (a ++ d :: t) value last = some (v, l, rest ++ d :: t) := by
  intro n
  induction n with
  | zero =>
    intro a value v rest last l hl h
    have : a = [] := List.length_eq_zero.mp (Nat.le_zero.mp hl)
    subst this
    simp only [plainLoop, Option.some.injEq, Prod.mk.injEq] at h
    obtain ⟨rfl, rfl, rfl⟩ := h
    simpa using plainLoop_stop d t value last hd
  | succ n ih =>
    intro a value v rest last l hl h
    cases a with
    | nil =>
      simp only [plainLoop, Option.some.injEq, Prod.mk.injEq] at h
      obtain ⟨rfl, rfl, rfl⟩ := h
      simpa using plainLoop_stop d t value last hd
    | cons c cs =>
      rw [plainLoop.eq_def] at h
      rw [List.cons_append, plainLoop.eq_def]
      simp only at h ⊢
      by_cases hc : c = 92
      · simp only [hc, if_true] at h ⊢
        cases cs with
        | nil => simp at h
        | cons e es =>
          simp only [List.cons_append] at h ⊢
          have hl2 : es.length ≤ n := by simp at hl; omega
          by_cases he : escapable e = true
          · simp only [he, if_true] at h ⊢
            exact ih es _ v rest _ l hl2 h
          · simp only [he, if_false] at h ⊢
            cases es with
            | nil => simp at h
            | cons f fs =>
              simp only [List.cons_append] at h ⊢
              by_cases hx : (isxdigit e && isxdigit f) = true
              · simp only [hx, if_true] at h ⊢
                exact ih fs _ v rest _ l (by simp at hl; omega) h
              · simp [hx] at h
      · simp only [hc, if_false] at h ⊢
        by_cases hq : c = 34
        · simp [hq] at h
        · simp only [hq, if_false] at h ⊢
          by_cases ht : terminator c = true
          · simp only [ht, if_true, Option.some.injEq, Prod.mk.injEq] at h ⊢
            obtain ⟨h1, h2, h3⟩ := h
            exact ⟨h1, h2, by rw [← h3]; rfl⟩
          · simp only [ht, if_false] at h ⊢
            exact ih cs _ v rest _ l (by simp at hl; omega) h

theorem npos_odd : npos % 2 = 1 := by decide

theorem parseValue_append (d : Nat) (t : Str) (hd : terminator d = true) (y v rest : Str)
    (h : parseValue y = some (v, rest)) :
    parseValue (y ++ d :: t) = some (v, rest ++ d :: t) := by
  cases y with
  | nil => simp [parseValue] at h
  | cons c tl =>
    rw [List.cons_append]
    by_cases h35 : c = 35
    · subst h35
      simp only [parseValue, if_true] at h ⊢
      cases he : find_first_not_of tl hexChars with
      | none => simp [he, posValue, npos_odd] at h
      | some i =>
        have hi : i < tl.length := findFirst_lt _ tl i he
        have he2 : find_first_not_of (tl ++ d :: t) hexChars = some i :=
          findFirst_append _ tl (d :: t) i he
        rw [he] at h
        rw [he2]
        simp only [posValue] at h ⊢
        by_cases hz : i = 0 ∨ i % 2 = 1
        · simp [hz] at h
        · simp only [hz, if_false] at h ⊢
          rw [List.take_append_of_le_length (Nat.le_of_lt hi)]
          cases hp : parseHexString (List.take i tl) with
          | none => simp [hp] at h
          | some value =>
            simp only [hp, Option.some.injEq, Prod.mk.injEq] at h ⊢
            refine ⟨h.1, ?_⟩
            rw [List.drop_append_of_le_length (Nat.le_of_lt hi), h.2]
    · by_cases h34 : c = 34
      · subst h34
        simp only [parseValue, h35, if_false, if_true] at h ⊢
        exact quotedLoop_append (d :: t) tl.length tl [] v rest (Nat.le_refl _) h
      · simp only [parseValue, h35, h34, if_false] at h ⊢
        cases hp : plainLoop (c :: tl) [] false with
        | none => simp [hp] at h
        | some r =>
          obtain ⟨value, last, rest0⟩ := r
          have := plainLoop_append d t hd (c :: tl).length (c :: tl) [] value rest0 false last
            (Nat.le_refl _) hp
          rw [List.cons_append] at this
          simp only [hp, Option.some.injEq, Prod.mk.injEq] at h
          simp only [this, Option.some.injEq, Prod.mk.injEq]
          exact ⟨h.1, by rw [h.2]⟩

theorem parse_dn_part_append (d : Nat) (t : Str) (hd : terminator d = true) (s rest : Str)
    (p : Str × Str) (h : parse_dn_part s = some (rest, p)) :
    parse_dn_part (s ++ d :: t) = some (rest ++ d :: t, p) := by
  simp only [parse_dn_part] at h ⊢
  cases hf : find_first_of s 61 with
  | none => simp [hf] at h
  | some i =>
    have hi : i < s.length := findFirst_lt _ s i hf
    have hf2 : find_first_of (s ++ d :: t) 61 = some i := findFirst_append _ s (d :: t) i hf
    rw [hf] at h
    rw [hf2]
    simp only at h ⊢
    by_cases hz : i = 0
    · simp [hz] at h
    · simp only [hz, if_false] at h ⊢
      rw [List.take_append_of_le_length (Nat.le_of_lt hi),
        List.drop_append_of_le_length (by omega)]
      cases hv : parseValue (removeLeadingSpaces (List.drop (i + 1) s)) with
      | none => simp [hv] at h
      | some r =>
        obtain ⟨value, rest0⟩ := r
        have hne : removeLeadingSpaces (List.drop (i + 1) s) ≠ [] := by
          intro h0; rw [h0] at hv; simp [parseValue] at hv
        rw [removeLeadingSpaces_append_of_ne _ _ hne,
          parseValue_append d t hd _ value rest0 hv]
        simp only [hv, Option.some.injEq, Prod.mk.injEq] at h ⊢
        exact ⟨by rw [h.1], h.2⟩

theorem parseStringLoop_tail_fails (fuel : Nat) (u : Str) (result : Result)
    (hne : removeLeadingSpaces u ≠ []) (hu : ∀ c ∈ u, c ≠ 61) :
    parseStringLoop (fuel + 1) u result = some [] :=
  parseStringLoop_fail fuel u result hne
    (parse_dn_part_no_eq _ (fun c hc => hu c (mem_removeLeadingSpaces u c hc)))

theorem parseStringLoop_extend (t : Str) (ht : ∀ c ∈ t, c ≠ 61) (hns : ∃ c ∈ t, c ≠ 32) :
    ∀ (fuel : Nat) (s : Str) (result r : Result),
      parseStringLoop fuel s result = some r → r ≠ [] →
      ∀ fuel2, fuel + 1 ≤ fuel2 → parseStringLoop fuel2 (s ++ 44 :: t) result = some [] := by
  have hx : ∀ c ∈ (44 :: t : Str), c ≠ 61 := by
    intro c hc
    rcases List.mem_cons.mp hc with h | h
    · omega
    · exact ht c h
  have hxne : removeLeadingSpaces (44 :: t) ≠ [] := by
    rw [removeLeadingSpaces_cons_ne 44 t (by decide)]; simp
  have htne : removeLeadingSpaces t ≠ [] := removeLeadingSpaces_ne_nil t hns
  intro fuel
  induction fuel with
  | zero => intro s result r h; simp [parseStringLoop] at h
  | succ f ih =>
    intro s result r h hr fuel2 hf
    obtain ⟨g, rfl⟩ : ∃ g, fuel2 = g + 1 := ⟨fuel2 - 1, by omega⟩
    by_cases hs : removeLeadingSpaces s = []
    · have : removeLeadingSpaces (s ++ 44 :: t) ≠ [] := by
        rw [removeLeadingSpaces_append_of_nil s _ hs]; exact hxne
      apply parseStringLoop_fail g _ result this
      rw [removeLeadingSpaces_append_of_nil s _ hs]
      exact parse_dn_part_no_eq _ (fun c hc => hx c (mem_removeLeadingSpaces _ c hc))
    · rw [parseStringLoop_unfold f s result hs] at h
      have hs2 : removeLeadingSpaces (s ++ 44 :: t) ≠ [] := by
        rw [removeLeadingSpaces_append_of_ne s _ hs]; simp [hs]
      rw [parseStringLoop_unfold g _ result hs2, removeLeadingSpaces_append_of_ne s _ hs]
      cases hp : parse_dn_part (removeLeadingSpaces s) with
      | none =>
        rw [hp] at h
        simp only [Option.some.injEq] at h
        exact absurd h.symm hr
      | some q =>
        obtain ⟨rest, dnPair⟩ := q
        rw [hp] at h
        rw [parse_dn_part_append 44 t (by decide) _ rest dnPair hp]
        simp only at h ⊢
        by_cases hrest : removeLeadingSpaces rest = []
        · rw [removeLeadingSpaces_append_of_nil rest _ hrest,
            removeLeadingSpaces_cons_ne 44 t (by decide)]
          simp only [show separator 44 = true by decide, if_true]
          obtain ⟨g2, rfl⟩ : ∃ g2, g = g2 + 1 := ⟨g - 1, by omega⟩
          exact parseStringLoop_tail_fails g2 t _ htne ht
        · rw [removeLeadingSpaces_append_of_ne rest _ hrest]
          cases hrr : removeLeadingSpaces rest with
          | nil => exact absurd hrr hrest
          | cons e es =>
            rw [hrr] at h
            simp only [List.cons_append] at h ⊢
            by_cases he : separator e = true
            · simp only [he, if_true] at h ⊢
              exact ih es _ r h hr g (by omega)
            · rw [if_neg he] at h
              simp only [Option.some.injEq] at h
              exact absurd h.symm hr

/-- Claim C2: parsing is all-or-nothing.  In the loop of `parseString`, whatever the
pairs collected so far, a component on which `parse_dn_part` fails, or one followed
(after spaces) by a character other than `, ; +`, makes the result the empty
sequence.  In particular, when `s` parses to a non-empty sequence and `t` has no `=`
and at least one character other than a space, `s ++ "," ++ t` parses to the empty
sequence. -/
theorem parseString_all_or_nothing :
    (∀ (fuel : Nat) (s : Str) (result : Result), removeLeadingSpaces s ≠ [] →
      parse_dn_part (removeLeadingSpaces s) = none →
      parseStringLoop (fuel + 1) s result = some []) ∧
    (∀ (fuel : Nat) (s rest : Str) (dnPair : Str × Str) (result : Result) (d : Nat) (ds : Str),
      removeLeadingSpaces s ≠ [] →
      parse_dn_part (removeLeadingSpaces s) = some (rest, dnPair) →
      removeLeadingSpaces rest = d :: ds → separator d = false →
      parseStringLoop (fuel + 1) s result = some []) ∧
    (∀ (s t : Str) (r : Result), parseString s = some r → r ≠ [] →
      (∀ c ∈ t, c ≠ 61) → (∃ c ∈ t, c ≠ 32) →
      parseString (s ++ 44 :: t) = some []) := by
  refine ⟨parseStringLoop_fail, parseStringLoop_junk, ?_⟩
  intro s t r h hr ht hns
  exact parseStringLoop_extend t ht hns (s.length + 1) s [] r h hr _ (by simp)

theorem parseString_all_or_nothing_witness :
    parseStringLoop 2 (str " O") [(str "CN", str "Simple")] = some [] ∧
    parseStringLoop 7 (str "CN=a=b") [(str "O", str "Silly")] = some [] ∧
    parseString (str "CN=Simple") = some [(str "CN", str "Simple")] ∧
    parseString (str "CN=Simple, O") = some [] :=
  ⟨parseString_all_or_nothing.1 1 (str " O") [(str "CN", str "Simple")] (by decide) (by decide),
   parseString_all_or_nothing.2.1 6 (str "CN=a=b") (str "=b") (str "CN", str "a")
     [(str "O", str "Silly")] 61 (str "b") (by decide) (by decide) (by decide) (by decide),
   by decide,
   parseString_all_or_nothing.2.2 (str "CN=Simple") (str " O") [(str "CN", str "Simple")]
     (by decide) (by decide) (by decide) (by decide)⟩

theorem dn_escape_reserved (c : Nat) (s : Str) (h : reserved c = true) :
    dn_escape (c :: s) = 92 :: c :: dn_escape s := by
  simp only [reserved, Bool.or_eq_true, decide_eq_true_eq] at h
  have : c = 44 ∨ c = 43 ∨ c = 34 ∨ c = 92 ∨ c = 60 ∨ c = 62 ∨ c = 59 := by omega
  simp [dn_escape, this]

theorem dn_escape_unreserved (c : Nat) (s : Str) (h : reserved c = false) :
    dn_escape (c :: s) = c :: dn_escape s := by
  simp only [reserved, Bool.or_eq_false_iff, decide_eq_false_iff_not] at h
  have : ¬ (c = 44 ∨ c = 43 ∨ c = 34 ∨ c = 92 ∨ c = 60 ∨ c = 62 ∨ c = 59) := by omega
  simp [dn_escape, this]

theorem plainLoop_escaped (c : Nat) (rest value : Str) (last : Bool) (h : reserved c = true) :
    plainLoop (92 :: c :: rest) value last = plainLoop rest (value ++ [c]) false := by
  have he : escapable c = true := by
    simp only [reserved, escapable, Bool.or_eq_true, decide_eq_true_eq] at h ⊢
    omega
  have h32 : c ≠ 32 := by
    simp only [reserved, Bool.or_eq_true, decide_eq_true_eq] at h
    omega
  rw [plainLoop.eq_def]
  simp [he, h32]

theorem ordinary_of_unreserved (c : Nat) (h : reserved c = false) (h61 : c ≠ 61) (h35 : c ≠ 35) :
    ordinary c = true := by
  simp only [reserved, Bool.or_eq_false_iff, decide_eq_false_iff_not] at h
  simp only [ordinary, terminator, Bool.and_eq_true, bne_iff_ne, ne_eq, Bool.not_eq_true',
    Bool.or_eq_false_iff, decide_eq_false_iff_not]
  omega

theorem plainLoop_dn_escape (v : Str) (hv : ∀ c ∈ v, c ≠ 61 ∧ c ≠ 35) (rest : Str) :
    ∀ (value : Str) (last : Bool),
      plainLoop (dn_escape v ++ rest) value last
        = plainLoop rest (value ++ v) (decide (v = []) && last) := by
  induction v with
  | nil => intro value last; simp [dn_escape]
  | cons c cs ih =>
    intro value last
    have hc := hv c (List.mem_cons_self _ _)
    have ih2 := ih (fun y hy => hv y (List.mem_cons_of_mem _ hy))
    cases hr : reserved c with
    | true =>
      rw [dn_escape_reserved c cs hr, List.cons_append, List.cons_append,
        plainLoop_escaped c _ value last hr, ih2]
      simp
    | false =>
      rw [dn_escape_unreserved c cs hr, List.cons_append,
        plainLoop_ordinary_cons c _ value last (ordinary_of_unreserved c hr hc.1 hc.2), ih2]
      simp

theorem parseValue_dn_escape (v : Str) (hne : v ≠ []) (hv : ∀ c ∈ v, c ≠ 61 ∧ c ≠ 35)
    (hlast : v.getLast? ≠ some 32) (rest : Str)
    (hrest : rest = [] ∨ ∃ d ds, rest = d :: ds ∧ terminator d = true) :
    parseValue (dn_escape v ++ rest) = some (v, rest) := by
  have hloop : plainLoop (dn_escape v ++ rest) [] false = some (v, false, rest) := by
    rw [plainLoop_dn_escape v hv rest [] false]
    rcases hrest with h | ⟨d, ds, h, hd⟩
    · subst h; simp [plainLoop]
    · subst h; simpa using plainLoop_stop d ds v false hd
  cases hd : dn_escape v ++ rest with
  | nil =>
    cases v with
    | nil => exact absurd rfl hne
    | cons c cs =>
      cases hr : reserved c with
      | true => rw [dn_escape_reserved c cs hr] at hd; simp at hd
      | false => rw [dn_escape_unreserved c cs hr] at hd; simp at hd
  | cons e es =>
    have he : e ≠ 35 ∧ e ≠ 34 := by
      cases v with
      | nil => exact absurd rfl hne
      | cons c cs =>
        have hc := hv c (List.mem_cons_self _ _)
        cases hr : reserved c with
        | true =>
          rw [dn_escape_reserved c cs hr] at hd
          simp only [List.cons_append, List.cons.injEq] at hd
          omega
        | false =>
          rw [dn_escape_unreserved c cs hr] at hd
          simp only [List.cons_append, List.cons.injEq] at hd
          simp only [reserved, Bool.or_eq_false_iff, decide_eq_false_iff_not] at hr
          omega
    rw [hd] at hloop
    simp only [parseValue, he.1, he.2, if_false, hloop]
    simp [removeTrailingSpaces_of_getLast _ hlast]

theorem dn_escape_head (v : Str) (hne : v ≠ []) (h : v.head? ≠ some 32) (rest : Str) :
    removeLeadingSpaces (dn_escape v ++ rest) = dn_escape v ++ rest := by
  cases v with
  | nil => exact absurd rfl hne
  | cons c cs =>
    cases hr : reserved c with
    | true =>
      rw [dn_escape_reserved c cs hr]
      exact removeLeadingSpaces_cons_ne 92 _ (by decide)
    | false =>
      rw [dn_escape_unreserved c cs hr]
      exact removeLeadingSpaces_cons_ne c _ (by intro hc; apply h; simp [hc])

theorem escapableValue_chars {v : Str} (h : EscapableValue v) : ∀ c ∈ v, c ≠ 61 ∧ c ≠ 35 := by
  intro c hc
  have := h.2.1 c hc
  simp only [isLetter, isDigit, reserved, Bool.or_eq_true, Bool.and_eq_true,
    decide_eq_true_eq, beq_iff_eq] at this
  omega

/-- Claim C4: the plain-form parser undoes `dn_escape`: for every non-empty value `v`
without a space at either end that consists of letters, digits, inner spaces and the
seven characters `, + " \ < > ;`, parsing `CN=` followed by `dn_escape v` yields
exactly the attribute `(CN, v)`. -/
theorem parseString_dn_escape (v : Str) (hv : EscapableValue v) :
    parseString (str "CN=" ++ dn_escape v) = some [(str "CN", v)] := by
  have hpart : parse_dn_part (str "CN" ++ 61 :: (dn_escape v ++ [])) = some ([], (str "CN", v)) := by
    rw [parse_dn_part_eq (str "CN") _ (by decide) (by decide),
      dn_escape_head v hv.1 hv.2.2.1, parseValue_dn_escape v hv.1 (escapableValue_chars hv) hv.2.2.2 [] (Or.inl rfl)]
    rfl
  have hs : removeLeadingSpaces (str "CN=" ++ dn_escape v) = str "CN" ++ 61 :: (dn_escape v ++ []) := by
    simp only [List.append_nil]
    exact removeLeadingSpaces_cons_ne 67 _ (by decide)
  have := parseStringLoop_last (str "CN=" ++ dn_escape v).length (str "CN=" ++ dn_escape v) []
    (str "CN", v) [] (by rw [hs]; simp) (by rw [hs]; exact hpart) rfl
  rw [parseString, this]
  simp [pushPair, hv.1]
  decide

theorem parseString_dn_escape_witness :
    EscapableValue (str "Sue, Grabbit and Runn") ∧
    str "CN=" ++ dn_escape (str "Sue, Grabbit and Runn") = str "CN=Sue\\, Grabbit and Runn" ∧
    parseString (str "CN=Sue\\, Grabbit and Runn") = some [(str "CN", str "Sue, Grabbit and Runn")] :=
  ⟨by decide, by decide, parseString_dn_escape (str "Sue, Grabbit and Runn") (by decide)⟩

theorem hexChars_contains (c : Nat) : hexChars.contains c = isxdigit c := by
  have h : hexChars = [49, 50, 51, 52, 53, 54, 55, 56, 57, 48, 97, 98, 99, 100, 101, 102,
      65, 66, 67, 68, 69, 70] := by decide
  rw [h, Bool.eq_iff_iff]
  simp only [List.contains_eq_any_beq, List.any_cons, List.any_nil, Bool.or_false, beq_iff_eq,
    Bool.or_eq_true, isxdigit, Bool.and_eq_true, decide_eq_true_eq]
  omega

theorem xtoi_eq_hexDigitValue (c : Nat) (h : isxdigit c = true) : xtoi c = hexDigitValue c := by
  simp only [isxdigit, Bool.or_eq_true, Bool.and_eq_true, decide_eq_true_eq] at h
  simp only [xtoi, hexDigitValue]
  split_ifs <;> omega

theorem hexDigitValue_lt (c : Nat) : hexDigitValue c < 16 := by
  simp only [hexDigitValue]
  split_ifs <;> omega

theorem xtoi2_eq_decodeHexPair (a b : Nat) (ha : isxdigit a = true) (hb : isxdigit b = true) :
    xtoi2 a b = decodeHexPair a b := by
  have h1 := hexDigitValue_lt a
  have h2 := hexDigitValue_lt b
  simp only [xtoi2, decodeHexPair, xtoi_eq_hexDigitValue a ha, xtoi_eq_hexDigitValue b hb]
  omega

theorem parseHexLoop_eq_decodeHexPairs :
    ∀ (n : Nat) (h : Str), h.length ≤ n → (∀ x ∈ h, isxdigit x = true) →
      parseHexLoop h = decodeHexPairs h := by
  intro n
  induction n using Nat.strong_induction_on with
  | _ n ih =>
    intro h hl hx
    match h, hl, hx with
    | [], _, _ => rfl
    | [_], _, _ => rfl
    | a :: b :: rest, hl, hx =>
      have ha := hx a (by simp)
      have hb := hx b (by simp)
      simp only [parseHexLoop, decodeHexPairs, xtoi2_eq_decodeHexPair a b ha hb]
      rw [ih (n - 2) (by simp at hl; omega) rest (by simp at hl; omega)
        (fun x hxr => hx x (by simp [hxr]))]

theorem find_first_not_of_hex_none (h : Str) (hx : ∀ x ∈ h, isxdigit x = true) :
    find_first_not_of h hexChars = none :=
  findFirst_none _ h (fun x hxm => by
    show (!hexChars.contains x) = false
    rw [hexChars_contains, hx x hxm]; rfl)

theorem find_first_not_of_hex_hit (h : Str) (c : Nat) (r : Str)
    (hx : ∀ x ∈ h, isxdigit x = true) (hc : isxdigit c = false) :
    find_first_not_of (h ++ c :: r) hexChars = some h.length :=
  findFirst_append_hit _ h c r
    (fun x hxm => by
      show (!hexChars.contains x) = false
      rw [hexChars_contains, hx x hxm]; rfl)
    (by
      show (!hexChars.contains c) = true
      rw [hexChars_contains, hc]; rfl)

theorem parseHexString_hex (h : Str) (hx : ∀ x ∈ h, isxdigit x = true) (hne : h ≠ [])
    (heven : h.length % 2 = 0) : parseHexString h = some (decodeHexPairs h) := by
  have hl : h.length ≠ 0 := by simpa using hne
  have : ¬ (h.length = 0 ∨ h.length % 2 = 1) := by omega
  simp only [parseHexString, this, if_false, find_first_not_of_hex_none h hx, ne_eq,
    not_true_eq_false]
  rw [parseHexLoop_eq_decodeHexPairs h.length h (Nat.le_refl _) hx]

/-- The hex form at the end of the input: the search for the end of the digit run
yields `npos`, which is odd, and the component is rejected. -/
theorem parseValue_hex_at_end (h : Str) (hx : ∀ x ∈ h, isxdigit x = true) :
    parseValue (35 :: h) = none := by
  simp [parseValue, find_first_not_of_hex_none h hx, posValue, npos_odd]

theorem parseValue_hex_followed (h : Str) (c : Nat) (r : Str)
    (hx : ∀ x ∈ h, isxdigit x = true) (hc : isxdigit c = false) :
    parseValue (35 :: (h ++ c :: r)) =
      if h ≠ [] ∧ h.length % 2 = 0 then some (decodeHexPairs h, c :: r) else none := by
  simp only [parseValue, if_true, find_first_not_of_hex_hit h c r hx hc, posValue]
  by_cases hz : h.length = 0 ∨ h.length % 2 = 1
  · have : ¬ (h ≠ [] ∧ h.length % 2 = 0) := by
      rintro ⟨h1, h2⟩
      have : h.length ≠ 0 := by simpa using h1
      omega
    simp [hz, this]
  · have hne : h ≠ [] := by
      intro h0; apply hz; left; simp [h0]
    have heven : h.length % 2 = 0 := by omega
    simp only [hz, if_false, List.take_left', List.drop_left',
      parseHexString_hex h hx hne heven]
    simp [hne, heven]

/-- Claim C5: the code rejects a hex form that runs to the end of the input: for
every name `n` (non-empty, without `=`) and all hex digits `h`, `parse_dn_part` fails
on `n=#h`, because the search for the end of the digit run yields `npos`, which is
odd.  On the input `2.5.4.5=#34` of the test "ends with hex string", `parseString`
returns the empty sequence, where the test expects `[(SerialNumber, "4")]`. -/
theorem parseString_hex_at_end_rejected :
    (∀ (n h : Str), n ≠ [] → (∀ x ∈ n, x ≠ 61) → (∀ x ∈ h, isxdigit x = true) →
      parse_dn_part (n ++ str "=#" ++ h) = none) ∧
    parseString (str "2.5.4.5=#34") = some [] := by
  refine ⟨?_, by decide⟩
  intro n h hn heq hx
  have hs : n ++ str "=#" ++ h = n ++ 61 :: (35 :: h) := by
    have : str "=#" = [61, 35] := by decide
    simp [this]
  rw [hs, parse_dn_part_eq n _ hn heq, removeLeadingSpaces_cons_ne 35 _ (by decide),
    parseValue_hex_at_end h hx]

theorem parseString_hex_at_end_rejected_witness :
    parse_dn_part (str "2.5.4.5" ++ str "=#" ++ str "34") = none :=
  parseString_hex_at_end_rejected.1 (str "2.5.4.5") (str "34") (by decide) (by decide)
    (by decide)

/-- Claim C6: hex form followed by more input: for a name `n` (non-empty, without `=`),
hex digits `h`, a character `c` that is not a hex digit and any rest `r`,
`parse_dn_part` succeeds on `n=#h` followed by `c` and `r` exactly when `h` is
non-empty and of even length; it then returns the bytes of the successive digit
pairs of `h`, under the stored name of `n`, and the remainder `c` followed by `r`. -/
theorem parse_dn_part_hex_followed (n h : Str) (c : Nat) (r : Str)
    (hn : n ≠ []) (heq : ∀ x ∈ n, x ≠ 61)
    (hx : ∀ x ∈ h, isxdigit x = true) (hc : isxdigit c = false) :
    ((parse_dn_part (n ++ str "=#" ++ h ++ c :: r)).isSome = true
        ↔ (h ≠ [] ∧ h.length % 2 = 0)) ∧
    (h ≠ [] ∧ h.length % 2 = 0 →
      parse_dn_part (n ++ str "=#" ++ h ++ c :: r)
        = some (c :: r, (keyName (removeTrailingSpaces n), decodeHexPairs h))) := by
  have hs : n ++ str "=#" ++ h ++ c :: r = n ++ 61 :: (35 :: (h ++ c :: r)) := by
    have : str "=#" = [61, 35] := by decide
    simp [this]
  rw [hs, parse_dn_part_eq n _ hn heq, removeLeadingSpaces_cons_ne 35 _ (by decide),
    parseValue_hex_followed h c r hx hc]
  by_cases hh : h ≠ [] ∧ h.length % 2 = 0
  · simp [hh]
  · simp [hh]

theorem parse_dn_part_hex_followed_witness :
    parse_dn_part (str "2.5.4.5=#34,CN=Koch\\, Werner,2.5.4.42=#5765726E6572,2.5.4.4=#4B6F6368,C=DE")
      = some (str ",CN=Koch\\, Werner,2.5.4.42=#5765726E6572,2.5.4.4=#4B6F6368,C=DE",
          (str "SerialNumber", str "4")) :=
  (parse_dn_part_hex_followed (str "2.5.4.5") (str "34") 44
    (str "CN=Koch\\, Werner,2.5.4.42=#5765726E6572,2.5.4.4=#4B6F6368,C=DE")
    (by decide) (by decide) (by decide) (by decide)).2 (by decide)

theorem plainLoop_hex_escape (d e : Nat) (rest value : Str) (last : Bool)
    (hd : isxdigit d = true) (he : isxdigit e = true) :
    plainLoop (92 :: d :: e :: rest) value last = plainLoop rest (value ++ [xtoi2 d e]) false := by
  have hesc : escapable d = false := by
    simp only [isxdigit, Bool.or_eq_true, Bool.and_eq_true, decide_eq_true_eq] at hd
    simp only [escapable, Bool.or_eq_false_iff, decide_eq_false_iff_not]
    omega
  rw [plainLoop.eq_def]
  simp [hesc, hd, he]

theorem plainLoop_escaped_space (rest value : Str) (last : Bool) :
    plainLoop (92 :: 32 :: rest) value last = plainLoop rest (value ++ [32]) true := by
  rw [plainLoop.eq_def]
  simp [escapable]

theorem plainLoop_end (rest value : Str) (last : Bool)
    (hrest : rest = [] ∨ ∃ d ds, rest = d :: ds ∧ terminator d = true) :
    plainLoop rest value last = some (value, last, rest) := by
  rcases hrest with h | ⟨d, ds, h, hd⟩
  · subst h; simp [plainLoop]
  · subst h; exact plainLoop_stop d ds value last hd

theorem simple_head (a : Str) (ha : SimpleValue a) :
    ∃ c cs, a = c :: cs ∧ c ≠ 35 ∧ c ≠ 34 ∧ c ≠ 32 := by
  obtain ⟨hne, hch, hhead, _⟩ := ha
  cases a with
  | nil => exact absurd rfl hne
  | cons c cs =>
    have := (simpleChar_ordinary c (hch c (List.mem_cons_self _ _)))
    refine ⟨c, cs, rfl, this.2, ?_, by intro h; apply hhead; simp [h]⟩
    have h1 := this.1
    simp only [ordinary, Bool.and_eq_true, bne_iff_ne, ne_eq] at h1
    exact h1.1.2

theorem parseString_single (s : Str) (name value : Str) (hs : removeLeadingSpaces s = s)
    (hne : s ≠ []) (hname : name ≠ []) (hvalue : value ≠ [])
    (hp : parse_dn_part s = some ([], (name, value))) :
    parseString s = some [(name, value)] := by
  have := parseStringLoop_last s.length s [] (name, value) [] (by rw [hs]; exact hne)
    (by rw [hs]; exact hp) rfl
  rw [parseString, this]
  simp [pushPair, hname, hvalue]

theorem str_CN_eq (y : Str) : str "CN=" ++ y = str "CN" ++ 61 :: y := by
  have h1 : str "CN=" = [67, 78, 61] := by decide
  have h2 : str "CN" = [67, 78] := by decide
  rw [h1, h2]; rfl

theorem parse_dn_part_CN (y : Str) :
    parse_dn_part (str "CN=" ++ y) =
      match parseValue (removeLeadingSpaces y) with
      | none => none
      | some (value, rest) => some (rest, (str "CN", value)) := by
  rw [str_CN_eq, parse_dn_part_eq (str "CN") y (by decide) (by decide)]
  rfl

theorem removeLeadingSpaces_CN (y : Str) :
    removeLeadingSpaces (str "CN=" ++ y) = str "CN=" ++ y :=
  removeLeadingSpaces_cons_ne 67 _ (by decide)

/-- Claim C7: in the plain form a backslash followed by two hex digits contributes one
byte: for simple non-empty `a` and `b` and hex digits `h1`, `h2`, parsing `CN=`
followed by `a`, a backslash, `h1`, `h2` and `b` yields the single attribute `CN`
with value `a`, the byte `16*hexDigitValue(h1) + hexDigitValue(h2)`, `b`. -/
theorem parseString_hex_escape (a b : Str) (h1 h2 : Nat) (ha : SimpleValue a)
    (hb : SimpleValue b) (hh1 : isxdigit h1 = true) (hh2 : isxdigit h2 = true) :
    parseString (str "CN=" ++ a ++ 92 :: h1 :: h2 :: b)
      = some [(str "CN", a ++ decodeHexPair h1 h2 :: b)] := by
  obtain ⟨c, cs, hac, h35, h34, h32⟩ := simple_head a ha
  have hloop : plainLoop (a ++ 92 :: h1 :: h2 :: (b ++ [])) [] false
      = some (a ++ decodeHexPair h1 h2 :: b, false, []) := by
    rw [plainLoop_ordinary a (fun x hx => (simpleChar_ordinary x (ha.2.1 x hx)).1),
      plainLoop_hex_escape h1 h2 _ _ false hh1 hh2,
      plainLoop_ordinary b (fun x hx => (simpleChar_ordinary x (hb.2.1 x hx)).1),
      xtoi2_eq_decodeHexPair h1 h2 hh1 hh2]
    simp [plainLoop]
  have hlast : (a ++ decodeHexPair h1 h2 :: b).getLast? ≠ some 32 := by
    have : (a ++ decodeHexPair h1 h2 :: b).getLast? = b.getLast? := by
      rw [show a ++ decodeHexPair h1 h2 :: b = (a ++ [decodeHexPair h1 h2]) ++ b by simp]
      exact List.getLast?_append_of_ne_nil _ hb.1
    rw [this]; exact hb.2.2.2
  have hval : parseValue (a ++ 92 :: h1 :: h2 :: b) = some (a ++ decodeHexPair h1 h2 :: b, []) := by
    simp only [List.append_nil] at hloop
    subst hac
    rw [List.cons_append] at hloop ⊢
    simp only [parseValue, h35, h34, if_false, hloop, Bool.false_eq_true]
    rw [removeTrailingSpaces_of_getLast _ hlast]
  apply parseString_single _ _ _ (by rw [List.append_assoc]; exact removeLeadingSpaces_CN _)
    (by simp [show str "CN=" ≠ [] by decide]) (by decide) (by simp [ha.1])
  rw [List.append_assoc, parse_dn_part_CN,
    removeLeadingSpaces_append_of_head a _ ha.1 ha.2.2.1, hval]

theorem parseString_hex_escape_witness :
    str "CN=" ++ str "S" ++ 92 :: 54 :: 57 :: str "mpl" = str "CN=S\\69mpl" ∧
    parseString (str "CN=S\\69mpl") = some [(str "CN", str "Simpl")] ∧
    parseString (str "CN=S\\69mpl\\65\\7A") = some [(str "CN", str "Simplez")] :=
  ⟨by decide, parseString_hex_escape (str "S") (str "mpl") 54 57 (by decide) (by decide)
    (by decide) (by decide), by decide⟩

theorem plainLoop_run (y : Str) :
    ∀ (n : Nat) (x value v : Str) (last l : Bool), x.length ≤ n →
      plainLoop x value last = some (v, l, []) →
      plainLoop (x ++ y) value last = plainLoop y v l := by
  intro n
  induction n with
  | zero =>
    intro x value v last l hl h
    have : x = [] := List.length_eq_zero.mp (Nat.le_zero.mp hl)
    subst this
    simp only [plainLoop, Option.some.injEq, Prod.mk.injEq] at h
    obtain ⟨rfl, rfl, _⟩ := h
    rfl
  | succ n ih =>
    intro x value v last l hl h
    cases x with
    | nil =>
      simp only [plainLoop, Option.some.injEq, Prod.mk.injEq] at h
      obtain ⟨rfl, rfl, _⟩ := h
      rfl
    | cons c cs =>
      rw [plainLoop.eq_def] at h
      rw [List.cons_append, plainLoop.eq_def]
      simp only at h ⊢
      by_cases hc : c = 92
      · simp only [hc, if_true] at h ⊢
        cases cs with
        | nil => simp at h
        | cons e es =>
          simp only [List.cons_append] at h ⊢
          have hl2 : es.length ≤ n := by simp at hl; omega
          by_cases he : escapable e = true
          · simp only [he, if_true] at h ⊢
            exact ih es _ v _ l hl2 h
          · simp only [he, if_false] at h ⊢
            cases es with
            | nil => simp at h
            | cons f fs =>
              simp only [List.cons_append] at h ⊢
              by_cases hx : (isxdigit e && isxdigit f) = true
              · simp only [hx, if_true] at h ⊢
                exact ih fs _ v _ l (by simp at hl; omega) h
              · simp [hx] at h
      · simp only [hc, if_false] at h ⊢
        by_cases hq : c = 34
        · simp [hq] at h
        · simp only [hq, if_false] at h ⊢
          by_cases ht : terminator c = true
          · simp [ht] at h
          · simp only [ht, if_false] at h ⊢
            exact ih cs _ v _ l (by simp at hl; omega) h

theorem parseValue_escaped_space_end (x value rest : Str) (last : Bool)
    (h35 : x.head? ≠ some 35) (h34 : x.head? ≠ some 34)
    (hx : plainLoop x [] false = some (value, last, []))
    (hrest : rest = [] ∨ ∃ d ds, rest = d :: ds ∧ terminator d = true) :
    parseValue (x ++ 92 :: 32 :: rest) = some (value ++ [32], rest) := by
  have hloop : plainLoop (x ++ 92 :: 32 :: rest) [] false = some (value ++ [32], true, rest) := by
    rw [plainLoop_run _ x.length x [] value false last (Nat.le_refl _) hx,
      plainLoop_escaped_space, plainLoop_end rest _ true hrest]
  cases x with
  | nil =>
    rw [List.nil_append] at hloop ⊢
    simp only [parseValue, hloop]
    simp
  | cons c cs =>
    have hc35 : c ≠ 35 := by intro h; apply h35; simp [h]
    have hc34 : c ≠ 34 := by intro h; apply h34; simp [h]
    rw [List.cons_append] at hloop ⊢
    simp only [parseValue, hc35, hc34, if_false, hloop]
    simp

/-- Claim C8: an escaped trailing space is preserved.  Whenever the plain-form loop has
run over `x` to its end with the value `value`, the text `x` followed by a backslash
and a space (at the end of the input or before a terminator) gives the value `value`
followed by the space, with every trailing space of `value` kept.  In particular, for
every simple non-empty `v`, parsing `CN=` followed by `v`, a backslash and a space
yields the single attribute `CN` with value `v` followed by a space. -/
theorem parseString_escaped_trailing_space :
    (∀ (x value rest : Str) (last : Bool), x.head? ≠ some 35 → x.head? ≠ some 34 →
      plainLoop x [] false = some (value, last, []) →
      (rest = [] ∨ ∃ d ds, rest = d :: ds ∧ terminator d = true) →
      parseValue (x ++ 92 :: 32 :: rest) = some (value ++ [32], rest)) ∧
    (∀ v : Str, SimpleValue v →
      parseString (str "CN=" ++ v ++ [92, 32]) = some [(str "CN", v ++ [32])]) := by
  refine ⟨parseValue_escaped_space_end, ?_⟩
  intro v hv
  obtain ⟨c, cs, hvc, h35, h34, h32⟩ := simple_head v hv
  have hx : plainLoop v [] false = some (v, false, []) := by
    have := plainLoop_ordinary v (fun x hx => (simpleChar_ordinary x (hv.2.1 x hx)).1) [] []
    simpa [plainLoop] using this
  have hval := parseValue_escaped_space_end v v [] false (by rw [hvc]; simpa using h35)
    (by rw [hvc]; simpa using h34) hx (Or.inl rfl)
  apply parseString_single _ _ _ (by rw [List.append_assoc]; exact removeLeadingSpaces_CN _)
    (by simp [show str "CN=" ≠ [] by decide]) (by decide) (by simp)
  rw [List.append_assoc, parse_dn_part_CN,
    removeLeadingSpaces_append_of_head v _ hv.1 hv.2.2.1, hval]

theorem parseString_escaped_trailing_space_witness :
    parseValue (str "a  " ++ 92 :: 32 :: str ",O=b") = some (str "a  " ++ [32], str ",O=b") ∧
    str "CN=" ++ str "Trailing space" ++ [92, 32] = str "CN=Trailing space\\ " ∧
    parseString (str "CN=Trailing space\\ ") = some [(str "CN", str "Trailing space ")] :=
  ⟨parseString_escaped_trailing_space.1 (str "a  ") (str "a  ") (str ",O=b") false
      (by decide) (by decide) (by decide) (Or.inr ⟨44, str "O=b", by decide, by decide⟩),
    by decide,
    parseString_escaped_trailing_space.2 (str "Trailing space") (by decide)⟩

theorem quotedLoop_items (items : List QuotedItem) (hitems : ∀ i ∈ items, i.ok = true)
    (rest : Str) :
    ∀ value : Str, quotedLoop (quotedText items ++ 34 :: rest) value
      = some (value ++ quotedValue items, rest) := by
  induction items with
  | nil =>
    intro value
    rw [quotedLoop.eq_def]
    simp [quotedText, quotedValue]
  | cons i is ih =>
    intro value
    have ih2 := ih (fun j hj => hitems j (List.mem_cons_of_mem _ hj))
    have hi := hitems i (List.mem_cons_self _ _)
    cases i with
    | char c =>
      simp only [QuotedItem.ok, Bool.and_eq_true, bne_iff_ne, ne_eq] at hi
      rw [quotedText, List.cons_append, quotedLoop.eq_def]
      simp only [hi.1, hi.2, if_false, ih2, quotedValue]
      simp
    | pair c =>
      rw [quotedText, List.cons_append, List.cons_append, quotedLoop.eq_def]
      by_cases hc : c = 34
      · simp only [hc, if_true, ih2, quotedValue]
        simp
      · simp only [hc, if_false, if_true, ih2, quotedValue]
        simp

theorem findLast_isSome (p : Nat → Bool) (a : Str) (h : ∃ x ∈ a, p x = true) :
    ∃ i, findLast p a = some i := by
  induction a with
  | nil => simp at h
  | cons c cs ih =>
    rw [findLast]
    cases hf : findLast p cs with
    | some i => exact ⟨i + 1, rfl⟩
    | none =>
      obtain ⟨x, hx, hpx⟩ := h
      rcases List.mem_cons.mp hx with h1 | h1
      · subst h1; exact ⟨0, by simp [hpx]⟩
      · obtain ⟨i, hi⟩ := ih ⟨x, h1, hpx⟩
        rw [hf] at hi; cases hi

theorem removeTrailingSpaces_ne_nil (n : Str) (h : ∃ x ∈ n, x ≠ 32) :
    removeTrailingSpaces n ≠ [] := by
  obtain ⟨i, hi⟩ := findLast_isSome (fun c => !List.contains [32] c) n
    (by obtain ⟨x, hx, hne⟩ := h; exact ⟨x, hx, by simp [hne]⟩)
  have hne : n ≠ [] := by
    obtain ⟨x, hx, _⟩ := h
    exact List.ne_nil_of_mem hx
  simp only [removeTrailingSpaces, find_last_not_of, hi]
  simp [hne]

theorem exists_ne_space_of_head (n : Str) (hn : n ≠ []) (hhead : n.head? ≠ some 32) :
    ∃ x ∈ n, x ≠ 32 := by
  cases n with
  | nil => exact absurd rfl hn
  | cons c cs => exact ⟨c, List.mem_cons_self _ _, by intro h; apply hhead; simp [h]⟩

theorem keyName_ne_nil (k : Str) (hk : k ≠ []) : keyName k ≠ [] := by
  unfold keyName
  split_ifs with h
  · exact h
  · exact hk

theorem parseString_quoted_general (n : Str) (items : List QuotedItem)
    (hn : n ≠ []) (heq : ∀ c ∈ n, c ≠ 61) (hhead : n.head? ≠ some 32)
    (hitems : ∀ i ∈ items, i.ok = true) (hval : quotedValue items ≠ []) :
    parseString (n ++ 61 :: 34 :: (quotedText items ++ [34]))
      = some [(keyName (removeTrailingSpaces n), quotedValue items)] := by
  apply parseString_single _ _ _ (removeLeadingSpaces_append_of_head n _ hn hhead)
    (by simp [hn])
    (keyName_ne_nil _ (removeTrailingSpaces_ne_nil n (exists_ne_space_of_head n hn hhead))) hval
  rw [parse_dn_part_eq n _ hn heq, removeLeadingSpaces_cons_ne 34 _ (by decide)]
  have := quotedLoop_items items hitems [] []
  simp only [parseValue, show (34 : Nat) ≠ 35 by decide, if_false, if_true, this]
  simp

/-- Claim C9: quoted form: for a name `n` (non-empty, without `=` and not starting with
a space) and a quoted body of ordinary characters and backslash pairs whose decoded
value is non-empty, parsing `n="body"` yields one attribute whose value is the body
with each backslash-quote pair replaced by a quote and every other backslash pair
copied verbatim; commas, reserved characters and spaces at either end are kept.
The name is the stored name of `n`, which is `n` itself for a simple name. -/
theorem parseString_quoted (n : Str) (items : List QuotedItem)
    (hn : n ≠ []) (heq : ∀ c ∈ n, c ≠ 61) (hhead : n.head? ≠ some 32)
    (hitems : ∀ i ∈ items, i.ok = true) (hval : quotedValue items ≠ []) :
    parseString (n ++ 61 :: 34 :: (quotedText items ++ [34]))
        = some [(keyName (removeTrailingSpaces n), quotedValue items)] ∧
    (SimpleName n →
      parseString (n ++ 61 :: 34 :: (quotedText items ++ [34]))
        = some [(n, quotedValue items)]) := by
  refine ⟨parseString_quoted_general n items hn heq hhead hitems hval, fun hs => ?_⟩
  rw [parseString_quoted_general n items hn heq hhead hitems hval, keyName_simple n hs]

theorem parseString_quoted_witness :
    parseString (str "CN=\"Comma, inside\"") = some [(str "CN", str "Comma, inside")] ∧
    parseString (str "CN=\" Leading and \\65 \\\" trailing spaces \"")
      = some [(str "CN", str " Leading and \\65 \" trailing spaces ")] :=
  ⟨(parseString_quoted (str "CN") ((str "Comma, inside").map QuotedItem.char)
      (by decide) (by decide) (by decide) (by decide) (by decide)).2 (by decide),
   (parseString_quoted (str "CN")
      ((str " Leading and ").map QuotedItem.char ++ [QuotedItem.pair 54, QuotedItem.char 53,
        QuotedItem.char 32, QuotedItem.pair 34] ++ (str " trailing spaces ").map QuotedItem.char)
      (by decide) (by decide) (by decide) (by decide) (by decide)).1⟩

theorem take_eq_iff_isPrefixOf (p k : Str) (hp : p.length = 4) :
    k.take 4 = p ↔ p.isPrefixOf k = true := by
  rw [List.isPrefixOf_iff_prefix, List.prefix_iff_eq_take, hp]
  exact eq_comm

theorem attributeNameForOID_eq (k : Str) :
    attributeNameForOID k = lookupOID (stripOid k) oidmap := by
  have h1 := take_eq_iff_isPrefixOf (str "OID.") k (by decide)
  have h2 := take_eq_iff_isPrefixOf (str "oid.") k (by decide)
  simp only [attributeNameForOID, stripOid, h1, h2, Bool.or_eq_true]

theorem lookupOID_mem (oid : Str) (l : List (Str × Str)) (hnd : (l.map Prod.snd).Nodup)
    (m : Str × Str) (hm : m ∈ l) (h : m.2 = oid) : lookupOID oid l = m.1 := by
  induction l with
  | nil => simp at hm
  | cons x xs ih =>
    rw [List.map_cons, List.nodup_cons] at hnd
    rw [lookupOID]
    rcases List.mem_cons.mp hm with h1 | h1
    · subst h1; simp [h]
    · have hx : oid ≠ x.2 := by
        intro hx
        apply hnd.1
        rw [← hx, ← h]
        exact List.mem_map_of_mem _ h1
      rw [if_neg hx]
      exact ih hnd.2 h1

theorem oidmap_nodup : (oidmap.map Prod.snd).Nodup := by decide

theorem oidmap_mnemonic_ne_nil : ∀ m ∈ oidmap, m.1 ≠ [] := by decide

theorem findFirst_take (p : Nat → Bool) (s : Str) (i : Nat) (h : findFirst p s = some i) :
    s.take i = s.takeWhile (fun c => !p c) := by
  induction s generalizing i with
  | nil => simp [findFirst] at h
  | cons c cs ih =>
    rw [findFirst] at h
    by_cases hc : p c = true
    · simp [hc] at h; subst h; simp [List.takeWhile, hc]
    · rw [if_neg hc] at h
      cases hf : findFirst p cs with
      | none => simp [hf] at h
      | some j =>
        simp [hf] at h
        subst h
        have hc2 : p c = false := by simpa using hc
        simp [List.takeWhile, hc2, ih j hf]

theorem keyName_of_key (k : Str) :
    (∀ m ∈ oidmap, m.2 = stripOid k → keyName k = m.1) ∧
    ((∀ m ∈ oidmap, m.2 ≠ stripOid k) → keyName k = k) := by
  constructor
  · intro m hm h
    have h1 : attributeNameForOID k = m.1 := by
      rw [attributeNameForOID_eq]
      exact lookupOID_mem _ oidmap oidmap_nodup m hm h
    simp [keyName, h1, oidmap_mnemonic_ne_nil m hm]
  · intro h
    have h1 : attributeNameForOID k = [] := by
      rw [attributeNameForOID_eq]
      exact lookupOID_none _ oidmap h
    simp [keyName, h1]

theorem parse_dn_part_name (s rest name value : Str)
    (h : parse_dn_part s = some (rest, (name, value))) : name = keyName (keyText s) := by
  simp only [parse_dn_part] at h
  cases hf : find_first_of s 61 with
  | none => simp [hf] at h
  | some i =>
    rw [hf] at h
    simp only at h
    by_cases hz : i = 0
    · simp [hz] at h
    · simp only [hz, if_false] at h
      cases hv : parseValue (removeLeadingSpaces (List.drop (i + 1) s)) with
      | none => simp [hv] at h
      | some r =>
        obtain ⟨v, rest0⟩ := r
        simp only [hv, Option.some.injEq, Prod.mk.injEq] at h
        rw [← h.2.1, keyText]
        have := findFirst_take _ s i hf
        rw [this]
        simp only [bne, Bool.not_eq_eq_eq_not, Bool.not_true]

/-- Claim C10: name canonicalisation: the name of a parsed component is decided by the
text before the first `=` with trailing spaces removed.  If that text, after removing
a leading `OID.` or `oid.`, is the OID of a table entry, the name is the mnemonic of
that entry; otherwise the trimmed text is kept verbatim.  So `2.5.4.5`,
`oid.2.5.4.42` and `OID.2.5.4.4` give `SerialNumber`, `GN` and `SN`, the name `ST` is
stored as `SP`, and the unknown OID `2.5.4.97` stays. -/
theorem parse_dn_part_name_canonical :
    (∀ (s rest name value : Str), parse_dn_part s = some (rest, (name, value)) →
      (∀ m ∈ oidmap, m.2 = stripOid (keyText s) → name = m.1) ∧
      ((∀ m ∈ oidmap, m.2 ≠ stripOid (keyText s)) → name = keyText s)) ∧
    parseString (str "2.5.4.5=x,oid.2.5.4.42=y,OID.2.5.4.4  =z,ST=California,2.5.4.97=w")
      = some [(str "SerialNumber", str "x"), (str "GN", str "y"), (str "SN", str "z"),
          (str "SP", str "California"), (str "2.5.4.97", str "w")] := by
  refine ⟨?_, by decide⟩
  intro s rest name value h
  rw [parse_dn_part_name s rest name value h]
  exact keyName_of_key (keyText s)

theorem parse_dn_part_name_canonical_witness :
    parse_dn_part (str "oid.2.5.4.42 = Werner,C=DE") = some (str ",C=DE", (str "GN", str "Werner")) ∧
    keyText (str "oid.2.5.4.42 = Werner,C=DE") = str "oid.2.5.4.42" ∧
    stripOid (str "oid.2.5.4.42") = str "2.5.4.42" ∧
    (∀ m ∈ oidmap, m.2 = stripOid (keyText (str "oid.2.5.4.42 = Werner,C=DE")) →
      str "GN" = m.1) :=
  ⟨by decide, by decide, by decide,
    (parse_dn_part_name_canonical.1 (str "oid.2.5.4.42 = Werner,C=DE") (str ",C=DE") (str "GN")
      (str "Werner") (by decide)).1⟩

theorem trimmed_eq_self (x : Str) (h : NoOuterSpace x) : trimmed x = x := by
  have h1 : x.dropWhile isSpace = x := by
    rw [List.dropWhile_eq_self_iff]
    intro hl
    cases x with
    | nil => simp at hl
    | cons c cs =>
      have := h.1
      simpa using this
  have h2 : List.rdropWhile isSpace x = x := by
    rw [List.rdropWhile_eq_self_iff]
    intro hne
    have := h.2
    rw [List.getLast?_eq_getLast _ hne] at this
    simpa using this
  rw [trimmed, h1]
  exact h2

theorem noOuterSpace_head (x : Str) (h : NoOuterSpace x) : x.head? ≠ some 32 := by
  intro h0
  have := h.1
  rw [h0] at this
  exact this (by decide)

theorem noOuterSpace_getLast (x : Str) (h : NoOuterSpace x) : x.getLast? ≠ some 32 := by
  intro h0
  have := h.2
  rw [h0] at this
  exact this (by decide)

theorem dn_escape_id (v : Str) (h : ∀ c ∈ v, reserved c = false) : dn_escape v = v := by
  induction v with
  | nil => rfl
  | cons c cs ih =>
    rw [dn_escape_unreserved c cs (h c (List.mem_cons_self _ _)),
      ih (fun y hy => h y (List.mem_cons_of_mem _ hy))]

theorem join_comma_eq_joinComponents (ps : Result) :
    join (str ",") (ps.map component) = joinComponents ps [] := by
  induction ps with
  | nil => rfl
  | cons p tl ih =>
    cases tl with
    | nil => rfl
    | cons q qs =>
      simp only [List.map_cons, join, joinComponents] at ih ⊢
      rw [ih]
      have : str "," = [44] := by decide
      simp [this]

theorem listAttributes_eq_map (attrs : Result)
    (h : ∀ a ∈ attrs, a.1 ≠ [] ∧ a.2 ≠ [] ∧ NoOuterSpace a.1 ∧ NoOuterSpace a.2 ∧
      ∀ c ∈ a.2, reserved c = false) :
    listAttributes attrs = attrs.map component := by
  induction attrs with
  | nil => rfl
  | cons a tl ih =>
    obtain ⟨h1, h2, h3, h4, h5⟩ := h a (List.mem_cons_self _ _)
    rw [listAttributes, if_pos ⟨h1, h2⟩, trimmed_eq_self _ h3, trimmed_eq_self _ h4,
      dn_escape_id _ h5, ih (fun y hy => h y (List.mem_cons_of_mem _ hy))]
    rfl

theorem lookupOID_cases (oid : Str) (l : List (Str × Str)) :
    lookupOID oid l = [] ∨ ∃ m ∈ l, lookupOID oid l = m.1 := by
  induction l with
  | nil => left; rfl
  | cons x xs ih =>
    rw [lookupOID]
    by_cases h : oid = x.2
    · right; exact ⟨x, List.mem_cons_self _ _, by simp [h]⟩
    · rw [if_neg h]
      rcases ih with h1 | ⟨m, hm, h1⟩
      · left; exact h1
      · right; exact ⟨m, List.mem_cons_of_mem _ hm, h1⟩

theorem oidmap_mnemonic_stable :
    ∀ m ∈ oidmap, (∀ c ∈ m.1, c ≠ 61) ∧ attributeNameForOID m.1 = [] := by decide

theorem keyName_stable (k : Str) (hk : ∀ c ∈ k, c ≠ 61) :
    (∀ c ∈ keyName k, c ≠ 61) ∧ attributeNameForOID (keyName k) = [] := by
  unfold keyName
  split_ifs with h
  · rw [attributeNameForOID_eq k] at h ⊢
    rcases lookupOID_cases (stripOid k) oidmap with h1 | ⟨m, hm, h1⟩
    · exact absurd h1 h
    · rw [h1]; exact oidmap_mnemonic_stable m hm
  · exact ⟨hk, by simpa using h⟩

theorem mem_removeTrailingSpaces (s : Str) (c : Nat) (h : c ∈ removeTrailingSpaces s) : c ∈ s := by
  unfold removeTrailingSpaces at h
  split at h
  · simp at h
  · exact List.mem_of_mem_take h

theorem keyText_no_eq (s : Str) : ∀ c ∈ keyText s, c ≠ 61 := by
  intro c hc
  have := List.mem_takeWhile_imp (mem_removeTrailingSpaces _ c hc)
  simpa using this

theorem parse_dn_part_name_stable (s rest name value : Str)
    (h : parse_dn_part s = some (rest, (name, value))) :
    (∀ c ∈ name, c ≠ 61) ∧ attributeNameForOID name = [] := by
  rw [parse_dn_part_name s rest name value h]
  exact keyName_stable _ (keyText_no_eq s)

theorem parseStringLoop_blank (fuel : Nat) (s : Str) (result : Result)
    (h : removeLeadingSpaces s = []) : parseStringLoop (fuel + 1) s result = some result := by
  by_cases hs : s = []
  · simp [parseStringLoop, hs]
  · simp [parseStringLoop, hs, h]

theorem pushPair_parsed (result : Result) (p : Str × Str)
    (hres : ∀ a ∈ result, ParsedAttribute a)
    (hp : (∀ c ∈ p.1, c ≠ 61) ∧ attributeNameForOID p.1 = []) :
    ∀ a ∈ pushPair result p, ParsedAttribute a := by
  unfold pushPair
  split_ifs with h
  · intro a ha
    rcases List.mem_append.mp ha with h1 | h1
    · exact hres a h1
    · rw [List.mem_singleton] at h1
      subst h1
      exact ⟨h.1, h.2, hp.1, hp.2⟩
  · exact hres

theorem parseStringLoop_parsed :
    ∀ (fuel : Nat) (s : Str) (result r : Result),
      parseStringLoop fuel s result = some r → (∀ a ∈ result, ParsedAttribute a) →
      ∀ a ∈ r, ParsedAttribute a := by
  intro fuel
  induction fuel with
  | zero => intro s result r h; simp [parseStringLoop] at h
  | succ f ih =>
    intro s result r h hres
    by_cases hs : removeLeadingSpaces s = []
    · rw [parseStringLoop_blank f s result hs] at h
      simp only [Option.some.injEq] at h
      rw [← h]; exact hres
    · rw [parseStringLoop_unfold f s result hs] at h
      cases hp : parse_dn_part (removeLeadingSpaces s) with
      | none =>
        rw [hp] at h
        simp only [Option.some.injEq] at h
        rw [← h]; simp
      | some q =>
        obtain ⟨rest, name, value⟩ := q
        rw [hp] at h
        simp only at h
        have hpush := pushPair_parsed result (name, value) hres
          (parse_dn_part_name_stable _ rest name value hp)
        cases hr : removeLeadingSpaces rest with
        | nil =>
          rw [hr] at h
          simp only [Option.some.injEq] at h
          rw [← h]; exact hpush
        | cons d ds =>
          rw [hr] at h
          simp only at h
          by_cases hd : separator d = true
          · rw [if_pos hd] at h
            exact ih ds _ r h hpush
          · rw [if_neg hd] at h
            simp only [Option.some.injEq] at h
            rw [← h]; simp

theorem parseString_parsed (s : Str) (attrs : Result) (h : parseString s = some attrs) :
    ∀ a ∈ attrs, ParsedAttribute a :=
  parseStringLoop_parsed _ s [] attrs h (by simp)

theorem joinComponents_ascii (ps : List (Str × Str))
    (hps : ∀ p ∈ ps, (∀ c ∈ p.1, c < 128) ∧ (∀ c ∈ p.2, c < 128)) :
    ∀ (seps : Str), (∀ c ∈ seps, c < 128) → ∀ c ∈ joinComponents ps seps, c < 128 := by
  induction ps with
  | nil => intro seps _ c hc; simp [joinComponents] at hc
  | cons p tl ih =>
    intro seps hseps c hc
    obtain ⟨h1, h2⟩ := hps p (List.mem_cons_self _ _)
    have hcomp : ∀ c ∈ component p, c < 128 := by
      intro c hc
      simp only [component, List.mem_append, List.mem_cons] at hc
      rcases hc with h | h | h
      · exact h1 c h
      · omega
      · exact h2 c h
    cases tl with
    | nil => exact hcomp c (by simpa [joinComponents] using hc)
    | cons q qs =>
      simp only [joinComponents, List.mem_append, List.mem_cons] at hc
      rcases hc with h | h | h
      · exact hcomp c h
      · rw [h]
        cases seps with
        | nil => simp
        | cons e es => exact hseps e (List.mem_cons_self _ _)
      · exact ih (fun a ha => hps a (List.mem_cons_of_mem _ ha)) seps.tail
          (fun x hx => hseps x (List.mem_of_mem_tail hx)) c h

theorem removeLeadingSpaces_name (n y : Str) :
    removeLeadingSpaces (n ++ 61 :: y) = removeLeadingSpaces n ++ 61 :: y := by
  by_cases h : removeLeadingSpaces n = []
  · rw [removeLeadingSpaces_append_of_nil n _ h, h, removeLeadingSpaces_cons_ne 61 y (by decide)]
    rfl
  · exact removeLeadingSpaces_append_of_ne n _ h

theorem parse_dn_part_leading_eq (y : Str) : parse_dn_part (61 :: y) = none := by
  simp [parse_dn_part, find_first_of, findFirst]

theorem parse_dn_part_value_none (n y : Str) (hn : ∀ c ∈ n, c ≠ 61)
    (hv : parseValue (removeLeadingSpaces y) = none) : parse_dn_part (n ++ 61 :: y) = none := by
  cases n with
  | nil => exact parse_dn_part_leading_eq y
  | cons c cs => rw [parse_dn_part_eq (c :: cs) y (by simp) hn, hv]

theorem removeLeadingSpaces_name_ne_nil (n y : Str) : removeLeadingSpaces (n ++ 61 :: y) ≠ [] := by
  rw [removeLeadingSpaces_name]; simp

theorem parseStringLoop_value_none (fuel : Nat) (result : Result) (n y : Str)
    (hn : ∀ c ∈ n, c ≠ 61) (hv : parseValue (removeLeadingSpaces y) = none) :
    parseStringLoop (fuel + 1) (n ++ 61 :: y) result = some [] := by
  apply parseStringLoop_fail fuel _ result (removeLeadingSpaces_name_ne_nil n y)
  rw [removeLeadingSpaces_name]
  exact parse_dn_part_value_none _ y
    (fun c hc => hn c (mem_removeLeadingSpaces n c hc)) hv

theorem parseStringLoop_value_junk (fuel : Nat) (result : Result) (n y value rest : Str)
    (d : Nat) (ds : Str) (hn : ∀ c ∈ n, c ≠ 61)
    (hv : parseValue (removeLeadingSpaces y) = some (value, rest))
    (hr : removeLeadingSpaces rest = d :: ds) (hd : separator d = false) :
    parseStringLoop (fuel + 1) (n ++ 61 :: y) result = some [] := by
  by_cases h : removeLeadingSpaces n = []
  · apply parseStringLoop_fail fuel _ result (removeLeadingSpaces_name_ne_nil n y)
    rw [removeLeadingSpaces_name, h]
    exact parse_dn_part_leading_eq y
  · apply parseStringLoop_junk fuel _ rest
      (keyName (removeTrailingSpaces (removeLeadingSpaces n)), value) result d ds
      (removeLeadingSpaces_name_ne_nil n y) _ hr hd
    rw [removeLeadingSpaces_name, parse_dn_part_eq _ y h
      (fun c hc => hn c (mem_removeLeadingSpaces n c hc)), hv]

theorem removeLeadingSpaces_spaces (sp x : Str) (hsp : ∀ c ∈ sp, c = 32) :
    removeLeadingSpaces (sp ++ x) = removeLeadingSpaces x := by
  induction sp with
  | nil => rfl
  | cons c cs ih =>
    have hc := hsp c (List.mem_cons_self _ _)
    subst hc
    rw [List.cons_append, removeLeadingSpaces_cons_space,
      ih (fun y hy => hsp y (List.mem_cons_of_mem _ hy))]

theorem plainLoop_badEscape (t value : Str) (last : Bool) (h : badEscape t = true) :
    plainLoop (92 :: t) value last = none := by
  rw [plainLoop.eq_def]
  match t, h with
  | [], _ => simp
  | [c], h =>
    simp only [badEscape, Bool.not_eq_true'] at h
    simp [h]
  | c :: e :: r, h =>
    simp only [badEscape, Bool.and_eq_true, Bool.not_eq_true'] at h
    simp [h.1, h.2]

theorem plainLoop_bare_quote (r value : Str) (last : Bool) :
    plainLoop (34 :: r) value last = none := by
  rw [plainLoop.eq_def]
  simp

theorem parseValue_of_plainLoop_none (y : Str) (h35 : y.head? ≠ some 35)
    (h34 : y.head? ≠ some 34) (h : plainLoop y [] false = none) : parseValue y = none := by
  cases y with
  | nil => rfl
  | cons c cs =>
    have hc35 : c ≠ 35 := by intro h0; apply h35; simp [h0]
    have hc34 : c ≠ 34 := by intro h0; apply h34; simp [h0]
    simp [parseValue, hc35, hc34, h]

theorem parseValue_malformed_plain (x tail v : Str) (l : Bool)
    (h35 : x.head? ≠ some 35) (h34 : x.head? ≠ some 34)
    (hx : plainLoop x [] false = some (v, l, []))
    (htail : (∃ t, tail = 92 :: t ∧ badEscape t = true) ∨ (x ≠ [] ∧ ∃ r, tail = 34 :: r)) :
    parseValue (x ++ tail) = none := by
  have hloop : plainLoop (x ++ tail) [] false = none := by
    rw [plainLoop_run tail x.length x [] v false l (Nat.le_refl _) hx]
    rcases htail with ⟨t, rfl, ht⟩ | ⟨_, r, rfl⟩
    · exact plainLoop_badEscape t v l ht
    · exact plainLoop_bare_quote r v l
  apply parseValue_of_plainLoop_none _ _ _ hloop
  · cases x with
    | nil =>
      rcases htail with ⟨t, rfl, _⟩ | ⟨hne, _⟩
      · simp
      · exact absurd rfl hne
    | cons c cs => simpa using h35
  · cases x with
    | nil =>
      rcases htail with ⟨t, rfl, _⟩ | ⟨hne, _⟩
      · simp
      · exact absurd rfl hne
    | cons c cs => simpa using h34

theorem removeLeadingSpaces_malformed (x tail : Str) (h32 : x.head? ≠ some 32)
    (htail : (∃ t, tail = 92 :: t ∧ badEscape t = true) ∨ (x ≠ [] ∧ ∃ r, tail = 34 :: r)) :
    removeLeadingSpaces (x ++ tail) = x ++ tail := by
  cases x with
  | nil =>
    rcases htail with ⟨t, rfl, _⟩ | ⟨hne, _⟩
    · exact removeLeadingSpaces_cons_ne 92 t (by decide)
    · exact absurd rfl hne
  | cons c cs => exact removeLeadingSpaces_append_of_head _ tail (by simp) h32

/-- Claim C11: malformed plain-form values make the whole parse empty.  Let the text
after `name=` (and optional spaces) start a plain-form value, and let the plain-form
loop have run over `x` to its end.  If `x` is followed by a backslash that ends the
input, by a backslash and a character that is neither one of `, = + < > # ; \ "`
space nor the first of two hex digits, or (for non-empty `x`) by a bare double
quote, then the loop of `parseString` returns the empty sequence whatever it has
collected, and so does `parseString` on that input. -/
theorem parseString_malformed_plain (n sp x tail v : Str) (l : Bool)
    (hn : ∀ c ∈ n, c ≠ 61) (hsp : ∀ c ∈ sp, c = 32)
    (h35 : x.head? ≠ some 35) (h34 : x.head? ≠ some 34) (h32 : x.head? ≠ some 32)
    (hx : plainLoop x [] false = some (v, l, []))
    (htail : (∃ t, tail = 92 :: t ∧ badEscape t = true) ∨ (x ≠ [] ∧ ∃ r, tail = 34 :: r)) :
    (∀ (fuel : Nat) (result : Result),
      parseStringLoop (fuel + 1) (n ++ 61 :: (sp ++ (x ++ tail))) result = some []) ∧
    parseString (n ++ 61 :: (sp ++ (x ++ tail))) = some [] := by
  have hv : parseValue (removeLeadingSpaces (sp ++ (x ++ tail))) = none := by
    rw [removeLeadingSpaces_spaces sp _ hsp, removeLeadingSpaces_malformed x tail h32 htail]
    exact parseValue_malformed_plain x tail v l h35 h34 hx htail
  exact ⟨fun fuel result => parseStringLoop_value_none fuel result n _ hn hv,
    parseStringLoop_value_none _ [] n _ hn hv⟩

theorem parseString_malformed_plain_witness :
    parseString (str "CN=Simple\\") = some [] ∧
    parseString (str "CN=Simple\\X") = some [] ∧
    parseString (str "CN=Simple\\a") = some [] ∧
    parseString (str "CN=Sim\"ple, O") = some [] :=
  ⟨(parseString_malformed_plain (str "CN") [] (str "Simple") (str "\\") (str "Simple") false
      (by decide) (by decide) (by decide) (by decide) (by decide) (by decide)
      (Or.inl ⟨[], by decide, by decide⟩)).2,
   (parseString_malformed_plain (str "CN") [] (str "Simple") (str "\\X") (str "Simple") false
      (by decide) (by decide) (by decide) (by decide) (by decide) (by decide)
      (Or.inl ⟨str "X", by decide, by decide⟩)).2,
   (parseString_malformed_plain (str "CN") [] (str "Simple") (str "\\a") (str "Simple") false
      (by decide) (by decide) (by decide) (by decide) (by decide) (by decide)
      (Or.inl ⟨str "a", by decide, by decide⟩)).2,
   (parseString_malformed_plain (str "CN") [] (str "Sim") (str "\"ple, O") (str "Sim") false
      (by decide) (by decide) (by decide) (by decide) (by decide) (by decide)
      (Or.inr ⟨by decide, str "ple, O", by decide⟩)).2⟩

theorem quotedLoop_items_run (items : List QuotedItem) (hitems : ∀ i ∈ items, i.ok = true)
    (rest : Str) :
    ∀ value : Str, quotedLoop (quotedText items ++ rest) value
      = quotedLoop rest (value ++ quotedValue items) := by
  induction items with
  | nil => intro value; simp [quotedText, quotedValue]
  | cons i is ih =>
    intro value
    have ih2 := ih (fun j hj => hitems j (List.mem_cons_of_mem _ hj))
    have hi := hitems i (List.mem_cons_self _ _)
    cases i with
    | char c =>
      simp only [QuotedItem.ok, Bool.and_eq_true, bne_iff_ne, ne_eq] at hi
      rw [quotedText, List.cons_append, quotedLoop.eq_def]
      simp only [hi.1, hi.2, if_false, ih2, quotedValue]
      simp
    | pair c =>
      rw [quotedText, List.cons_append, List.cons_append, quotedLoop.eq_def]
      by_cases hc : c = 34
      · simp only [hc, if_true, ih2, quotedValue]
        simp
      · simp only [hc, if_false, if_true, ih2, quotedValue]
        simp

theorem parseValue_quoted_open (items : List QuotedItem) (hitems : ∀ i ∈ items, i.ok = true) :
    parseValue (34 :: quotedText items) = none := by
  have h := quotedLoop_items_run items hitems [] []
  rw [List.append_nil] at h
  simp [parseValue, h, quotedLoop]

theorem parseValue_quoted_backslash (items : List QuotedItem)
    (hitems : ∀ i ∈ items, i.ok = true) :
    parseValue (34 :: (quotedText items ++ [92])) = none := by
  have h := quotedLoop_items_run items hitems [92] []
  have h2 : ∀ value : Str, quotedLoop [92] value = none := by
    intro value; rw [quotedLoop.eq_def]; simp
  simp [parseValue, h, h2]

theorem parseValue_quoted_closed (items : List QuotedItem) (hitems : ∀ i ∈ items, i.ok = true)
    (rest : Str) :
    parseValue (34 :: (quotedText items ++ 34 :: rest)) = some (quotedValue items, rest) := by
  have h := quotedLoop_items items hitems rest []
  simp [parseValue, h]

/-- Claim C12: a quoted value must be closed and followed only by spaces and then a
separator or the end of the input.  For a quoted body of ordinary characters and
backslash pairs after `name=` (and optional spaces), the loop of `parseString`
returns the empty sequence, whatever it has collected, and so does `parseString`:
when the input ends before a closing quote, when a backslash is the last character
inside the quotes, and when the closing quote is followed, after optional spaces, by
a character other than `, ; +`. -/
theorem parseString_quoted_malformed (n sp : Str) (items : List QuotedItem)
    (hn : ∀ c ∈ n, c ≠ 61) (hsp : ∀ c ∈ sp, c = 32) (hitems : ∀ i ∈ items, i.ok = true) :
    ((∀ (fuel : Nat) (result : Result),
        parseStringLoop (fuel + 1) (n ++ 61 :: (sp ++ 34 :: quotedText items)) result = some []) ∧
      parseString (n ++ 61 :: (sp ++ 34 :: quotedText items)) = some []) ∧
    ((∀ (fuel : Nat) (result : Result),
        parseStringLoop (fuel + 1) (n ++ 61 :: (sp ++ 34 :: (quotedText items ++ [92]))) result
          = some []) ∧
      parseString (n ++ 61 :: (sp ++ 34 :: (quotedText items ++ [92]))) = some []) ∧
    (∀ (sp2 : Str) (c : Nat) (r : Str), (∀ x ∈ sp2, x = 32) → c ≠ 32 → separator c = false →
      (∀ (fuel : Nat) (result : Result),
        parseStringLoop (fuel + 1)
          (n ++ 61 :: (sp ++ 34 :: (quotedText items ++ 34 :: (sp2 ++ c :: r)))) result
          = some []) ∧
      parseString (n ++ 61 :: (sp ++ 34 :: (quotedText items ++ 34 :: (sp2 ++ c :: r))))
        = some []) := by
  have hq : ∀ y : Str, removeLeadingSpaces (sp ++ 34 :: y) = 34 :: y := fun y => by
    rw [removeLeadingSpaces_spaces sp _ hsp, removeLeadingSpaces_cons_ne 34 y (by decide)]
  have h1 : parseValue (removeLeadingSpaces (sp ++ 34 :: quotedText items)) = none := by
    rw [hq]; exact parseValue_quoted_open items hitems
  have h2 : parseValue (removeLeadingSpaces (sp ++ 34 :: (quotedText items ++ [92]))) = none := by
    rw [hq]; exact parseValue_quoted_backslash items hitems
  refine ⟨⟨fun fuel result => parseStringLoop_value_none fuel result n _ hn h1,
      parseStringLoop_value_none _ [] n _ hn h1⟩,
    ⟨fun fuel result => parseStringLoop_value_none fuel result n _ hn h2,
      parseStringLoop_value_none _ [] n _ hn h2⟩, ?_⟩
  intro sp2 c r hsp2 hc hsep
  have h3 : parseValue (removeLeadingSpaces
      (sp ++ 34 :: (quotedText items ++ 34 :: (sp2 ++ c :: r))))
      = some (quotedValue items, sp2 ++ c :: r) := by
    rw [hq]; exact parseValue_quoted_closed items hitems _
  have h4 : removeLeadingSpaces (sp2 ++ c :: r) = c :: r := by
    rw [removeLeadingSpaces_spaces sp2 _ hsp2, removeLeadingSpaces_cons_ne c r hc]
  exact ⟨fun fuel result => parseStringLoop_value_junk fuel result n _ _ _ c r hn h3 h4 hsep,
    parseStringLoop_value_junk _ [] n _ _ _ c r hn h3 h4 hsep⟩

theorem parseString_quoted_malformed_witness :
    parseString (str "CN=\"Simple") = some [] ∧
    parseString (str "CN=\"Simple\\") = some [] ∧
    parseString (str "CN=\"Quotation \" Mark\"") = some [] :=
  ⟨(parseString_quoted_malformed (str "CN") [] ((str "Simple").map QuotedItem.char)
      (by decide) (by decide) (by decide)).1.2,
   (parseString_quoted_malformed (str "CN") [] ((str "Simple").map QuotedItem.char)
      (by decide) (by decide) (by decide)).2.1.2,
   ((parseString_quoted_malformed (str "CN") [] ((str "Quotation ").map QuotedItem.char)
      (by decide) (by decide) (by decide)).2.2 (str " ") 77 (str "ark\"")
      (by decide) (by decide) (by decide)).2⟩

theorem parse_dn_part_unusable (u : Str) (h : Unusable u) : parse_dn_part u = none := by
  rcases h with h | ⟨y, rfl⟩ | ⟨n, sp, rfl, hn, hsp⟩
  · exact parse_dn_part_no_eq u h
  · exact parse_dn_part_leading_eq y
  · apply parse_dn_part_value_none n sp hn
    have := removeLeadingSpaces_spaces sp [] hsp
    rw [List.append_nil] at this
    rw [this]; rfl

/-- Claim C13: a component without a usable name or value start fails.
`parse_dn_part` fails on every text that has no `=`, that begins with `=`, or in
which only spaces (or nothing) follow the first `=`; and when such a text is the
component that `parseString` reaches (the input after its leading spaces, not
empty), the loop returns the empty sequence whatever it has collected, and so does
`parseString`. -/
theorem parseString_unusable_component (u : Str) (h : Unusable u) :
    parse_dn_part u = none ∧
    ∀ s : Str, removeLeadingSpaces s = u → u ≠ [] →
      (∀ (fuel : Nat) (result : Result), parseStringLoop (fuel + 1) s result = some []) ∧
      parseString s = some [] := by
  refine ⟨parse_dn_part_unusable u h, ?_⟩
  intro s hs hne
  have hp : parse_dn_part (removeLeadingSpaces s) = none := by
    rw [hs]; exact parse_dn_part_unusable u h
  have hne2 : removeLeadingSpaces s ≠ [] := by rw [hs]; exact hne
  exact ⟨fun fuel result => parseStringLoop_fail fuel s result hne2 hp,
    parseStringLoop_fail _ s [] hne2 hp⟩

theorem parseString_unusable_component_witness :
    parseStringLoop 3 (str " O") [(str "CN", str "Simple")] = some [] ∧
    parseString (str "CN=Simple, O") = some [] ∧
    parseString (str "=Simple") = some [] ∧
    parseString (str "CN=") = some [] :=
  ⟨((parseString_unusable_component (str "O") (Or.inl (by decide))).2 (str " O")
      (by decide) (by decide)).1 2 [(str "CN", str "Simple")],
   by decide,
   ((parseString_unusable_component (str "=Simple")
      (Or.inr (Or.inl ⟨str "Simple", by decide⟩))).2 (str "=Simple") (by decide) (by decide)).2,
   ((parseString_unusable_component (str "CN=")
      (Or.inr (Or.inr ⟨str "CN", [], by decide, by decide, by decide⟩))).2 (str "CN=")
      (by decide) (by decide)).2⟩

theorem removeLeadingSpaces_length_le (s : Str) :
    (removeLeadingSpaces s).length ≤ s.length := by
  rw [removeLeadingSpaces_eq_dropWhile]
  exact (List.dropWhile_sublist _).length_le

theorem quotedLoop_length :
    ∀ (n : Nat) (a value v rest : Str), a.length ≤ n →
      quotedLoop a value = some (v, rest) → rest.length < a.length := by
  intro n
  induction n with
  | zero =>
    intro a value v rest hl h
    have : a = [] := List.length_eq_zero.mp (Nat.le_zero.mp hl)
    subst this
    simp [quotedLoop] at h
  | succ n ih =>
    intro a value v rest hl h
    cases a with
    | nil => simp [quotedLoop] at h
    | cons c cs =>
      rw [quotedLoop.eq_def] at h
      simp only at h
      by_cases hc : c = 92
      · simp only [hc, if_true] at h
        cases cs with
        | nil => simp at h
        | cons d ds =>
          simp only at h
          have hl2 : ds.length ≤ n := by simp at hl; omega
          by_cases hd : d = 34
          · simp only [hd, if_true] at h
            have := ih ds _ v rest hl2 h
            simp; omega
          · simp only [hd, if_false] at h
            have := ih ds _ v rest hl2 h
            simp; omega
      · simp only [hc, if_false] at h
        by_cases hq : c = 34
        · simp only [hq, if_true, Option.some.injEq, Prod.mk.injEq] at h
          rw [← h.2]; simp
        · simp only [hq, if_false] at h
          have := ih cs _ v rest (by simp at hl; omega) h
          simp; omega

theorem plainLoop_length :
    ∀ (n : Nat) (a value v rest : Str) (last l : Bool), a.length ≤ n →
      plainLoop a value last = some (v, l, rest) → rest.length ≤ a.length := by
  intro n
  induction n with
  | zero =>
    intro a value v rest last l hl h
    have : a = [] := List.length_eq_zero.mp (Nat.le_zero.mp hl)
    subst this
    simp only [plainLoop, Option.some.injEq, Prod.mk.injEq] at h
    rw [← h.2.2]
  | succ n ih =>
    intro a value v rest last l hl h
    cases a with
    | nil =>
      simp only [plainLoop, Option.some.injEq, Prod.mk.injEq] at h
      rw [← h.2.2]
    | cons c cs =>
      rw [plainLoop.eq_def] at h
      simp only at h
      by_cases hc : c = 92
      · simp only [hc, if_true] at h
        cases cs with
        | nil => simp at h
        | cons e es =>
          simp only at h
          have hl2 : es.length ≤ n := by simp at hl; omega
          by_cases he : escapable e = true
          · simp only [he, if_true] at h
            have := ih es _ v rest _ l hl2 h
            simp; omega
          · simp only [he, if_false] at h
            cases es with
            | nil => simp at h
            | cons f fs =>
              simp only at h
              by_cases hx : (isxdigit e && isxdigit f) = true
              · simp only [hx, if_true] at h
                have := ih fs _ v rest _ l (by simp at hl; omega) h
                simp; omega
              · simp [hx] at h
      · simp only [hc, if_false] at h
        by_cases hq : c = 34
        · simp [hq] at h
        · simp only [hq, if_false] at h
          by_cases ht : terminator c = true
          · simp only [ht, if_true, Option.some.injEq, Prod.mk.injEq] at h
            rw [← h.2.2]
          · simp only [ht, if_false] at h
            have := ih cs _ v rest _ l (by simp at hl; omega) h
            simp; omega

theorem parseValue_length (y v rest : Str) (h : parseValue y = some (v, rest)) :
    rest.length ≤ y.length := by
  cases y with
  | nil => simp [parseValue] at h
  | cons c tl =>
    by_cases h35 : c = 35
    · subst h35
      simp only [parseValue, if_true] at h
      split_ifs at h
      cases hp : parseHexString (List.take (posValue (find_first_not_of tl hexChars)) tl) with
      | none => simp [hp] at h
      | some value =>
        simp only [hp, Option.some.injEq, Prod.mk.injEq] at h
        rw [← h.2]
        simp; omega
    · by_cases h34 : c = 34
      · subst h34
        simp only [parseValue, h35, if_false, if_true] at h
        have := quotedLoop_length tl.length tl [] v rest (Nat.le_refl _) h
        simp; omega
      · simp only [parseValue, h35, h34, if_false] at h
        cases hp : plainLoop (c :: tl) [] false with
        | none => simp [hp] at h
        | some r =>
          obtain ⟨value, last, rest0⟩ := r
          have := plainLoop_length (c :: tl).length (c :: tl) [] value rest0 false last
            (Nat.le_refl _) hp
          simp only [hp, Option.some.injEq, Prod.mk.injEq] at h
          rw [← h.2]; exact this

theorem parse_dn_part_length (s rest : Str) (p : Str × Str)
    (h : parse_dn_part s = some (rest, p)) : rest.length < s.length := by
  simp only [parse_dn_part] at h
  cases hf : find_first_of s 61 with
  | none => simp [hf] at h
  | some i =>
    have hi : i < s.length := findFirst_lt _ s i hf
    rw [hf] at h
    simp only at h
    by_cases hz : i = 0
    · simp [hz] at h
    · simp only [hz, if_false] at h
      cases hv : parseValue (removeLeadingSpaces (List.drop (i + 1) s)) with
      | none => simp [hv] at h
      | some r =>
        obtain ⟨value, rest0⟩ := r
        have h1 := parseValue_length _ value rest0 hv
        have h2 := removeLeadingSpaces_length_le (List.drop (i + 1) s)
        simp only [hv, Option.some.injEq, Prod.mk.injEq] at h
        rw [← h.1]
        simp only [List.length_drop] at h2
        omega

theorem parseStringLoop_fuel :
    ∀ (f g : Nat) (s : Str) (result : Result), s.length < f → s.length < g →
      parseStringLoop f s result = parseStringLoop g s result := by
  intro f
  induction f with
  | zero => intro g s result hf; omega
  | succ f ih =>
    intro g s result hf hg
    obtain ⟨g, rfl⟩ : ∃ g2, g = g2 + 1 := ⟨g - 1, by omega⟩
    by_cases hs : removeLeadingSpaces s = []
    · rw [parseStringLoop_blank f s result hs, parseStringLoop_blank g s result hs]
    · rw [parseStringLoop_unfold f s result hs, parseStringLoop_unfold g s result hs]
      cases hp : parse_dn_part (removeLeadingSpaces s) with
      | none => rfl
      | some q =>
        obtain ⟨rest, dnPair⟩ := q
        simp only
        cases hr : removeLeadingSpaces rest with
        | nil => rfl
        | cons d ds =>
          simp only
          by_cases hd : separator d = true
          · rw [if_pos hd, if_pos hd]
            have h1 := parse_dn_part_length _ rest dnPair hp
            have h2 := removeLeadingSpaces_length_le s
            have h3 := removeLeadingSpaces_length_le rest
            rw [hr] at h3
            simp only [List.length_cons] at h3
            exact ih g ds _ (by omega) (by omega)
          · rw [if_neg hd, if_neg hd]

theorem parseString_drop_component (pre r : Str) (name : Str)
    (hpre : removeLeadingSpaces (pre ++ 44 :: r) = pre ++ 44 :: r)
    (hp : parse_dn_part (pre ++ 44 :: r) = some (44 :: r, (name, []))) :
    parseString (pre ++ 44 :: r) = parseString r := by
  have hne2 : removeLeadingSpaces (pre ++ 44 :: r) ≠ [] := by rw [hpre]; simp
  have := parseStringLoop_more (pre ++ 44 :: r).length (pre ++ 44 :: r) (44 :: r) (name, []) []
    44 r hne2 (by rw [hpre]; exact hp) (removeLeadingSpaces_cons_ne 44 r (by decide))
    (by decide)
  rw [parseString, this, parseString]
  have hpush : pushPair [] (name, ([] : Str)) = [] := by simp [pushPair]
  rw [hpush]
  exact parseStringLoop_fuel _ _ r [] (by simp; omega) (by simp)

/-- Claim C14: a component whose value decodes to the empty string is dropped without
failing the parse: for every input `r`, the component `CN=""` (an empty quoted
value) followed by a comma and `r` parses to the same result as `r`, and so does the
component `CN=` with an empty plain-form value, `CN=,` followed by `r`. -/
theorem parseString_empty_value_dropped (r : Str) :
    parseString (str "CN=\"\"," ++ r) = parseString r ∧
    parseString (str "CN=," ++ r) = parseString r := by
  have e1 : str "CN=\"\"," ++ r = str "CN=\"\"" ++ 44 :: r := by
    have : str "CN=\"\"," = str "CN=\"\"" ++ [44] := by decide
    rw [this]; simp
  have e2 : str "CN=," ++ r = str "CN=" ++ 44 :: r := by
    have : str "CN=," = str "CN=" ++ [44] := by decide
    rw [this]; simp
  have q1 : str "CN=\"\"" ++ 44 :: r = str "CN=" ++ (34 :: 34 :: 44 :: r) := by
    have : str "CN=\"\"" = str "CN=" ++ [34, 34] := by decide
    rw [this]; simp
  constructor
  · rw [e1]
    apply parseString_drop_component _ r (str "CN")
    · rw [q1]; exact removeLeadingSpaces_CN _
    · rw [q1, parse_dn_part_CN, removeLeadingSpaces_cons_ne 34 _ (by decide)]
      have : quotedLoop (34 :: 44 :: r) [] = some ([], 44 :: r) := by
        rw [quotedLoop.eq_def]; simp
      simp [parseValue, this]
  · rw [e2]
    apply parseString_drop_component _ r (str "CN")
    · exact removeLeadingSpaces_CN _
    · rw [parse_dn_part_CN, removeLeadingSpaces_cons_ne 44 _ (by decide)]
      have := plainLoop_stop 44 r [] false (by decide)
      simp [parseValue, this, removeTrailingSpaces_nil]

theorem orderPieces_seen (attrs u1 u2 : Result) (ts : List Str) :
    orderPieces attrs u1 ts true = orderPieces attrs u2 ts true := by
  induction ts with
  | nil => rfl
  | cons t ts ih => simp only [orderPieces, Bool.true_or, if_true, ih]

theorem orderPieces_nil_unlisted (attrs : Result) (ts : List Str) :
    orderPieces attrs [] ts false = orderPieces attrs [] ts true := by
  induction ts with
  | nil => rfl
  | cons t ts ih =>
    by_cases ht : t = sentinel
    · simp [orderPieces, ht]
    · simp [orderPieces, ht, ih]

theorem reorderLoop_eq (dn : Result) (o : List Str) :
    ∀ unk res : Result, reorderLoop dn o unk res = res ++ orderPieces dn unk o false := by
  induction o with
  | nil => intro unk res; simp [reorderLoop, orderPieces]
  | cons t ts ih =>
    intro unk res
    by_cases ht : t = sentinel
    · simp only [reorderLoop, orderPieces, ht, if_true, ih, Bool.false_or, decide_True,
        Bool.false_eq_true, if_false]
      rw [orderPieces_seen dn unk [] ts, orderPieces_nil_unlisted]
      simp
    · simp only [reorderLoop, orderPieces, ht, if_false, ih, Bool.false_or, decide_False]
      simp

theorem reorder_dn_eq (attrs : Result) (order : List Str) :
    reorder_dn attrs order = reorderByTokens attrs order := by
  simp [reorder_dn, reorderByTokens, reorderLoop_eq]

theorem contains_literalTokens (order : List Str) (x : Str) (hx : x ≠ sentinel) :
    (literalTokens order).contains x = order.contains x := by
  rw [Bool.eq_iff_iff]
  simp [literalTokens, hx]

theorem reorderAsClaimed_eq (attrs : Result) (order : List Str)
    (h : ∀ a ∈ attrs, a.1 ≠ sentinel) :
    reorderAsClaimed attrs order = reorderByTokens attrs order := by
  unfold reorderAsClaimed reorderByTokens
  congr 1
  apply List.filter_congr
  intro a ha
  rw [contains_literalTokens order a.1 (h a ha)]

/-- Claim C16 as stated fails: with the order `[_X_]`, an attribute named `_X_` is
not a literal token of the order, so the claim puts it at the sentinel; `reorder_dn`
finds its name in the order and drops it. -/
theorem reorder_dn_counterexample :
    reorder_dn [(str "_X_", str "v")] [str "_X_"] = [] ∧
    reorderAsClaimed [(str "_X_", str "v")] [str "_X_"] = [(str "_X_", str "v")] := by
  constructor <;> decide

/-- Claim C16, amended: `reorder_dn attrs order` is the concatenation, over the
tokens of `order` from left to right, of: for a literal name `t`, the attributes
named `t` in their original order; for the first sentinel, the attributes whose name
is no token of `order` (the sentinel string `_X_` counts as a token), in their
original order; for a later sentinel, nothing.  When no attribute is named `_X_`
this is the reordering in the words of the claim.  With the order
`[CN, L, _X_, OU, O, C]`, `[(O,Widget),(C,US),(CN,X)]` becomes
`[(CN,X),(O,Widget),(C,US)]` and `(SerialNumber,4)` lands at the sentinel. -/
theorem reorder_dn_pieces :
    (∀ (attrs : Result) (order : List Str),
      reorder_dn attrs order = reorderByTokens attrs order ∧
      ((∀ a ∈ attrs, a.1 ≠ sentinel) → reorder_dn attrs order = reorderAsClaimed attrs order)) ∧
    reorder_dn [(str "O", str "Widget"), (str "C", str "US"), (str "CN", str "X")]
        [str "CN", str "L", str "_X_", str "OU", str "O", str "C"]
      = [(str "CN", str "X"), (str "O", str "Widget"), (str "C", str "US")] ∧
    reorder_dn [(str "O", str "Widget"), (str "SerialNumber", str "4"), (str "C", str "US"),
          (str "CN", str "X")]
        [str "CN", str "L", str "_X_", str "OU", str "O", str "C"]
      = [(str "CN", str "X"), (str "SerialNumber", str "4"), (str "O", str "Widget"),
          (str "C", str "US")] := by
  refine ⟨fun attrs order => ⟨reorder_dn_eq attrs order, fun h => ?_⟩, by decide, by decide⟩
  rw [reorder_dn_eq, reorderAsClaimed_eq attrs order h]

theorem reorder_dn_pieces_witness :
    reorder_dn [(str "O", str "W"), (str "X", str "1"), (str "O", str "V")]
        [str "_X_", str "O", str "_X_"]
      = reorderAsClaimed [(str "O", str "W"), (str "X", str "1"), (str "O", str "V")]
        [str "_X_", str "O", str "_X_"] ∧
    reorder_dn [(str "O", str "W"), (str "X", str "1"), (str "O", str "V")]
        [str "_X_", str "O", str "_X_"]
      = [(str "X", str "1"), (str "O", str "W"), (str "O", str "V")] :=
  ⟨(reorder_dn_pieces.1 [(str "O", str "W"), (str "X", str "1"), (str "O", str "V")]
      [str "_X_", str "O", str "_X_"]).2 (by decide), by decide⟩

theorem filter_contains_cons_perm (attrs : Result) (t : Str) (lits : List Str)
    (ht : t ∉ lits) :
    List.Perm (attrs.filter (fun a => (t :: lits).contains a.1))
      (attrs.filter (fun a => a.1 == t) ++ attrs.filter (fun a => lits.contains a.1)) := by
  induction attrs with
  | nil => simp
  | cons a as ih =>
    by_cases h1 : a.1 = t
    · have h2 : ¬ a.1 ∈ lits := by rw [h1]; exact ht
      have e1 : (List.contains (t :: lits) a.1) = true := by simp [h1]
      have e2 : (a.1 == t) = true := by simpa using h1
      have e3 : (List.contains lits a.1) = false := by simpa using h2
      simp only [List.filter_cons, e1, e2, e3, if_true, Bool.false_eq_true, if_false,
        List.cons_append]
      exact List.Perm.cons a ih
    · by_cases h3 : a.1 ∈ lits
      · have e1 : (List.contains (t :: lits) a.1) = true := by simp [h3]
        have e2 : (a.1 == t) = false := by simpa using h1
        have e3 : (List.contains lits a.1) = true := by simpa using h3
        simp only [List.filter_cons, e1, e2, e3, if_true, Bool.false_eq_true, if_false]
        exact (List.Perm.cons a ih).trans List.perm_middle.symm
      · have e1 : (List.contains (t :: lits) a.1) = false := by simp [h3, h1]
        have e2 : (a.1 == t) = false := by simpa using h1
        have e3 : (List.contains lits a.1) = false := by simpa using h3
        simp only [List.filter_cons, e1, e2, e3, Bool.false_eq_true, if_false]
        exact ih

theorem orderPieces_perm (attrs unlisted : Result) (o : List Str) :
    ∀ seen : Bool, (literalTokens o).Nodup →
      List.Perm (orderPieces attrs unlisted o seen)
        (attrs.filter (fun a => (literalTokens o).contains a.1)
          ++ (if seen = false ∧ sentinel ∈ o then unlisted else [])) := by
  induction o with
  | nil => intro seen _; simp [orderPieces, literalTokens]
  | cons t ts ih =>
    intro seen hnd
    by_cases ht : t = sentinel
    · subst ht
      have hl : literalTokens (sentinel :: ts) = literalTokens ts := by simp [literalTokens]
      rw [hl] at hnd ⊢
      have ih2 := ih true hnd
      simp only [Bool.true_eq_false, false_and, if_false, List.append_nil] at ih2
      cases seen with
      | true =>
        simp only [orderPieces, if_true, Bool.true_or, List.nil_append, Bool.true_eq_false,
          false_and, if_false, List.append_nil]
        exact ih2
      | false =>
        simp only [orderPieces, if_true, Bool.false_or, decide_True, Bool.false_eq_true, if_false,
          List.mem_cons, true_or, and_self]
        exact (List.Perm.append_left unlisted ih2).trans List.perm_append_comm
    · have hl : literalTokens (t :: ts) = t :: literalTokens ts := by simp [literalTokens, ht]
      rw [hl] at hnd ⊢
      rw [List.nodup_cons] at hnd
      have hm : sentinel ∈ t :: ts ↔ sentinel ∈ ts := by
        simp only [List.mem_cons]
        constructor
        · rintro (h | h)
          · exact absurd h.symm ht
          · exact h
        · exact Or.inr
      have ih2 := ih seen hnd.2
      simp only [orderPieces, if_neg ht, ht, decide_False, Bool.or_false, hm]
      refine (List.Perm.append_left _ ih2).trans ?_
      rw [← List.append_assoc]
      exact List.Perm.append_right _ (filter_contains_cons_perm attrs t _ hnd.1).symm

/-- Claim C15 as stated fails: with a sentinel in the order, a name repeated in the
order duplicates its attributes, and an attribute named `_X_` is lost. -/
theorem reorder_dn_not_permutation :
    reorder_dn [(str "CN", str "X")] [str "CN", str "CN", str "_X_"]
      = [(str "CN", str "X"), (str "CN", str "X")] ∧
    ¬ List.Perm (reorder_dn [(str "CN", str "X")] [str "CN", str "CN", str "_X_"])
      [(str "CN", str "X")] ∧
    reorder_dn [(str "_X_", str "v"), (str "CN", str "X")] [str "CN", str "_X_"]
      = [(str "CN", str "X")] ∧
    ¬ List.Perm (reorder_dn [(str "_X_", str "v"), (str "CN", str "X")] [str "CN", str "_X_"])
      [(str "_X_", str "v"), (str "CN", str "X")] := by
  refine ⟨by decide, fun h => ?_, by decide, fun h => ?_⟩
  · have := h.length_eq
    revert this
    decide
  · have := h.length_eq
    revert this
    decide

/-- Claim C15, amended: reordering loses and duplicates nothing when the order
contains the sentinel, names no attribute twice, and no attribute is named `_X_`:
then `reorder_dn attrs order` is a permutation of `attrs`. -/
theorem reorder_dn_perm (attrs : Result) (order : List Str)
    (hs : sentinel ∈ order) (hnd : (literalTokens order).Nodup)
    (hx : ∀ a ∈ attrs, a.1 ≠ sentinel) :
    List.Perm (reorder_dn attrs order) attrs := by
  rw [reorder_dn_eq, reorderByTokens]
  refine (orderPieces_perm attrs _ order false hnd).trans ?_
  simp only [hs, and_self, if_true]
  have hf : attrs.filter (fun a => (literalTokens order).contains a.1)
      = attrs.filter (fun a => order.contains a.1) :=
    List.filter_congr (fun a ha => contains_literalTokens order a.1 (hx a ha))
  rw [hf]
  exact List.filter_append_perm _ attrs

theorem reorder_dn_perm_witness :
    List.Perm
      (reorder_dn [(str "O", str "Widget"), (str "SerialNumber", str "4"), (str "C", str "US"),
          (str "CN", str "X"), (str "O", str "Other")]
        [str "CN", str "L", str "_X_", str "OU", str "O", str "C"])
      [(str "O", str "Widget"), (str "SerialNumber", str "4"), (str "C", str "US"),
          (str "CN", str "X"), (str "O", str "Other")] :=
  reorder_dn_perm _ _ (by decide) (by decide) (by decide)

theorem deref_lt (h : Heap) (p : Nat) (P : Private) (hP : deref h p = some P) :
    p < h.length := by
  by_contra hlt
  have : h[p]? = none := List.getElem?_eq_none (by omega)
  simp [deref, this] at hP

theorem deref_store_same (h : Heap) (p : Nat) (v : Option Private) (hp : p < h.length) :
    deref (store h p v) p = v := by
  have : (h.set p v)[p]? = some v := by simp [List.getElem?_set, hp]
  simp only [deref, store, this]
  cases v <;> rfl

theorem deref_store_ne (h : Heap) (p q : Nat) (v : Option Private) (hne : q ≠ p) :
    deref (store h q v) p = deref h p := by
  have : (h.set q v)[p]? = h[p]? := by simp [List.getElem?_set, hne]
  simp only [deref, store, this]

theorem deref_append (h l : Heap) (p : Nat) (hp : p < h.length) :
    deref (h ++ l) p = deref h p := by
  have : (h ++ l)[p]? = h[p]? := List.getElem?_append_left hp
  simp only [deref, this]

theorem deref_append_new (h : Heap) (P : Private) :
    deref (h ++ [some P]) h.length = some P := by
  have : (h ++ [some P])[h.length]? = some (some P) := by simp
  simp only [deref, this]

theorem length_store (h : Heap) (p : Nat) (v : Option Private) :
    (store h p v).length = h.length := by
  simp [store]

theorem ref_eq (h : Heap) (p : Nat) (P : Private) (hP : deref h p = some P) :
    ref h p = store h p (some ⟨P.attributes, P.reorderedAttributes, P.order, P.mRefCount + 1⟩) := by
  simp [ref, hP]

theorem deref_unref_ne (h : Heap) (p q : Nat) (hne : q ≠ p) :
    deref (unref h q) p = deref h p := by
  unfold unref
  split
  · split_ifs
    · exact deref_store_ne h p q _ hne
    · exact deref_store_ne h p q _ hne
  · rfl

theorem detach_unshared (h : Heap) (p : Nat) (P : Private) (hP : deref h p = some P)
    (hr : P.mRefCount ≤ 1) : DN.detach h ⟨some p⟩ = (h, ⟨some p⟩) := by
  have : ¬ P.mRefCount > 1 := by omega
  simp [DN.detach, hP, this]

theorem detach_shared (h : Heap) (p : Nat) (P : Private) (hP : deref h p = some P)
    (hr : 1 < P.mRefCount) :
    (DN.detach h ⟨some p⟩).2 = ⟨some h.length⟩ ∧
    deref (DN.detach h ⟨some p⟩).1 h.length
      = some ⟨P.attributes, P.reorderedAttributes,
          [str "CN", str "L", str "_X_", str "OU", str "O", str "C"], 1⟩ ∧
    deref (DN.detach h ⟨some p⟩).1 p
      = some ⟨P.attributes, P.reorderedAttributes, P.order, P.mRefCount - 1⟩ ∧
    (DN.detach h ⟨some p⟩).1.length = h.length + 1 := by
  have hp := deref_lt h p P hP
  have hgt : P.mRefCount > 1 := hr
  have hnew := deref_append_new h (Private.copy P)
  have href := ref_eq (h ++ [some (Private.copy P)]) h.length _ hnew
  have hlen : (h ++ [some (Private.copy P)]).length = h.length + 1 := by simp
  have hp1 : deref (ref (h ++ [some (Private.copy P)]) h.length) p = some P := by
    rw [href, deref_store_ne _ p h.length _ (by omega), deref_append h _ p hp, hP]
  have hun : unref (ref (h ++ [some (Private.copy P)]) h.length) p
      = store (ref (h ++ [some (Private.copy P)]) h.length) p
          (some ⟨P.attributes, P.reorderedAttributes, P.order, P.mRefCount - 1⟩) := by
    have : ¬ P.mRefCount - 1 ≤ 0 := by omega
    simp [unref, hp1, this]
  simp only [DN.detach, hP, hgt, if_true]
  refine ⟨trivial, ?_, ?_, ?_⟩
  · rw [hun, deref_store_ne _ h.length p _ (by omega), href,
      deref_store_same _ _ _ (by omega)]
    simp [Private.copy]
  · rw [hun, deref_store_same _ _ _ (by rw [href, length_store]; omega)]
  · rw [hun, length_store, href, length_store, hlen]

theorem append_unshared (h : Heap) (p : Nat) (P : Private) (x : Str × Str)
    (hP : deref h p = some P) (hr : P.mRefCount ≤ 1) :
    (DN.append h ⟨some p⟩ x).2 = ⟨some p⟩ ∧
    deref (DN.append h ⟨some p⟩ x).1 p
      = some ⟨P.attributes ++ [x], [], P.order, P.mRefCount⟩ := by
  have hd := detach_unshared h p P hP hr
  simp only [DN.append, hd, hP]
  exact ⟨trivial, deref_store_same h p _ (deref_lt h p P hP)⟩

theorem append_shared (h : Heap) (p : Nat) (P : Private) (x : Str × Str)
    (hP : deref h p = some P) (hr : 1 < P.mRefCount) :
    (DN.append h ⟨some p⟩ x).2 = ⟨some h.length⟩ ∧
    deref (DN.append h ⟨some p⟩ x).1 h.length
      = some ⟨P.attributes ++ [x], [],
          [str "CN", str "L", str "_X_", str "OU", str "O", str "C"], 1⟩ ∧
    deref (DN.append h ⟨some p⟩ x).1 p
      = some ⟨P.attributes, P.reorderedAttributes, P.order, P.mRefCount - 1⟩ := by
  obtain ⟨h1, h2, h3, h4⟩ := detach_shared h p P hP hr
  have hp := deref_lt h p P hP
  simp only [DN.append, h1, h2]
  refine ⟨trivial, deref_store_same _ _ _ (by omega), ?_⟩
  rw [deref_store_ne _ p h.length _ (by omega), h3]

theorem prettyDN_string (h : Heap) (p : Nat) (P : Private) (hP : deref h p = some P) :
    (DN.prettyDN h ⟨some p⟩).2 = serialise (fillReordered P).reorderedAttributes (str ",") := by
  simp [DN.prettyDN, hP]

theorem prettyDN_heap (h : Heap) (p : Nat) (P : Private) (hP : deref h p = some P) :
    deref (DN.prettyDN h ⟨some p⟩).1 p = some (fillReordered P) := by
  simp only [DN.prettyDN, hP]
  exact deref_store_same h p _ (deref_lt h p P hP)

theorem fillReordered_empty (P : Private) (hc : P.reorderedAttributes = []) :
    (fillReordered P).reorderedAttributes = reorder_dn P.attributes P.order := by
  simp [fillReordered, hc]

theorem fillReordered_present (P : Private) (hc : P.reorderedAttributes ≠ []) :
    fillReordered P = P := by
  simp [fillReordered, hc]

theorem fillReordered_fields (P : Private) :
    (fillReordered P).attributes = P.attributes ∧ (fillReordered P).order = P.order ∧
      (fillReordered P).mRefCount = P.mRefCount := by
  unfold fillReordered
  split_ifs <;> simp

theorem reorder_dn_nil_order (attrs : Result) : reorder_dn attrs [] = [] := by
  simp [reorder_dn, reorderLoop]

theorem setAttributeOrder_heap (h : Heap) (p : Nat) (P : Private) (o : List Str)
    (hP : deref h p = some P) :
    deref (DN.setAttributeOrder h ⟨some p⟩ o) p
      = some ⟨P.attributes, P.reorderedAttributes, o, P.mRefCount⟩ := by
  simp only [DN.setAttributeOrder, hP]
  exact deref_store_same h p _ (deref_lt h p P hP)

theorem create_heap (h : Heap) :
    deref (DN.create h).1 h.length = some ⟨[], [], [], 1⟩ := by
  have hnew := deref_append_new h Private.create
  simp only [DN.create, ref_eq _ _ _ hnew]
  rw [deref_store_same _ _ _ (by simp)]
  simp [Private.create]

theorem fromString_heap (h : Heap) (s : Str) (r : Heap × DN) (hr : DN.fromString h s = some r) :
    ∃ attrs, parse_dn s = some attrs ∧ r.2 = ⟨some h.length⟩ ∧
      deref r.1 h.length = some ⟨attrs, [], [], 1⟩ := by
  unfold DN.fromString at hr
  cases hp : parse_dn s with
  | none => simp [hp] at hr
  | some attrs =>
    simp only [hp, Option.some.injEq] at hr
    refine ⟨attrs, rfl, by rw [← hr], ?_⟩
    have hc := create_heap h
    simp only [DN.create] at hc
    rw [← hr]
    simp only [setAttributes, hc]
    rw [deref_store_same _ _ _ (deref_lt _ _ _ hc)]

theorem new_dn_display (r : Heap × DN) (p : Nat) (attrs : Result)
    (h2 : r.2 = ⟨some p⟩) (h3 : deref r.1 p = some ⟨attrs, [], [], 1⟩) :
    DN.attributeOrder r.1 r.2 = [] ∧ (DN.prettyDN r.1 r.2).2 = [] := by
  constructor
  · simp [DN.attributeOrder, h2, h3]
  · rw [h2, prettyDN_string r.1 _ _ h3, fillReordered_empty _ rfl]
    simp [reorder_dn_nil_order, serialise, listAttributes, join]

/-- Claim C17: the code does not give a new `DN` the display order
`[CN, L, _X_, OU, O, C]`.  `Private()` leaves `order` empty (only the copy
constructor of `Private` sets that list), so for a `DN` constructed empty or by
parsing, `attributeOrder()` is the empty list and `prettyDN()` is the empty string.
For the `DN` parsed from `O=Widget,C=US,CN=X` the claim expects the order of six
tokens and the display form `CN=X,O=Widget,C=US`. -/
theorem default_order_not_set :
    (∀ h : Heap, DN.attributeOrder (DN.create h).1 (DN.create h).2 = [] ∧
      (DN.prettyDN (DN.create h).1 (DN.create h).2).2 = []) ∧
    (∀ (h : Heap) (s : Str) (r : Heap × DN), DN.fromString h s = some r →
      DN.attributeOrder r.1 r.2 = [] ∧ (DN.prettyDN r.1 r.2).2 = []) ∧
    (∀ (h : Heap) (u : Option Str) (r : Heap × DN), DN.fromUtf8 h u = some r →
      DN.attributeOrder r.1 r.2 = [] ∧ (DN.prettyDN r.1 r.2).2 = []) ∧
    DN.fromString [] (str "O=Widget,C=US,CN=X")
      = some ([some ⟨[(str "O", str "Widget"), (str "C", str "US"), (str "CN", str "X")],
          [], [], 1⟩], ⟨some 0⟩) ∧
    serialise (reorder_dn [(str "O", str "Widget"), (str "C", str "US"), (str "CN", str "X")]
        [str "CN", str "L", str "_X_", str "OU", str "O", str "C"]) (str ",")
      = str "CN=X,O=Widget,C=US" := by
  have hcreate : ∀ h : Heap, DN.attributeOrder (DN.create h).1 (DN.create h).2 = [] ∧
      (DN.prettyDN (DN.create h).1 (DN.create h).2).2 = [] :=
    fun h => new_dn_display (DN.create h) h.length [] rfl (create_heap h)
  have hparse : ∀ (h : Heap) (s : Str) (r : Heap × DN), DN.fromString h s = some r →
      DN.attributeOrder r.1 r.2 = [] ∧ (DN.prettyDN r.1 r.2).2 = [] := by
    intro h s r hr
    obtain ⟨attrs, _, h2, h3⟩ := fromString_heap h s r hr
    exact new_dn_display r h.length attrs h2 h3
  refine ⟨hcreate, hparse, fun h u r hr => ?_, by decide, by decide⟩
  cases u with
  | none =>
    simp only [DN.fromUtf8, Option.some.injEq] at hr
    rw [← hr]; exact hcreate h
  | some s => exact hparse h s r hr

theorem default_order_not_set_witness :
    DN.attributeOrder
        [some ⟨[(str "O", str "Widget"), (str "C", str "US"), (str "CN", str "X")], [], [], 1⟩]
        ⟨some 0⟩ = [] ∧
    (DN.prettyDN
        [some ⟨[(str "O", str "Widget"), (str "C", str "US"), (str "CN", str "X")], [], [], 1⟩]
        ⟨some 0⟩).2 = [] :=
  default_order_not_set.2.1 [] (str "O=Widget,C=US,CN=X")
    ([some ⟨[(str "O", str "Widget"), (str "C", str "US"), (str "CN", str "X")], [], [], 1⟩],
      ⟨some 0⟩) (by decide)

theorem prettyDN_after_setAttributeOrder (h : Heap) (p : Nat) (P : Private) (o : List Str)
    (hP : deref h p = some P) :
    DN.attributeOrder (DN.setAttributeOrder h ⟨some p⟩ o) ⟨some p⟩ = o ∧
    (P.reorderedAttributes ≠ [] →
      (DN.prettyDN (DN.setAttributeOrder h ⟨some p⟩ o) ⟨some p⟩).2
        = serialise P.reorderedAttributes (str ",")) ∧
    (P.reorderedAttributes = [] →
      (DN.prettyDN (DN.setAttributeOrder h ⟨some p⟩ o) ⟨some p⟩).2
        = serialise (reorder_dn P.attributes o) (str ",")) := by
  have hs := setAttributeOrder_heap h p P o hP
  refine ⟨by simp [DN.attributeOrder, hs], fun hc => ?_, fun hc => ?_⟩
  · rw [prettyDN_string _ p _ hs, fillReordered_present _ (by simpa using hc)]
  · rw [prettyDN_string _ p _ hs, fillReordered_empty _ (by simpa using hc)]

/-- Claim C18: the code lets the display form go stale.  `setAttributeOrder` stores
the order and leaves `reorderedAttributes` as it is (`append` clears it), and
`prettyDN` recomputes only when `reorderedAttributes` is empty.  So for every `DN`
whose reordered attributes are present, the `prettyDN()` after `setAttributeOrder(o)`
renders the old reordered attributes whatever `o` is; it renders
`reorder_dn(attributes, o)` only when they were empty.  For the `DN` parsed from
`CN=X,O=W`: after `setAttributeOrder([O, CN])` and `prettyDN()` (which gives
`O=W,CN=X`), `setAttributeOrder([CN, O])` is followed by the display form `O=W,CN=X`
again, where the claim expects `CN=X,O=W`. -/
theorem prettyDN_stale_after_setAttributeOrder :
    (∀ (h : Heap) (p : Nat) (P : Private) (o : List Str), deref h p = some P →
      DN.attributeOrder (DN.setAttributeOrder h ⟨some p⟩ o) ⟨some p⟩ = o ∧
      (P.reorderedAttributes ≠ [] →
        (DN.prettyDN (DN.setAttributeOrder h ⟨some p⟩ o) ⟨some p⟩).2
          = serialise P.reorderedAttributes (str ",")) ∧
      (P.reorderedAttributes = [] →
        (DN.prettyDN (DN.setAttributeOrder h ⟨some p⟩ o) ⟨some p⟩).2
          = serialise (reorder_dn P.attributes o) (str ","))) ∧
    DN.fromString [] (str "CN=X,O=W")
      = some ([some ⟨[(str "CN", str "X"), (str "O", str "W")], [], [], 1⟩], ⟨some 0⟩) ∧
    DN.prettyDN (DN.setAttributeOrder
        [some ⟨[(str "CN", str "X"), (str "O", str "W")], [], [], 1⟩] ⟨some 0⟩
        [str "O", str "CN"]) ⟨some 0⟩
      = ([some ⟨[(str "CN", str "X"), (str "O", str "W")],
            [(str "O", str "W"), (str "CN", str "X")], [str "O", str "CN"], 1⟩],
          str "O=W,CN=X") ∧
    (DN.prettyDN (DN.setAttributeOrder
        [some ⟨[(str "CN", str "X"), (str "O", str "W")],
            [(str "O", str "W"), (str "CN", str "X")], [str "O", str "CN"], 1⟩] ⟨some 0⟩
        [str "CN", str "O"]) ⟨some 0⟩).2 = str "O=W,CN=X" ∧
    serialise (reorder_dn [(str "CN", str "X"), (str "O", str "W")] [str "CN", str "O"])
      (str ",") = str "CN=X,O=W" :=
  ⟨prettyDN_after_setAttributeOrder, by decide, by decide, by decide, by decide⟩

theorem prettyDN_stale_after_setAttributeOrder_witness :
    (DN.prettyDN (DN.setAttributeOrder
        [some ⟨[(str "CN", str "X"), (str "O", str "W")],
            [(str "O", str "W"), (str "CN", str "X")], [str "O", str "CN"], 1⟩] ⟨some 0⟩
        [str "CN", str "O"]) ⟨some 0⟩).2
      = serialise [(str "O", str "W"), (str "CN", str "X")] (str ",") :=
  (prettyDN_stale_after_setAttributeOrder.1
    [some ⟨[(str "CN", str "X"), (str "O", str "W")],
      [(str "O", str "W"), (str "CN", str "X")], [str "O", str "CN"], 1⟩] 0
    ⟨[(str "CN", str "X"), (str "O", str "W")],
      [(str "O", str "W"), (str "CN", str "X")], [str "O", str "CN"], 1⟩
    [str "CN", str "O"] (by decide)).2.1 (by decide)

theorem append_result (h : Heap) (p : Nat) (P : Private) (x : Str × Str)
    (hP : deref h p = some P) :
    ∃ p1 P1, (DN.append h ⟨some p⟩ x).2 = ⟨some p1⟩ ∧
      deref (DN.append h ⟨some p⟩ x).1 p1 = some P1 ∧
      P1.attributes = P.attributes ++ [x] ∧ P1.reorderedAttributes = [] ∧
      (P.mRefCount ≤ 1 → P1.order = P.order) := by
  by_cases hr : P.mRefCount ≤ 1
  · obtain ⟨h1, h2⟩ := append_unshared h p P x hP hr
    exact ⟨p, _, h1, h2, rfl, rfl, fun _ => rfl⟩
  · obtain ⟨h1, h2, _⟩ := append_shared h p P x hP (by omega)
    exact ⟨h.length, _, h1, h2, rfl, rfl, fun h0 => absurd h0 hr⟩

theorem appended_display (r : Heap × DN) (p1 : Nat) (P1 : Private) (A : Result)
    (h1 : r.2 = ⟨some p1⟩) (h2 : deref r.1 p1 = some P1) (h3 : P1.attributes = A)
    (h4 : P1.reorderedAttributes = []) :
    DN.attributes r.1 r.2 = A ∧
    (DN.prettyDN r.1 r.2).2
      = serialise (reorder_dn A (DN.attributeOrder r.1 r.2)) (str ",") ∧
    DN.attributeOrder r.1 r.2 = P1.order := by
  refine ⟨by simp [DN.attributes, h1, h2, h3], ?_, by simp [DN.attributeOrder, h1, h2]⟩
  rw [h1, prettyDN_string r.1 p1 P1 h2, fillReordered_empty P1 h4, h3]
  simp [DN.attributeOrder, h2]

/-- Claim C19: `append` adds at the end and invalidates the cache.  For every `DN`
with attributes `A` and every attribute `x`, after `append(x)` the attributes are
`A ++ [x]` and the next `prettyDN()` is the rendering of
`reorder_dn(A ++ [x], order)` for the order the `DN` then has, which is its order from
before the append when its data was not shared.  The same holds when `prettyDN()`
was called before the append. -/
theorem append_then_prettyDN (h : Heap) (p : Nat) (P : Private) (x : Str × Str)
    (hP : deref h p = some P) :
    (DN.attributes (DN.append h ⟨some p⟩ x).1 (DN.append h ⟨some p⟩ x).2 = P.attributes ++ [x] ∧
      (DN.prettyDN (DN.append h ⟨some p⟩ x).1 (DN.append h ⟨some p⟩ x).2).2
        = serialise (reorder_dn (P.attributes ++ [x])
            (DN.attributeOrder (DN.append h ⟨some p⟩ x).1 (DN.append h ⟨some p⟩ x).2))
            (str ",") ∧
      (P.mRefCount ≤ 1 →
        DN.attributeOrder (DN.append h ⟨some p⟩ x).1 (DN.append h ⟨some p⟩ x).2 = P.order)) ∧
    (DN.attributes (DN.append (DN.prettyDN h ⟨some p⟩).1 ⟨some p⟩ x).1
        (DN.append (DN.prettyDN h ⟨some p⟩).1 ⟨some p⟩ x).2 = P.attributes ++ [x] ∧
      (DN.prettyDN (DN.append (DN.prettyDN h ⟨some p⟩).1 ⟨some p⟩ x).1
          (DN.append (DN.prettyDN h ⟨some p⟩).1 ⟨some p⟩ x).2).2
        = serialise (reorder_dn (P.attributes ++ [x])
            (DN.attributeOrder (DN.append (DN.prettyDN h ⟨some p⟩).1 ⟨some p⟩ x).1
              (DN.append (DN.prettyDN h ⟨some p⟩).1 ⟨some p⟩ x).2)) (str ",") ∧
      (P.mRefCount ≤ 1 →
        DN.attributeOrder (DN.append (DN.prettyDN h ⟨some p⟩).1 ⟨some p⟩ x).1
          (DN.append (DN.prettyDN h ⟨some p⟩).1 ⟨some p⟩ x).2 = P.order)) := by
  constructor
  · obtain ⟨p1, P1, h1, h2, h3, h4, h5⟩ := append_result h p P x hP
    obtain ⟨a1, a2, a3⟩ := appended_display _ p1 P1 _ h1 h2 h3 h4
    exact ⟨a1, a2, fun hr => by rw [a3, h5 hr]⟩
  · have hP2 := prettyDN_heap h p P hP
    obtain ⟨f1, f2, f3⟩ := fillReordered_fields P
    obtain ⟨p1, P1, h1, h2, h3, h4, h5⟩ := append_result _ p _ x hP2
    rw [f1] at h3
    obtain ⟨a1, a2, a3⟩ := appended_display _ p1 P1 _ h1 h2 h3 h4
    exact ⟨a1, a2, fun hr => by rw [a3, h5 (by rw [f3]; exact hr), f2]⟩

theorem append_then_prettyDN_witness :
    (DN.prettyDN
        (DN.append [some ⟨[(str "O", str "W")], [(str "O", str "W")], [str "CN", str "O"], 1⟩]
          ⟨some 0⟩ (str "CN", str "X")).1
        (DN.append [some ⟨[(str "O", str "W")], [(str "O", str "W")], [str "CN", str "O"], 1⟩]
          ⟨some 0⟩ (str "CN", str "X")).2).2
      = serialise (reorder_dn ([(str "O", str "W")] ++ [(str "CN", str "X")])
          (DN.attributeOrder
            (DN.append [some ⟨[(str "O", str "W")], [(str "O", str "W")], [str "CN", str "O"], 1⟩]
              ⟨some 0⟩ (str "CN", str "X")).1
            (DN.append [some ⟨[(str "O", str "W")], [(str "O", str "W")], [str "CN", str "O"], 1⟩]
              ⟨some 0⟩ (str "CN", str "X")).2)) (str ",") ∧
    (DN.prettyDN
        (DN.append [some ⟨[(str "O", str "W")], [(str "O", str "W")], [str "CN", str "O"], 1⟩]
          ⟨some 0⟩ (str "CN", str "X")).1
        (DN.append [some ⟨[(str "O", str "W")], [(str "O", str "W")], [str "CN", str "O"], 1⟩]
          ⟨some 0⟩ (str "CN", str "X")).2).2 = str "CN=X,O=W" :=
  ⟨(append_then_prettyDN
      [some ⟨[(str "O", str "W")], [(str "O", str "W")], [str "CN", str "O"], 1⟩] 0
      ⟨[(str "O", str "W")], [(str "O", str "W")], [str "CN", str "O"], 1⟩ (str "CN", str "X")
      (by decide)).1.2.1, by decide⟩

theorem sameView_of_fields (h1 h2 : Heap) (p : Nat) (P1 P2 : Private)
    (e1 : deref h1 p = some P1) (e2 : deref h2 p = some P2)
    (ha : P1.attributes = P2.attributes)
    (hc : P1.reorderedAttributes = P2.reorderedAttributes) (ho : P1.order = P2.order) :
    SameView h1 h2 ⟨some p⟩ := by
  refine ⟨by simp [DN.attributes, e1, e2, ha], fun sep => by simp [DN.dn, e1, e2, ha], ?_⟩
  rw [prettyDN_string h1 p P1 e1, prettyDN_string h2 p P2 e2]
  by_cases hz : P2.reorderedAttributes = []
  · rw [fillReordered_empty P1 (hc.trans hz), fillReordered_empty P2 hz, ha, ho]
  · rw [fillReordered_present P1 (by rw [hc]; exact hz), fillReordered_present P2 hz, hc]

theorem deref_ref_same (h : Heap) (p : Nat) (P : Private) (hP : deref h p = some P) :
    deref (ref h p) p
      = some ⟨P.attributes, P.reorderedAttributes, P.order, P.mRefCount + 1⟩ := by
  rw [ref_eq h p P hP, deref_store_same h p _ (deref_lt h p P hP)]

theorem append_shared_view (h0 h : Heap) (p : Nat) (P0 P : Private) (x : Str × Str)
    (h0P : deref h0 p = some P0) (hP : deref h p = some P) (hr : 1 < P.mRefCount)
    (ha : P.attributes = P0.attributes)
    (hc : P.reorderedAttributes = P0.reorderedAttributes) (ho : P.order = P0.order) :
    SameView (DN.append h ⟨some p⟩ x).1 h0 ⟨some p⟩ :=
  sameView_of_fields _ h0 p _ P0 (append_shared h p P x hP hr).2.2 h0P ha hc ho

/-- Claim C20: copies are isolated under `append`.  Let `a` be a `DN` whose data is
alive with a reference count of at least 1 (at least 2 when `b` already shares it).
After `b` is made a copy of `a`, by copy construction or by assignment, and
`b.append(x)`, the attributes of `a`, `a.dn(sep)` and `a.prettyDN()` are what they
were before. -/
theorem copy_isolated_under_append (h : Heap) (pa : Nat) (P : Private) (x : Str × Str)
    (hP : deref h pa = some P) (hr : 1 ≤ P.mRefCount) :
    SameView (DN.append (DN.copy h ⟨some pa⟩).1 (DN.copy h ⟨some pa⟩).2 x).1 h ⟨some pa⟩ ∧
    ∀ b : DN, (b.d = some pa → 2 ≤ P.mRefCount) →
      SameView (DN.append (DN.assign h b ⟨some pa⟩).1 (DN.assign h b ⟨some pa⟩).2 x).1 h
        ⟨some pa⟩ := by
  have href := deref_ref_same h pa P hP
  constructor
  · simp only [DN.copy]
    exact append_shared_view h (ref h pa) pa P _ x hP href (by simp; omega) rfl rfl rfl
  · intro b hb
    by_cases hd : b.d = some pa
    · have hb2 : b = ⟨some pa⟩ := by cases b; simp at hd; simp [hd]
      subst hb2
      simp only [DN.assign, if_true]
      exact append_shared_view h h pa P P x hP hP (by have := hb rfl; omega) rfl rfl rfl
    · simp only [DN.assign, hd, if_false]
      cases hq : b.d with
      | none =>
        simp only
        exact append_shared_view h (ref h pa) pa P _ x hP href (by simp; omega) rfl rfl rfl
      | some q =>
        have hne : q ≠ pa := by
          intro h0; apply hd; rw [hq, h0]
        simp only
        have h1 : deref (unref (ref h pa) q) pa = _ :=
          (deref_unref_ne (ref h pa) pa q hne).trans href
        exact append_shared_view h _ pa P _ x hP h1 (by simp; omega) rfl rfl rfl

theorem copy_isolated_under_append_witness :
    SameView
      (DN.append (DN.copy [some ⟨[(str "CN", str "X")], [], [str "CN"], 1⟩] ⟨some 0⟩).1
        (DN.copy [some ⟨[(str "CN", str "X")], [], [str "CN"], 1⟩] ⟨some 0⟩).2
        (str "O", str "W")).1
      [some ⟨[(str "CN", str "X")], [], [str "CN"], 1⟩] ⟨some 0⟩ ∧
    DN.attributes
      (DN.append (DN.copy [some ⟨[(str "CN", str "X")], [], [str "CN"], 1⟩] ⟨some 0⟩).1
        (DN.copy [some ⟨[(str "CN", str "X")], [], [str "CN"], 1⟩] ⟨some 0⟩).2
        (str "O", str "W")).1 ⟨some 1⟩ = [(str "CN", str "X"), (str "O", str "W")] :=
  ⟨(copy_isolated_under_append [some ⟨[(str "CN", str "X")], [], [str "CN"], 1⟩] 0
      ⟨[(str "CN", str "X")], [], [str "CN"], 1⟩ (str "O", str "W") (by decide) (by decide)).1,
    by decide⟩

theorem setAttributeOrder_through_copy (h : Heap) (pa : Nat) (P : Private) (o : List Str)
    (hP : deref h pa = some P) :
    deref (DN.setAttributeOrder (DN.copy h ⟨some pa⟩).1 (DN.copy h ⟨some pa⟩).2 o) pa
      = some ⟨P.attributes, P.reorderedAttributes, o, P.mRefCount + 1⟩ := by
  simp only [DN.copy]
  exact setAttributeOrder_heap (ref h pa) pa _ o (deref_ref_same h pa P hP)

/-- Claim C21: copies are not isolated under `setAttributeOrder` in the code.  The
copy `b` of `a` shares the data of `a`, and `setAttributeOrder` writes the order into
the shared data without detaching (`append` detaches first).  So after
`b.setAttributeOrder(o)`, `a.attributeOrder()` is `o`, and `a.prettyDN()` follows `o`
when the reordered attributes of `a` were not yet computed.  For `a` with the
attributes of `CN=X,O=W` and the order `[CN, O]`: after `b = a` and
`b.setAttributeOrder([O, CN])`, `a.attributeOrder()` is `[O, CN]` and `a.prettyDN()`
is `O=W,CN=X`; before the call they were `[CN, O]` and `CN=X,O=W`. -/
theorem setAttributeOrder_leaks_to_copy :
    (∀ (h : Heap) (pa : Nat) (P : Private) (o : List Str), deref h pa = some P →
      DN.attributeOrder
          (DN.setAttributeOrder (DN.copy h ⟨some pa⟩).1 (DN.copy h ⟨some pa⟩).2 o) ⟨some pa⟩ = o ∧
      (P.reorderedAttributes = [] →
        (DN.prettyDN
            (DN.setAttributeOrder (DN.copy h ⟨some pa⟩).1 (DN.copy h ⟨some pa⟩).2 o)
            ⟨some pa⟩).2 = serialise (reorder_dn P.attributes o) (str ","))) ∧
    DN.attributeOrder
        [some ⟨[(str "CN", str "X"), (str "O", str "W")], [], [str "CN", str "O"], 1⟩]
        ⟨some 0⟩ = [str "CN", str "O"] ∧
    (DN.prettyDN
        [some ⟨[(str "CN", str "X"), (str "O", str "W")], [], [str "CN", str "O"], 1⟩]
        ⟨some 0⟩).2 = str "CN=X,O=W" ∧
    DN.attributeOrder
        (DN.setAttributeOrder
          (DN.copy [some ⟨[(str "CN", str "X"), (str "O", str "W")], [], [str "CN", str "O"], 1⟩]
            ⟨some 0⟩).1
          (DN.copy [some ⟨[(str "CN", str "X"), (str "O", str "W")], [], [str "CN", str "O"], 1⟩]
            ⟨some 0⟩).2 [str "O", str "CN"])
        ⟨some 0⟩ = [str "O", str "CN"] ∧
    (DN.prettyDN
        (DN.setAttributeOrder
          (DN.copy [some ⟨[(str "CN", str "X"), (str "O", str "W")], [], [str "CN", str "O"], 1⟩]
            ⟨some 0⟩).1
          (DN.copy [some ⟨[(str "CN", str "X"), (str "O", str "W")], [], [str "CN", str "O"], 1⟩]
            ⟨some 0⟩).2 [str "O", str "CN"])
        ⟨some 0⟩).2 = str "O=W,CN=X" := by
  refine ⟨fun h pa P o hP => ?_, by decide, by decide, by decide, by decide⟩
  have hs := setAttributeOrder_through_copy h pa P o hP
  refine ⟨by simp [DN.attributeOrder, hs], fun hc => ?_⟩
  rw [prettyDN_string _ pa _ hs, fillReordered_empty _ (by simpa using hc)]

theorem setAttributeOrder_leaks_to_copy_witness :
    DN.attributeOrder
        (DN.setAttributeOrder
          (DN.copy [some ⟨[(str "CN", str "X")], [], [str "CN"], 1⟩] ⟨some 0⟩).1
          (DN.copy [some ⟨[(str "CN", str "X")], [], [str "CN"], 1⟩] ⟨some 0⟩).2
          [str "O", str "_X_"])
        ⟨some 0⟩ = [str "O", str "_X_"] :=
  (setAttributeOrder_leaks_to_copy.1 [some ⟨[(str "CN", str "X")], [], [str "CN"], 1⟩] 0
    ⟨[(str "CN", str "X")], [], [str "CN"], 1⟩ [str "O", str "_X_"] (by decide)).1

theorem lookupLoop_first (x : Str) (pre : Result) (a : Str × Str) (post : Result)
    (ha : a.1 = x) (hpre : ∀ b ∈ pre, b.1 ≠ x) : lookupLoop x (pre ++ a :: post) = a.2 := by
  induction pre with
  | nil => simp [lookupLoop, ha]
  | cons b bs ih =>
    have hb := hpre b (List.mem_cons_self _ _)
    simp only [List.cons_append, lookupLoop, hb, if_false]
    exact ih (fun c hc => hpre c (List.mem_cons_of_mem _ hc))

theorem lookupLoop_none (x : Str) (attrs : Result) (h : ∀ b ∈ attrs, b.1 ≠ x) :
    lookupLoop x attrs = [] := by
  induction attrs with
  | nil => rfl
  | cons b bs ih =>
    have hb := h b (List.mem_cons_self _ _)
    simp only [lookupLoop, hb, if_false]
    exact ih (fun c hc => h c (List.mem_cons_of_mem _ hc))

/-- Claim C22: lookup by name.  For every `DN` with live data and every query `q`,
`operator[](q)` is the value of the first attribute, in stored order, whose stored
name equals the upper-cased `q`, and the empty string when no stored name equals it;
this holds whatever `toUpper` computes.  Stored names are compared as they are: with
the ASCII upper-casing, the query `cn` skips an attribute stored as `cn` and finds
the first one stored as `CN`. -/
theorem lookup_first_match (toUpper : Str → Str) (h : Heap) (p : Nat) (P : Private) (q : Str)
    (hP : deref h p = some P) :
    (∀ (pre : Result) (a : Str × Str) (post : Result), P.attributes = pre ++ a :: post →
      a.1 = toUpper q → (∀ b ∈ pre, b.1 ≠ toUpper q) →
      DN.lookup toUpper h ⟨some p⟩ q = a.2) ∧
    ((∀ b ∈ P.attributes, b.1 ≠ toUpper q) → DN.lookup toUpper h ⟨some p⟩ q = []) ∧
    DN.lookup toUpper h ⟨none⟩ q = [] ∧
    DN.lookup asciiUpper
        [some ⟨[(str "cn", str "x"), (str "CN", str "y"), (str "CN", str "z")], [], [], 1⟩]
        ⟨some 0⟩ (str "cn") = str "y" ∧
    DN.lookup asciiUpper [some ⟨[(str "cn", str "x")], [], [], 1⟩] ⟨some 0⟩ (str "cn") = [] := by
  refine ⟨fun pre a post hsplit ha hpre => ?_, fun hnone => ?_, rfl, by decide, by decide⟩
  · simp only [DN.lookup, hP, hsplit]
    exact lookupLoop_first _ pre a post ha hpre
  · simp only [DN.lookup, hP]
    exact lookupLoop_none _ _ hnone

theorem lookup_first_match_witness :
    DN.lookup asciiUpper
        [some ⟨[(str "O", str "W"), (str "CN", str "y"), (str "CN", str "z")], [], [], 1⟩]
        ⟨some 0⟩ (str "Cn") = str "y" ∧
    DN.lookup asciiUpper
        [some ⟨[(str "O", str "W"), (str "CN", str "y"), (str "CN", str "z")], [], [], 1⟩]
        ⟨some 0⟩ (str "ou") = [] :=
  ⟨(lookup_first_match asciiUpper
      [some ⟨[(str "O", str "W"), (str "CN", str "y"), (str "CN", str "z")], [], [], 1⟩] 0
      ⟨[(str "O", str "W"), (str "CN", str "y"), (str "CN", str "z")], [], [], 1⟩ (str "Cn")
      (by decide)).1 [(str "O", str "W")] (str "CN", str "y") [(str "CN", str "z")]
      (by decide) (by decide) (by decide),
   (lookup_first_match asciiUpper
      [some ⟨[(str "O", str "W"), (str "CN", str "y"), (str "CN", str "z")], [], [], 1⟩] 0
      ⟨[(str "O", str "W"), (str "CN", str "y"), (str "CN", str "z")], [], [], 1⟩ (str "ou")
      (by decide)).2.1 (by decide)⟩

theorem join_eq_intercalate (sep : Str) (l : List Str) : join sep l = List.intercalate sep l := by
  induction l with
  | nil => rfl
  | cons a tl ih =>
    cases tl with
    | nil => simp [join, List.intercalate, List.intersperse]
    | cons b bs =>
      simp only [join, ih]
      simp [List.intercalate, List.intersperse]

theorem listAttributes_eq_filter (attrs : Result) :
    listAttributes attrs
      = (attrs.filter (fun a => decide (a.1 ≠ []) && decide (a.2 ≠ []))).map renderAttribute := by
  induction attrs with
  | nil => rfl
  | cons a tl ih =>
    by_cases h : a.1 ≠ [] ∧ a.2 ≠ []
    · have hf : (decide (a.1 ≠ []) && decide (a.2 ≠ [])) = true := by simp [h.1, h.2]
      rw [listAttributes, if_pos h, List.filter_cons, if_pos hf, List.map_cons, ih]
      rfl
    · have hf : ¬ (decide (a.1 ≠ []) && decide (a.2 ≠ [])) = true := by
        intro h0
        simp only [Bool.and_eq_true, decide_eq_true_eq] at h0
        exact h h0
      rw [listAttributes, if_neg h, List.filter_cons, if_neg hf, ih]

theorem serialise_eq_renderStored (attrs : Result) (sep : Str) :
    serialise attrs sep = renderStored attrs sep := by
  rw [serialise, join_eq_intercalate, listAttributes_eq_filter, renderStored]

/-- Claim C23 as stated fails: an attribute whose value is a single space, or whose
name is a single space, is not left out although its trimmed value, or name, is
empty: it is rendered as `CN=` and as `=v`. -/
theorem serialise_counterexample :
    (trimmed (str " ") = [] ∧
      serialise [(str "CN", str " ")] (str ",") = str "CN=" ∧
      renderAsClaimed [(str "CN", str " ")] (str ",") = []) ∧
    (serialise [(str " ", str "v")] (str ",") = str "=v" ∧
      renderAsClaimed [(str " ", str "v")] (str ",") = []) ∧
    parseString (str "CN=\\ ") = some [(str "CN", str " ")] :=
  ⟨⟨by decide, by decide, by decide⟩, ⟨by decide, by decide⟩, by decide⟩

/-- Claim C23, amended: for every attribute sequence and separator `sep`, `dn(sep)`
is the `sep`-joined list of `trim(name) ++ "=" ++ dn_escape(trim(value))` over the
attributes in order, where an attribute is left out exactly when its name or its
value, as stored and before trimming, is empty; `dn()` is `dn(",")`.  When trimming
empties no stored name or value, this is the rendering in the words of the claim. -/
theorem dn_rendering (h : Heap) (p : Nat) (P : Private) (sep : Str)
    (hP : deref h p = some P) :
    DN.dn h ⟨some p⟩ sep = renderStored P.attributes sep ∧
    DN.dnComma h ⟨some p⟩ = DN.dn h ⟨some p⟩ (str ",") ∧
    ((∀ a ∈ P.attributes, (a.1 ≠ [] → trimmed a.1 ≠ []) ∧ (a.2 ≠ [] → trimmed a.2 ≠ [])) →
      DN.dn h ⟨some p⟩ sep = renderAsClaimed P.attributes sep) := by
  have h1 : DN.dn h ⟨some p⟩ sep = renderStored P.attributes sep := by
    simp only [DN.dn, hP]
    exact serialise_eq_renderStored _ _
  refine ⟨h1, by simp [DN.dnComma, DN.dn, hP], fun hall => ?_⟩
  rw [h1, renderStored, renderAsClaimed]
  congr 2
  apply List.filter_congr
  intro a ha
  obtain ⟨t1, t2⟩ := hall a ha
  have e1 : trimmed a.1 = [] ↔ a.1 = [] := by
    constructor
    · intro h0; by_contra h2; exact t1 h2 h0
    · intro h0; rw [h0]; rfl
  have e2 : trimmed a.2 = [] ↔ a.2 = [] := by
    constructor
    · intro h0; by_contra h2; exact t2 h2 h0
    · intro h0; rw [h0]; rfl
  simp [e1, e2]

theorem dn_rendering_witness :
    DN.dn [some ⟨[(str "CN", str " a, b "), (str "", str "x"), (str "O", str "W")], [], [], 1⟩]
        ⟨some 0⟩ (str "; ")
      = renderAsClaimed [(str "CN", str " a, b "), (str "", str "x"), (str "O", str "W")]
          (str "; ") ∧
    DN.dn [some ⟨[(str "CN", str " a, b "), (str "", str "x"), (str "O", str "W")], [], [], 1⟩]
        ⟨some 0⟩ (str "; ") = str "CN=a\\, b; O=W" :=
  ⟨(dn_rendering
      [some ⟨[(str "CN", str " a, b "), (str "", str "x"), (str "O", str "W")], [], [], 1⟩] 0
      ⟨[(str "CN", str " a, b "), (str "", str "x"), (str "O", str "W")], [], [], 1⟩ (str "; ")
      (by decide)).2.2 (by decide), by decide⟩

theorem dn_escape_cons (c : Nat) (s : Str) : dn_escape (c :: s) = escapeChar c ++ dn_escape s := by
  cases hr : reserved c with
  | true => rw [dn_escape_reserved c s hr]; simp [escapeChar, hr]
  | false => rw [dn_escape_unreserved c s hr]; simp [escapeChar, hr]

/-- Claim C24: `DN::escape(v)` is `v` with a backslash inserted before every
occurrence of one of the seven characters `, + " \ < > ;` and every other character,
the space, `=` and `#` included, copied unchanged; its length is the length of `v`
plus the number of those occurrences. -/
theorem escape_inserts_backslashes (v : Str) :
    DN.escape v = v.flatMap escapeChar ∧
    (DN.escape v).length = v.length + v.countP reserved ∧
    (∀ c, reserved c = true ↔ c = 44 ∨ c = 43 ∨ c = 34 ∨ c = 92 ∨ c = 60 ∨ c = 62 ∨ c = 59) ∧
    (∀ c, reserved c = false → DN.escape [c] = [c]) ∧
    DN.escape (str "a b=c#d,e") = str "a b=c#d\\,e" := by
  refine ⟨?_, ?_, fun c => ?_, fun c hc => ?_, by decide⟩
  · induction v with
    | nil => rfl
    | cons c s ih =>
      simp only [DN.escape] at ih ⊢
      rw [dn_escape_cons, ih, List.flatMap_cons]
  · induction v with
    | nil => rfl
    | cons c s ih =>
      simp only [DN.escape] at ih ⊢
      rw [dn_escape_cons, List.length_append, ih, List.countP_cons]
      cases hr : reserved c <;> simp [escapeChar, hr] <;> omega
  · simp only [reserved, Bool.or_eq_true, decide_eq_true_eq]
    omega
  · simp only [DN.escape]
    rw [dn_escape_unreserved c [] hc]
    rfl

theorem escape_inserts_backslashes_witness :
    DN.escape [32] = [32] ∧ DN.escape [61] = [61] ∧ DN.escape [35] = [35] :=
  ⟨(escape_inserts_backslashes []).2.2.2.1 32 (by decide),
   (escape_inserts_backslashes []).2.2.2.1 61 (by decide),
   (escape_inserts_backslashes []).2.2.2.1 35 (by decide)⟩

theorem findFirst_eq_none (p : Nat → Bool) (a : Str) (h : findFirst p a = none) :
    ∀ x ∈ a, p x = false := by
  induction a with
  | nil => intro x hx; simp at hx
  | cons c cs ih =>
    rw [findFirst] at h
    by_cases hc : p c = true
    · simp [hc] at h
    · rw [if_neg hc] at h
      cases hf : findFirst p cs with
      | some i => simp [hf] at h
      | none =>
        intro x hx
        rcases List.mem_cons.mp hx with h1 | h1
        · subst h1; simpa using hc
        · exact ih hf x h1

theorem find_first_not_of_hex_eq_none (s : Str) (h : find_first_not_of s hexChars = none) :
    ∀ x ∈ s, isxdigit x = true := by
  intro x hx
  have := findFirst_eq_none _ s h x hx
  simp only [Bool.not_eq_false'] at this
  rw [hexChars_contains] at this
  exact this

theorem parseHexString_eq_none (s : Str) :
    parseHexString s = none ↔ s = [] ∨ s.length % 2 = 1 ∨ ∃ c ∈ s, isxdigit c = false := by
  constructor
  · intro h
    by_contra hcon
    simp only [not_or, not_exists, not_and, Bool.not_eq_false] at hcon
    obtain ⟨h1, h2, h3⟩ := hcon
    rw [parseHexString_hex s h3 h1 (by omega)] at h
    cases h
  · rintro (h | h | ⟨c, hc, hx⟩)
    · subst h; rfl
    · simp [parseHexString, h]
    · by_cases hz : s.length = 0 ∨ s.length % 2 = 1
      · rcases hz with hz | hz
        · have : s = [] := List.length_eq_zero.mp hz
          subst this; rfl
        · simp [parseHexString, hz]
      · have : find_first_not_of s hexChars ≠ none := by
          intro h0
          have := find_first_not_of_hex_eq_none s h0 c hc
          rw [hx] at this
          cases this
        simp [parseHexString, hz, this]

theorem parseHexString_eq_some (s r : Str) (h : parseHexString s = some r) :
    (∀ x ∈ s, isxdigit x = true) ∧ s ≠ [] ∧ s.length % 2 = 0 ∧ r = decodeHexPairs s := by
  have hn : ¬ (s = [] ∨ s.length % 2 = 1 ∨ ∃ c ∈ s, isxdigit c = false) := by
    rw [← parseHexString_eq_none, h]; simp
  simp only [not_or, not_exists, not_and, Bool.not_eq_false] at hn
  obtain ⟨h1, h2, h3⟩ := hn
  refine ⟨h3, h1, by omega, ?_⟩
  rw [parseHexString_hex s h3 h1 (by omega)] at h
  exact (Option.some.inj h).symm

theorem decodeHexPairs_length :
    ∀ (n : Nat) (s : Str), s.length ≤ n → (decodeHexPairs s).length = s.length / 2 := by
  intro n
  induction n using Nat.strong_induction_on with
  | _ n ih =>
    intro s hl
    match s, hl with
    | [], _ => simp [decodeHexPairs]
    | [_], _ => simp [decodeHexPairs]
    | a :: b :: rest, hl =>
      simp only [decodeHexPairs, List.length_cons]
      rw [ih (n - 2) (by simp at hl; omega) rest (by simp at hl; omega)]
      omega

theorem decodeHexPairs_getD :
    ∀ (n : Nat) (s : Str), s.length ≤ n → ∀ i, i < (decodeHexPairs s).length →
      (decodeHexPairs s).getD i 0 = decodeHexPair (s.getD (2 * i) 0) (s.getD (2 * i + 1) 0) := by
  intro n
  induction n using Nat.strong_induction_on with
  | _ n ih =>
    intro s hl i hi
    match s, hl, hi with
    | [], _, hi => simp [decodeHexPairs] at hi
    | [_], _, hi => simp [decodeHexPairs] at hi
    | a :: b :: rest, hl, hi =>
      cases i with
      | zero => simp [decodeHexPairs]
      | succ j =>
        simp only [decodeHexPairs, List.length_cons, Nat.add_lt_add_iff_right] at hi
        have := ih (n - 2) (by simp at hl; omega) rest (by simp at hl; omega) j hi
        have e1 : 2 * (j + 1) = (2 * j) + 1 + 1 := by omega
        have e2 : 2 * (j + 1) + 1 = (2 * j + 1) + 1 + 1 := by omega
        rw [e2, e1]
        simpa [decodeHexPairs] using this

theorem decodeHexPair_lt (a b : Nat) : decodeHexPair a b < 256 := by
  have h1 := hexDigitValue_lt a
  have h2 := hexDigitValue_lt b
  simp only [decodeHexPair]
  omega

/-- Claim C28: `parseHexString(s)` fails if and only if `s` is empty, has odd length,
or contains a character that is not a hex digit; otherwise it returns exactly
`len(s)/2` bytes, the `i`-th being `16*hexDigitValue(s[2i]) + hexDigitValue(s[2i+1])`,
which is below 256, so that the conversion to a byte does not wrap. -/
theorem parseHexString_spec (s : Str) :
    (parseHexString s = none ↔
      s = [] ∨ s.length % 2 = 1 ∨ ∃ c ∈ s, isxdigit c = false) ∧
    (∀ r, parseHexString s = some r →
      r.length = s.length / 2 ∧
      ∀ i, i < r.length →
        r.getD i 0 = 16 * hexDigitValue (s.getD (2 * i) 0) + hexDigitValue (s.getD (2 * i + 1) 0) ∧
        r.getD i 0 < 256) := by
  refine ⟨parseHexString_eq_none s, fun r hr => ?_⟩
  obtain ⟨_, _, _, h4⟩ := parseHexString_eq_some s r hr
  subst h4
  refine ⟨decodeHexPairs_length s.length s (Nat.le_refl _), fun i hi => ?_⟩
  have := decodeHexPairs_getD s.length s (Nat.le_refl _) i hi
  rw [this]
  exact ⟨rfl, decodeHexPair_lt _ _⟩

theorem parseHexString_spec_witness :
    (str "4B6f").length / 2 = 2 ∧
    (str "Ko").getD 1 0 = 16 * hexDigitValue ((str "4B6f").getD 2 0)
      + hexDigitValue ((str "4B6f").getD 3 0) ∧
    parseHexString (str "4B6") = none ∧ parseHexString (str "4G") = none :=
  ⟨by decide,
   (((parseHexString_spec (str "4B6f")).2 (str "Ko") (by decide)).2 1 (by decide)).1,
   (parseHexString_spec (str "4B6")).1.mpr (Or.inr (Or.inl (by decide))),
   (parseHexString_spec (str "4G")).1.mpr (Or.inr (Or.inr ⟨71, by decide, by decide⟩))⟩

theorem isxdigit_upperHex (c : Nat) : isxdigit (upperHex c) = isxdigit c := by
  rw [Bool.eq_iff_iff]
  simp only [isxdigit, upperHex, Bool.or_eq_true, Bool.and_eq_true, decide_eq_true_eq]
  split_ifs <;> omega

theorem hexDigitValue_upperHex (c : Nat) : hexDigitValue (upperHex c) = hexDigitValue c := by
  simp only [hexDigitValue, upperHex]
  split_ifs <;> omega

theorem decodeHexPairs_map : ∀ s : Str, decodeHexPairs (s.map upperHex) = decodeHexPairs s
  | [] => rfl
  | [_] => by simp [decodeHexPairs]
  | a :: b :: rest => by
    simp [decodeHexPairs, decodeHexPair, hexDigitValue_upperHex, decodeHexPairs_map rest]

theorem parseHexString_map (s : Str) : parseHexString (s.map upperHex) = parseHexString s := by
  by_cases h : s = [] ∨ s.length % 2 = 1 ∨ ∃ c ∈ s, isxdigit c = false
  · rw [(parseHexString_eq_none s).mpr h]
    rw [parseHexString_eq_none]
    rcases h with h | h | ⟨c, hc, hx⟩
    · left; simp [h]
    · right; left; simpa using h
    · right; right
      exact ⟨upperHex c, List.mem_map_of_mem _ hc, by rw [isxdigit_upperHex, hx]⟩
  · simp only [not_or, not_exists, not_and, Bool.not_eq_false] at h
    obtain ⟨h1, h2, h3⟩ := h
    rw [parseHexString_hex s h3 h1 (by omega),
      parseHexString_hex (s.map upperHex)
        (by
          intro x hx
          obtain ⟨c, hc, rfl⟩ := List.mem_map.mp hx
          rw [isxdigit_upperHex]; exact h3 c hc)
        (by simpa using h1) (by simp; omega),
      decodeHexPairs_map]

theorem decodeHexPairs_congr (h1 h2 : Str) (he : h1.map upperHex = h2.map upperHex) :
    decodeHexPairs h1 = decodeHexPairs h2 := by
  rw [← decodeHexPairs_map h1, he, decodeHexPairs_map]

theorem isxdigit_of_upper_eq (h1 h2 : Str) (hx : ∀ c ∈ h1, isxdigit c = true)
    (he : h1.map upperHex = h2.map upperHex) : ∀ c ∈ h2, isxdigit c = true := by
  intro c hc
  have : upperHex c ∈ h1.map upperHex := by rw [he]; exact List.mem_map_of_mem _ hc
  obtain ⟨c1, hc1, e⟩ := List.mem_map.mp this
  rw [← isxdigit_upperHex c, ← e, isxdigit_upperHex]
  exact hx c1 hc1

theorem parseValue_hex_congr (h1 h2 rest : Str) (hx : ∀ c ∈ h1, isxdigit c = true)
    (he : h1.map upperHex = h2.map upperHex)
    (hrest : rest = [] ∨ ∃ d ds, rest = d :: ds ∧ isxdigit d = false) :
    parseValue (35 :: (h1 ++ rest)) = parseValue (35 :: (h2 ++ rest)) := by
  have hx2 := isxdigit_of_upper_eq h1 h2 hx he
  have hl : h1.length = h2.length := by
    have := congrArg List.length he
    simpa using this
  rcases hrest with h | ⟨d, ds, h, hd⟩
  · subst h
    rw [List.append_nil, List.append_nil, parseValue_hex_at_end h1 hx,
      parseValue_hex_at_end h2 hx2]
  · subst h
    rw [parseValue_hex_followed h1 d ds hx hd, parseValue_hex_followed h2 d ds hx2 hd,
      decodeHexPairs_congr h1 h2 he, hl]
    have : h1 ≠ [] ↔ h2 ≠ [] := by
      rw [← List.length_pos, ← List.length_pos, hl]
    simp only [this]

theorem parse_dn_part_congr_value (n y1 y2 : Str) (hn : ∀ c ∈ n, c ≠ 61)
    (hv : parseValue (removeLeadingSpaces y1) = parseValue (removeLeadingSpaces y2)) :
    parse_dn_part (n ++ 61 :: y1) = parse_dn_part (n ++ 61 :: y2) := by
  cases n with
  | nil => rw [List.nil_append, List.nil_append, parse_dn_part_leading_eq, parse_dn_part_leading_eq]
  | cons c cs =>
    rw [parse_dn_part_eq (c :: cs) y1 (by simp) hn, parse_dn_part_eq (c :: cs) y2 (by simp) hn, hv]

theorem parseStringLoop_congr_value (fuel : Nat) (result : Result) (n y1 y2 : Str)
    (hn : ∀ c ∈ n, c ≠ 61)
    (hv : parseValue (removeLeadingSpaces y1) = parseValue (removeLeadingSpaces y2)) :
    parseStringLoop fuel (n ++ 61 :: y1) result = parseStringLoop fuel (n ++ 61 :: y2) result := by
  cases fuel with
  | zero => rfl
  | succ f =>
    rw [parseStringLoop_unfold f _ result (removeLeadingSpaces_name_ne_nil n y1),
      parseStringLoop_unfold f _ result (removeLeadingSpaces_name_ne_nil n y2),
      removeLeadingSpaces_name, removeLeadingSpaces_name,
      parse_dn_part_congr_value (removeLeadingSpaces n) y1 y2
        (fun c hc => hn c (mem_removeLeadingSpaces n c hc)) hv]

/-- Claim C26: hex decoding is case-insensitive.  `parseHexString` gives the same
result for a string and for the string with the letters `a`..`f` replaced by
`A`..`F`; and two inputs that differ only in the letter case of the hex digits of one
hex-form value (a name, `=`, spaces, `#`, the digits, and then the end of the input or
a character that is not a hex digit) are parsed alike, in every state of the loop of
`parseString` and by `parseString` itself. -/
theorem hex_case_insensitive :
    (∀ s : Str, parseHexString (s.map upperHex) = parseHexString s) ∧
    (∀ (n sp h1 h2 rest : Str), (∀ c ∈ n, c ≠ 61) → (∀ c ∈ sp, c = 32) →
      (∀ c ∈ h1, isxdigit c = true) → h1.map upperHex = h2.map upperHex →
      (rest = [] ∨ ∃ d ds, rest = d :: ds ∧ isxdigit d = false) →
      (∀ (fuel : Nat) (result : Result),
        parseStringLoop fuel (n ++ 61 :: (sp ++ 35 :: (h1 ++ rest))) result
          = parseStringLoop fuel (n ++ 61 :: (sp ++ 35 :: (h2 ++ rest))) result) ∧
      parseString (n ++ 61 :: (sp ++ 35 :: (h1 ++ rest)))
        = parseString (n ++ 61 :: (sp ++ 35 :: (h2 ++ rest)))) := by
  refine ⟨parseHexString_map, ?_⟩
  intro n sp h1 h2 rest hn hsp hx he hrest
  have hv : parseValue (removeLeadingSpaces (sp ++ 35 :: (h1 ++ rest)))
      = parseValue (removeLeadingSpaces (sp ++ 35 :: (h2 ++ rest))) := by
    rw [removeLeadingSpaces_spaces sp _ hsp, removeLeadingSpaces_spaces sp _ hsp,
      removeLeadingSpaces_cons_ne 35 _ (by decide), removeLeadingSpaces_cons_ne 35 _ (by decide)]
    exact parseValue_hex_congr h1 h2 rest hx he hrest
  have hl : h1.length = h2.length := by
    have := congrArg List.length he
    simpa using this
  refine ⟨fun fuel result => parseStringLoop_congr_value fuel result n _ _ hn hv, ?_⟩
  have hlen : (n ++ 61 :: (sp ++ 35 :: (h1 ++ rest))).length
      = (n ++ 61 :: (sp ++ 35 :: (h2 ++ rest))).length := by
    simp [hl]
  rw [parseString, parseString, hlen]
  exact parseStringLoop_congr_value _ [] n _ _ hn hv

theorem hex_case_insensitive_witness :
    parseString (str "2.5.4.97" ++ 61 :: ([] ++ 35 ::
        (str "5553742D49644E722E20444520313233343735323233"
          ++ str ",CN=TeleSec PKS eIDAS QES CA 5,O=Deutsche Telekom AG,C=DE")))
      = parseString (str "2.5.4.97" ++ 61 :: ([] ++ 35 ::
        (str "5553742d49644e722e20444520313233343735323233"
          ++ str ",CN=TeleSec PKS eIDAS QES CA 5,O=Deutsche Telekom AG,C=DE"))) :=
  (hex_case_insensitive.2 (str "2.5.4.97") []
    (str "5553742D49644E722E20444520313233343735323233")
    (str "5553742d49644e722e20444520313233343735323233")
    (str ",CN=TeleSec PKS eIDAS QES CA 5,O=Deutsche Telekom AG,C=DE")
    (by decide) (by decide) (by decide) (by decide)
    (Or.inr ⟨44, str "CN=TeleSec PKS eIDAS QES CA 5,O=Deutsche Telekom AG,C=DE",
      by decide, by decide⟩)).2

theorem findLast_concat_miss (p : Nat → Bool) (a : Str) (c : Nat) (hc : p c = false) :
    findLast p (a ++ [c]) = findLast p a := by
  induction a with
  | nil => simp [findLast, hc]
  | cons x xs ih => simp [findLast, ih]

theorem findLast_lt (p : Nat → Bool) (a : Str) (i : Nat) (h : findLast p a = some i) :
    i < a.length := by
  induction a generalizing i with
  | nil => simp [findLast] at h
  | cons c cs ih =>
    rw [findLast] at h
    cases hf : findLast p cs with
    | some j =>
      rw [hf] at h
      simp only [Option.some.injEq] at h
      have := ih j hf
      simp only [List.length_cons]
      omega
    | none =>
      rw [hf] at h
      simp only at h
      split_ifs at h
      simp only [Option.some.injEq] at h
      simp only [List.length_cons]
      omega

theorem removeTrailingSpaces_concat_space (s : Str) :
    removeTrailingSpaces (s ++ [32]) = removeTrailingSpaces s := by
  simp only [removeTrailingSpaces, find_last_not_of]
  rw [findLast_concat_miss _ s 32 (by decide)]
  cases h : findLast (fun c => !List.contains [32] c) s with
  | none => rfl
  | some i =>
    have := findLast_lt _ s i h
    simp only
    rw [List.take_append_of_le_length (by omega)]

theorem removeTrailingSpaces_eq_rdropWhile (s : Str) :
    removeTrailingSpaces s = s.rdropWhile (fun c => c == 32) := by
  induction s using List.reverseRecOn with
  | nil => rfl
  | append_singleton s c ih =>
    by_cases hc : c = 32
    · subst hc
      rw [removeTrailingSpaces_concat_space, ih, List.rdropWhile_concat_pos]
      simp
    · rw [removeTrailingSpaces_concat_ne s c hc, List.rdropWhile_concat_neg]
      simp [hc]

theorem removeTrailingSpaces_append_spaces (s sp : Str) (hsp : ∀ c ∈ sp, c = 32) :
    removeTrailingSpaces (s ++ sp) = removeTrailingSpaces s := by
  induction sp using List.reverseRecOn with
  | nil => simp
  | append_singleton t c ih =>
    have hc : c = 32 := hsp c (by simp)
    subst hc
    rw [← List.append_assoc, removeTrailingSpaces_concat_space]
    exact ih (fun x hx => hsp x (by simp [hx]))

theorem mem_spaces (k : Nat) : ∀ c ∈ spaces k, c = 32 := by
  intro c hc
  exact List.eq_of_mem_replicate hc

theorem parseValue_of_plainLoop_some (x value rest : Str) (last : Bool) (hne : x ≠ [])
    (h35 : x.head? ≠ some 35) (h34 : x.head? ≠ some 34)
    (h : plainLoop x [] false = some (value, last, rest)) :
    parseValue x = some (if last then value else removeTrailingSpaces value, rest) := by
  cases x with
  | nil => exact absurd rfl hne
  | cons c cs =>
    have hc35 : c ≠ 35 := by intro h0; apply h35; simp [h0]
    have hc34 : c ≠ 34 := by intro h0; apply h34; simp [h0]
    simp [parseValue, hc35, hc34, h]

theorem plainLoop_spaces (sp rest value : Str) (last : Bool) (hsp : ∀ c ∈ sp, c = 32)
    (hne : sp ≠ []) :
    plainLoop (sp ++ rest) value last = plainLoop rest (value ++ sp) false := by
  cases sp with
  | nil => exact absurd rfl hne
  | cons c cs =>
    have hc : c = 32 := hsp c (List.mem_cons_self _ _)
    subst hc
    rw [List.cons_append, plainLoop_ordinary_cons 32 _ value last (by decide),
      plainLoop_ordinary cs (fun y hy => by
        have := hsp y (List.mem_cons_of_mem _ hy)
        subst this; decide) rest]
    simp

theorem parseString_of_value (k name y value : Str) (hk : k ≠ []) (h61 : ∀ c ∈ k, c ≠ 61)
    (hhead : k.head? ≠ some 32) (hname : keyName (removeTrailingSpaces k) = name)
    (hn : name ≠ []) (hv : value ≠ [])
    (hval : parseValue (removeLeadingSpaces y) = some (value, [])) :
    parseString (k ++ 61 :: y) = some [(name, value)] := by
  apply parseString_single _ name value
    (removeLeadingSpaces_append_of_head k _ hk hhead) (by simp) hn hv
  rw [parse_dn_part_eq k y hk h61, hval, hname]

/-- Claim C29 as stated fails: the input `CN=v\  ` (the value `v`, a backslash, a
space and one more space) is simple in its first part, and the code yields the value
`v`, not `v` followed by a space: the escaped space is removed together with the
unescaped one. -/
theorem escaped_space_counterexample :
    SimpleValue (str "v") ∧
    parseString (str "CN=v\\  ") = some [(str "CN", str "v")] ∧
    parseString (str "CN=v\\  ") ≠ some [(str "CN", str "v ")] ∧
    plainLoop (str "v\\  ") [] false = some (str "v  ", false, []) := by
  refine ⟨by decide, by decide, by decide, by decide⟩

/-- Claim C29, amended: in the plain form the flag `lastAddedEscapedSpace` decides.
When the last accumulated character is an escaped space the accumulated text is
returned as it is; otherwise every trailing space of the accumulated text is removed,
whether it was written escaped or not (`removeTrailingSpaces` removes the longest run
of spaces at the end).  So for every simple value `v`, the input `CN=` followed by
`v`, a backslash, a space and one or more unescaped spaces yields the value `v`,
while `CN=` followed by `v`, a backslash and a space yields `v` and a space. -/
theorem plain_value_trailing_spaces :
    (∀ (x value rest : Str) (last : Bool), x ≠ [] → x.head? ≠ some 35 → x.head? ≠ some 34 →
      plainLoop x [] false = some (value, last, rest) →
      parseValue x
        = some (if last then value else value.rdropWhile (fun c => c == 32), rest)) ∧
    (∀ (v : Str) (k : Nat), SimpleValue v →
      plainLoop (v ++ 92 :: 32 :: spaces (k + 1)) [] false
        = some (v ++ 32 :: spaces (k + 1), false, []) ∧
      parseString (str "CN=" ++ (v ++ 92 :: 32 :: spaces (k + 1))) = some [(str "CN", v)]) ∧
    (∀ v : Str, SimpleValue v →
      parseString (str "CN=" ++ (v ++ [92, 32])) = some [(str "CN", v ++ [32])]) := by
  refine ⟨?_, ?_, ?_⟩
  · intro x value rest last hne h35 h34 h
    rw [parseValue_of_plainLoop_some x value rest last hne h35 h34 h,
      removeTrailingSpaces_eq_rdropWhile]
  · intro v k hv
    have hp := simpleValue_plain hv
    have hloop : plainLoop (v ++ 92 :: 32 :: spaces (k + 1)) [] false
        = some (v ++ 32 :: spaces (k + 1), false, []) := by
      rw [plainLoop_ordinary v (fun c hc => (hp.2.1 c hc).1) _ [], List.nil_append,
        plainLoop_escaped_space]
      have := plainLoop_spaces (spaces (k + 1)) [] (v ++ [32]) true (mem_spaces _)
        (by simp [spaces])
      rw [List.append_nil] at this
      rw [this]
      simp [plainLoop]
    refine ⟨hloop, ?_⟩
    obtain ⟨c, cs, hc, h35, h34, h32⟩ := simple_head v hv
    have hx : (v ++ 92 :: 32 :: spaces (k + 1)).head? = some c := by rw [hc]; rfl
    have hval : parseValue (v ++ 92 :: 32 :: spaces (k + 1)) = some (v, []) := by
      rw [parseValue_of_plainLoop_some _ _ [] false (by simp) (by rw [hx]; simpa using h35)
        (by rw [hx]; simpa using h34) hloop]
      simp only [Bool.false_eq_true, if_false]
      rw [removeTrailingSpaces_append_spaces v (32 :: spaces (k + 1))
        (by
          intro y hy
          rcases List.mem_cons.mp hy with h | h
          · exact h
          · exact mem_spaces _ y h),
        removeTrailingSpaces_of_getLast v hv.2.2.2]
    rw [str_CN_eq]
    apply parseString_of_value (str "CN") (str "CN") _ v (by decide) (by decide) (by decide)
      (by decide) (by decide) hv.1
    rw [removeLeadingSpaces_append_of_head v _ hv.1 hv.2.2.1]
    exact hval
  · intro v hv
    have hp := simpleValue_plain hv
    obtain ⟨c, cs, hc, h35, h34, h32⟩ := simple_head v hv
    have hloop : plainLoop v [] false = some (v, false, []) := by
      have := plainLoop_ordinary v (fun c hc => (hp.2.1 c hc).1) [] []
      rw [List.append_nil] at this
      rw [this]
      simp [plainLoop]
    have hval := parseValue_escaped_space_end v v [] false
      (by rw [hc]; simpa using h35) (by rw [hc]; simpa using h34) hloop (Or.inl rfl)
    rw [str_CN_eq]
    apply parseString_of_value (str "CN") (str "CN") _ (v ++ [32]) (by decide) (by decide)
      (by decide) (by decide) (by decide) (by simp)
    rw [removeLeadingSpaces_append_of_head v _ hv.1 hv.2.2.1]
    exact hval

theorem plain_value_trailing_spaces_witness :
    SimpleValue (str "Simple") ∧
    parseString (str "CN=" ++ (str "Simple" ++ 92 :: 32 :: spaces (0 + 1)))
      = some [(str "CN", str "Simple")] ∧
    parseString (str "CN=" ++ (str "Simple" ++ [92, 32]))
      = some [(str "CN", str "Simple" ++ [32])] :=
  ⟨by decide,
   (plain_value_trailing_spaces.2.1 (str "Simple") 0 (by decide)).2,
   plain_value_trailing_spaces.2.2 (str "Simple") (by decide)⟩

theorem parseValue_spaced (v sp rest : Str) (hv : PlainValue v) (hsp : ∀ c ∈ sp, c = 32)
    (hrest : rest = [] ∨ ∃ d ds, rest = d :: ds ∧ terminator d = true) :
    parseValue (v ++ (sp ++ rest)) = some (v, rest) := by
  obtain ⟨hne, hord, hhead, hlast⟩ := hv
  have hloop : plainLoop (v ++ (sp ++ rest)) [] false = some (v ++ sp, false, rest) := by
    rw [plainLoop_ordinary v (fun c hc => (hord c hc).1) _ [], List.nil_append,
      plainLoop_ordinary sp (fun y hy => by
        have := hsp y hy
        subst this; decide) rest v]
    exact plainLoop_end rest _ false hrest
  cases v with
  | nil => exact absurd rfl hne
  | cons c cs =>
    have hc := hord c (List.mem_cons_self _ _)
    have h34 : c ≠ 34 := by
      intro h; subst h; simp [ordinary] at hc
    rw [parseValue_of_plainLoop_some _ _ rest false (by simp)
      (by simpa using hc.2) (by simpa using h34) hloop]
    simp only [Bool.false_eq_true, if_false]
    rw [removeTrailingSpaces_append_spaces _ sp hsp, removeTrailingSpaces_of_getLast _ hlast]

theorem parse_dn_part_spaced (n v spb spc spd rest : Str) (hn : PlainName n)
    (hv : PlainValue v) (hb : ∀ c ∈ spb, c = 32) (hc : ∀ c ∈ spc, c = 32)
    (hd : ∀ c ∈ spd, c = 32)
    (hrest : rest = [] ∨ ∃ d ds, rest = d :: ds ∧ terminator d = true) :
    parse_dn_part (n ++ (spb ++ 61 :: (spc ++ (v ++ (spd ++ rest))))) = some (rest, (n, v)) := by
  rw [← List.append_assoc, parse_dn_part_eq (n ++ spb) _ (by simp [hn.1])
    (by
      intro c hc
      rcases List.mem_append.mp hc with h | h
      · exact hn.2.1 c h
      · rw [hb c h]; decide),
    removeLeadingSpaces_spaces spc _ hc, removeLeadingSpaces_append_of_head v _ hv.1 hv.2.2.1,
    parseValue_spaced v spd rest hv hd hrest, removeTrailingSpaces_append_spaces n spb hb,
    keyName_plain n hn]

theorem spacedComponent_append (w : Nat × Nat × Nat × Nat) (p : Str × Str) (rest : Str) :
    spacedComponent w p ++ rest
      = spaces w.1 ++ (p.1 ++ (spaces w.2.1 ++ 61 ::
          (spaces w.2.2.1 ++ (p.2 ++ (spaces w.2.2.2 ++ rest))))) := by
  simp [spacedComponent, List.append_assoc]

theorem removeLeadingSpaces_spacedComponent (w : Nat × Nat × Nat × Nat) (p : Str × Str)
    (rest : Str) (hn : PlainName p.1) :
    removeLeadingSpaces (spacedComponent w p ++ rest)
      = p.1 ++ (spaces w.2.1 ++ 61 :: (spaces w.2.2.1 ++ (p.2 ++ (spaces w.2.2.2 ++ rest)))) := by
  rw [spacedComponent_append, removeLeadingSpaces_spaces _ _ (mem_spaces _),
    removeLeadingSpaces_append_of_head p.1 _ hn.1 hn.2.2.1]

theorem pushPair_plain (result : Result) (p : Str × Str) (hn : PlainName p.1)
    (hv : PlainValue p.2) : pushPair result p = result ++ [p] := by
  simp [pushPair, hn.1, hv.1]

theorem parseStringLoop_spaced_last (fuel : Nat) (result : Result)
    (w : Nat × Nat × Nat × Nat) (p : Str × Str) (hn : PlainName p.1) (hv : PlainValue p.2) :
    parseStringLoop (fuel + 1) (spacedComponent w p) result = some (result ++ [p]) := by
  have e := removeLeadingSpaces_spacedComponent w p [] hn
  rw [List.append_nil] at e
  have hne : removeLeadingSpaces (spacedComponent w p) ≠ [] := by
    rw [e]; simp [hn.1]
  have hp : parse_dn_part (removeLeadingSpaces (spacedComponent w p)) = some ([], p) := by
    rw [e]
    exact parse_dn_part_spaced p.1 p.2 _ _ _ [] hn hv (mem_spaces _) (mem_spaces _)
      (mem_spaces _) (Or.inl rfl)
  rw [parseStringLoop_last fuel _ [] p result hne hp rfl, pushPair_plain result p hn hv]

theorem parseStringLoop_spaced_more (fuel : Nat) (result : Result)
    (w : Nat × Nat × Nat × Nat) (p : Str × Str) (hn : PlainName p.1) (hv : PlainValue p.2)
    (d : Nat) (t : Str) (hd : separator d = true) :
    parseStringLoop (fuel + 1) (spacedComponent w p ++ d :: t) result
      = parseStringLoop fuel t (result ++ [p]) := by
  have e := removeLeadingSpaces_spacedComponent w p (d :: t) hn
  have hne : removeLeadingSpaces (spacedComponent w p ++ d :: t) ≠ [] := by
    rw [e]; simp [hn.1]
  have hp : parse_dn_part (removeLeadingSpaces (spacedComponent w p ++ d :: t))
      = some (d :: t, p) := by
    rw [e]
    exact parse_dn_part_spaced p.1 p.2 _ _ _ (d :: t) hn hv (mem_spaces _) (mem_spaces _)
      (mem_spaces _) (Or.inr ⟨d, t, rfl, separator_terminator d hd⟩)
  rw [parseStringLoop_more fuel _ (d :: t) p result d t hne hp
    (removeLeadingSpaces_cons_ne d t (separator_ne_space d hd)) hd,
    pushPair_plain result p hn hv]

theorem parseStringLoop_joinSpaced (xs : List ((Nat × Nat × Nat × Nat) × (Str × Str)))
    (hxs : ∀ x ∈ xs, PlainName x.2.1 ∧ PlainValue x.2.2) (hne : xs ≠ []) :
    ∀ (seps : Str), (∀ c ∈ seps, separator c = true) →
    ∀ (fuel : Nat) (result : Result), xs.length < fuel →
    ∀ (tail : Str), (tail = [] ∨ ∃ d k, separator d = true ∧ tail = d :: spaces k) →
      parseStringLoop fuel (joinSpaced xs seps ++ tail) result
        = some (result ++ xs.map Prod.snd) := by
  induction xs with
  | nil => exact absurd rfl hne
  | cons x rest ih =>
    intro seps hseps fuel result hf tail htail
    obtain ⟨hn, hv⟩ := hxs x (List.mem_cons_self _ _)
    obtain ⟨f, rfl⟩ : ∃ f, fuel = f + 1 := ⟨fuel - 1, by omega⟩
    cases rest with
    | nil =>
      simp only [joinSpaced, List.map_cons, List.map_nil]
      rcases htail with h | ⟨d, k, hd, h⟩
      · subst h
        rw [List.append_nil]
        exact parseStringLoop_spaced_last f result x.1 x.2 hn hv
      · subst h
        rw [parseStringLoop_spaced_more f result x.1 x.2 hn hv d _ hd]
        obtain ⟨g, rfl⟩ : ∃ g, f = g + 1 := ⟨f - 1, by simp at hf; omega⟩
        have hb : removeLeadingSpaces (spaces k) = [] := by
          have := removeLeadingSpaces_spaces (spaces k) [] (mem_spaces k)
          rw [List.append_nil] at this
          rw [this]; rfl
        rw [parseStringLoop_blank g _ _ hb]
    | cons y zs =>
      have hsep : separator (seps.headD 44) = true := by
        cases seps with
        | nil => decide
        | cons c cs => exact hseps c (List.mem_cons_self _ _)
      simp only [joinSpaced, List.append_assoc, List.cons_append]
      rw [parseStringLoop_spaced_more f result x.1 x.2 hn hv _ _ hsep,
        ih (fun a ha => hxs a (List.mem_cons_of_mem _ ha)) (by simp) seps.tail
          (fun c hc => hseps c (List.mem_of_mem_tail hc)) f _
          (by simp only [List.length_cons] at hf ⊢; omega) tail htail]
      simp

theorem parseString_joinSpaced (xs : List ((Nat × Nat × Nat × Nat) × (Str × Str)))
    (hxs : ∀ x ∈ xs, PlainName x.2.1 ∧ PlainValue x.2.2) (hne : xs ≠ [])
    (seps : Str) (hseps : ∀ c ∈ seps, separator c = true)
    (tail : Str) (htail : tail = [] ∨ ∃ d k, separator d = true ∧ tail = d :: spaces k) :
    parseString (joinSpaced xs seps ++ tail) = some (xs.map Prod.snd) := by
  rw [parseString, parseStringLoop_fuel _ ((joinSpaced xs seps ++ tail).length + 1 + xs.length)
    _ [] (by omega) (by omega),
    parseStringLoop_joinSpaced xs hxs hne seps hseps _ [] (by omega) tail htail]
  simp

/-- Claim C25: unescaped spaces around names, values and separators do not change the
result.  For every simple name `n`, simple value `v` and numbers of spaces `a`, `b`,
`c`, `d`, the input of `a` spaces, `n`, `b` spaces, `=`, `c` spaces, `v` and `d`
spaces parses to the single attribute `(n, v)`.  For a non-empty list of such spaced
components joined by separators the result is the list of the pairs, so spaces after
a separator are skipped; and the same holds when one more separator (and spaces)
follows the last component. -/
theorem parseString_spacing :
    (∀ (n v : Str) (a b c d : Nat), SimpleName n → SimpleValue v →
      parseString (spaces a ++ n ++ spaces b ++ [61] ++ spaces c ++ v ++ spaces d)
        = some [(n, v)]) ∧
    (∀ (xs : List ((Nat × Nat × Nat × Nat) × (Str × Str))) (seps : Str),
      (∀ x ∈ xs, SimpleName x.2.1 ∧ SimpleValue x.2.2) → xs ≠ [] →
      (∀ c ∈ seps, separator c = true) →
      parseString (joinSpaced xs seps) = some (xs.map Prod.snd) ∧
      ∀ (e : Nat) (k : Nat), separator e = true →
        parseString (joinSpaced xs seps ++ e :: spaces k) = some (xs.map Prod.snd)) := by
  constructor
  · intro n v a b c d hn hv
    have := parseString_joinSpaced [((a, b, c, d), (n, v))]
      (by
        intro x hx
        rw [List.mem_singleton] at hx
        subst hx
        exact ⟨simpleName_plain hn, simpleValue_plain hv⟩)
      (by simp) [] (by simp) [] (Or.inl rfl)
    simpa [joinSpaced, spacedComponent, List.append_assoc] using this
  · intro xs seps hxs hne hseps
    have hp : ∀ x ∈ xs, PlainName x.2.1 ∧ PlainValue x.2.2 :=
      fun x hx => ⟨simpleName_plain (hxs x hx).1, simpleValue_plain (hxs x hx).2⟩
    constructor
    · have := parseString_joinSpaced xs hp hne seps hseps [] (Or.inl rfl)
      rwa [List.append_nil] at this
    · intro e k he
      exact parseString_joinSpaced xs hp hne seps hseps _ (Or.inr ⟨e, k, he, rfl⟩)

theorem parseString_spacing_witness :
    (str "CN =Simple" = spaces 0 ++ str "CN" ++ spaces 1 ++ [61] ++ spaces 0 ++ str "Simple"
        ++ spaces 0 ∧
      parseString (spaces 0 ++ str "CN" ++ spaces 1 ++ [61] ++ spaces 0 ++ str "Simple"
        ++ spaces 0) = some [(str "CN", str "Simple")]) ∧
    (str "CN= Simple" = spaces 0 ++ str "CN" ++ spaces 0 ++ [61] ++ spaces 1 ++ str "Simple"
        ++ spaces 0 ∧
      parseString (spaces 0 ++ str "CN" ++ spaces 0 ++ [61] ++ spaces 1 ++ str "Simple"
        ++ spaces 0) = some [(str "CN", str "Simple")]) ∧
    (str "CN=Simple " = spaces 0 ++ str "CN" ++ spaces 0 ++ [61] ++ spaces 0 ++ str "Simple"
        ++ spaces 1 ∧
      parseString (spaces 0 ++ str "CN" ++ spaces 0 ++ [61] ++ spaces 0 ++ str "Simple"
        ++ spaces 1) = some [(str "CN", str "Simple")]) ∧
    (str "CN=Simple," = joinSpaced [((0, 0, 0, 0), (str "CN", str "Simple"))] []
        ++ 44 :: spaces 0 ∧
      parseString (joinSpaced [((0, 0, 0, 0), (str "CN", str "Simple"))] [] ++ 44 :: spaces 0)
        = some ([((0, 0, 0, 0), (str "CN", str "Simple"))].map Prod.snd)) ∧
    (str "CN=Simple, O=Silly" = joinSpaced [((0, 0, 0, 0), (str "CN", str "Simple")),
        ((1, 0, 0, 0), (str "O", str "Silly"))] [44] ∧
      parseString (joinSpaced [((0, 0, 0, 0), (str "CN", str "Simple")),
        ((1, 0, 0, 0), (str "O", str "Silly"))] [44])
        = some ([((0, 0, 0, 0), (str "CN", str "Simple")),
            ((1, 0, 0, 0), (str "O", str "Silly"))].map Prod.snd)) :=
  ⟨⟨by decide, parseString_spacing.1 (str "CN") (str "Simple") 0 1 0 0 (by decide) (by decide)⟩,
   ⟨by decide, parseString_spacing.1 (str "CN") (str "Simple") 0 0 1 0 (by decide) (by decide)⟩,
   ⟨by decide, parseString_spacing.1 (str "CN") (str "Simple") 0 0 0 1 (by decide) (by decide)⟩,
   ⟨by decide, (parseString_spacing.2 [((0, 0, 0, 0), (str "CN", str "Simple"))] []
      (by decide) (by decide) (by decide)).2 44 0 (by decide)⟩,
   ⟨by decide, (parseString_spacing.2 [((0, 0, 0, 0), (str "CN", str "Simple")),
      ((1, 0, 0, 0), (str "O", str "Silly"))] [44] (by decide) (by decide) (by decide)).1⟩⟩

theorem asciiLower_cases (a t : Nat) (h : asciiLower a = t) : a = t ∨ a + 32 = t := by
  unfold asciiLower at h
  split_ifs at h <;> omega

theorem oidPrefix_cases (p : Str) (hp : p.map asciiLower = str "oid.") : p ∈ oidPrefixes := by
  rw [str_oid] at hp
  cases p with
  | nil => simp at hp
  | cons a p =>
  cases p with
  | nil => simp at hp
  | cons b p =>
  cases p with
  | nil => simp at hp
  | cons c p =>
  cases p with
  | nil => simp at hp
  | cons d p =>
  cases p with
  | cons e p => simp at hp
  | nil =>
    simp only [List.map_cons, List.map_nil, List.cons.injEq, and_true] at hp
    obtain ⟨ha, hb, hc, hd⟩ := hp
    have ha := asciiLower_cases a _ ha
    have hb := asciiLower_cases b _ hb
    have hc := asciiLower_cases c _ hc
    have hd : d = 46 := by
      unfold asciiLower at hd
      split_ifs at hd <;> omega
    have ha : a = 111 ∨ a = 79 := by omega
    have hb : b = 105 ∨ b = 73 := by omega
    have hc : c = 100 ∨ c = 68 := by omega
    subst hd
    rcases ha with rfl | rfl <;> rcases hb with rfl | rfl <;> rcases hc with rfl | rfl <;> decide

theorem oid_exact_table :
    ∀ m ∈ oidmap, ∀ p ∈ [str "OID.", str "oid."],
      (∀ c ∈ p ++ m.2, c ≠ 61) ∧ (p ++ m.2).head? ≠ some 32 ∧
        keyName (removeTrailingSpaces (p ++ m.2)) = m.1 := by
  decide

theorem oid_other_table :
    ∀ m ∈ oidmap, ∀ p ∈ oidPrefixes, p ≠ str "OID." → p ≠ str "oid." →
      (∀ c ∈ p ++ m.2, c ≠ 61) ∧ (p ++ m.2).head? ≠ some 32 ∧
        keyName (removeTrailingSpaces (p ++ m.2)) = p ++ m.2 := by
  decide

/-- Claim C27 as stated fails: `Oid.` equals `oid.` when letter case is ignored and
`2.5.4.3` is the OID of the table entry `CN`, but the component named `Oid.2.5.4.3` is
stored under the name `Oid.2.5.4.3`, not under `CN`. -/
theorem oid_prefix_counterexample :
    (str "Oid.").map asciiLower = str "oid." ∧
    (str "CN", str "2.5.4.3") ∈ oidmap ∧
    parseString (str "Oid." ++ str "2.5.4.3" ++ 61 :: str "x")
      = some [(str "Oid.2.5.4.3", str "x")] ∧
    parseString (str "Oid." ++ str "2.5.4.3" ++ 61 :: str "x") ≠ some [(str "CN", str "x")] ∧
    attributeNameForOID (str "Oid.2.5.4.3") = [] := by
  refine ⟨by decide, by decide, by decide, by decide, by decide⟩

/-- Claim C27, amended: the prefix of a name is recognised in exactly two spellings,
`OID.` and `oid.`.  For every OID-table entry (mnemonic, oid), every four-character
prefix `p` that equals `oid.` when letter case is ignored and every value `v` that the
plain form returns unchanged, the component `p ++ oid = v` is stored under the
mnemonic when `p` is `OID.` or `oid.`, and under the unchanged name `p ++ oid` for the
six other spellings. -/
theorem oid_prefix_exact (m : Str × Str) (hm : m ∈ oidmap) (p : Str)
    (hp : p.map asciiLower = str "oid.") (v : Str) (hv : PlainValue v) :
    ((p = str "OID." ∨ p = str "oid.") →
      parseString (p ++ m.2 ++ 61 :: v) = some [(m.1, v)]) ∧
    ((p ≠ str "OID." ∧ p ≠ str "oid.") →
      parseString (p ++ m.2 ++ 61 :: v) = some [(p ++ m.2, v)]) := by
  have hval : parseValue (removeLeadingSpaces v) = some (v, []) := by
    rw [removeLeadingSpaces_of_head v hv.2.2.1]
    have := parseValue_plain v [] hv (Or.inl rfl)
    rwa [List.append_nil] at this
  have hmem := oidPrefix_cases p hp
  have hpne : p ++ m.2 ≠ [] := by
    intro h
    have := congrArg List.length hp
    rw [List.append_eq_nil] at h
    rw [h.1] at this
    simp [str_oid] at this
  constructor
  · intro h
    have hp2 : p ∈ [str "OID.", str "oid."] := by
      rcases h with h | h <;> simp [h]
    obtain ⟨h1, h2, h3⟩ := oid_exact_table m hm p hp2
    exact parseString_of_value (p ++ m.2) m.1 v v hpne h1 h2 h3
      (oidmap_mnemonic_ne_nil m hm) hv.1 hval
  · intro h
    obtain ⟨h1, h2, h3⟩ := oid_other_table m hm p hmem h.1 h.2
    exact parseString_of_value (p ++ m.2) (p ++ m.2) v v hpne h1 h2 h3 hpne hv.1 hval

theorem oid_prefix_exact_witness :
    (str "GN", str "2.5.4.42") ∈ oidmap ∧
    parseString (str "oid." ++ str "2.5.4.42" ++ 61 :: str "Werner")
      = some [(str "GN", str "Werner")] ∧
    parseString (str "OID." ++ str "2.5.4.42" ++ 61 :: str "Werner")
      = some [(str "GN", str "Werner")] ∧
    parseString (str "oID." ++ str "2.5.4.42" ++ 61 :: str "Werner")
      = some [(str "oID." ++ str "2.5.4.42", str "Werner")] :=
  ⟨by decide,
   (oid_prefix_exact (str "GN", str "2.5.4.42") (by decide) (str "oid.") (by decide)
      (str "Werner") (simpleValue_plain (by decide))).1 (Or.inr rfl),
   (oid_prefix_exact (str "GN", str "2.5.4.42") (by decide) (str "OID.") (by decide)
      (str "Werner") (simpleValue_plain (by decide))).1 (Or.inl rfl),
   (oid_prefix_exact (str "GN", str "2.5.4.42") (by decide) (str "oID.") (by decide)
      (str "Werner") (simpleValue_plain (by decide))).2 ⟨by decide, by decide⟩⟩

theorem prefix_head (k t : Str) (h : k <+: t) (hk : k ≠ []) : k.head? = t.head? := by
  obtain ⟨u, rfl⟩ := h
  cases k with
  | nil => exact absurd rfl hk
  | cons c cs => rfl

theorem removeLeadingSpaces_head (s : Str) : (removeLeadingSpaces s).head? ≠ some 32 := by
  rw [removeLeadingSpaces_eq_dropWhile]
  intro h
  have := List.head?_dropWhile_not (fun c => c == 32) s
  rw [h] at this
  simp at this

theorem keyText_ends (s : Str) (hs : s.head? ≠ some 32) (hk : keyText s ≠ []) :
    (keyText s).head? ≠ some 32 ∧ (keyText s).getLast? ≠ some 32 := by
  unfold keyText at hk ⊢
  rw [removeTrailingSpaces_eq_rdropWhile] at hk ⊢
  constructor
  · have ht : List.takeWhile (fun c => c != 61) s ≠ [] := by
      intro h
      rw [h] at hk
      exact hk rfl
    rw [prefix_head _ _ (List.rdropWhile_prefix _ _) hk,
      prefix_head _ _ (List.takeWhile_prefix _) ht]
    exact hs
  · rw [List.getLast?_eq_getLast _ hk]
    have := List.rdropWhile_last_not (fun c => c == 32) _ hk
    intro h
    apply this
    simp only [Option.some.injEq] at h
    rw [h]; rfl

theorem oidmap_mnemonic_ends :
    ∀ m ∈ oidmap, m.1.head? ≠ some 32 ∧ m.1.getLast? ≠ some 32 := by decide

theorem keyName_ends (k : Str) (hk : k.head? ≠ some 32 ∧ k.getLast? ≠ some 32) :
    (keyName k).head? ≠ some 32 ∧ (keyName k).getLast? ≠ some 32 := by
  unfold keyName
  split_ifs with h
  · rw [attributeNameForOID_eq k] at h ⊢
    rcases lookupOID_cases (stripOid k) oidmap with h1 | ⟨m, hm, h1⟩
    · exact absurd h1 h
    · rw [h1]; exact oidmap_mnemonic_ends m hm
  · exact hk

theorem keyName_nil : keyName [] = [] := by decide

theorem parse_dn_part_wellFormed (s rest name value : Str) (hs : s.head? ≠ some 32)
    (h : parse_dn_part s = some (rest, (name, value))) (hn : name ≠ []) (hv : value ≠ []) :
    WellFormedAttribute (name, value) := by
  have hname := parse_dn_part_name s rest name value h
  have hk : keyText s ≠ [] := by
    intro h0
    rw [h0, keyName_nil] at hname
    exact hn hname
  have hends := keyName_ends _ (keyText_ends s hs hk)
  rw [← hname] at hends
  exact ⟨hv, hn, (parse_dn_part_name_stable s rest name value h).1, hends.1, hends.2⟩

theorem pushPair_wellFormed (result : Result) (p : Str × Str)
    (hres : ∀ a ∈ result, WellFormedAttribute a)
    (hp : p.1 ≠ [] → p.2 ≠ [] → WellFormedAttribute p) :
    ∀ a ∈ pushPair result p, WellFormedAttribute a := by
  unfold pushPair
  split_ifs with h
  · intro a ha
    rcases List.mem_append.mp ha with h1 | h1
    · exact hres a h1
    · rw [List.mem_singleton] at h1
      subst h1
      exact hp h.1 h.2
  · exact hres

theorem parseStringLoop_wellFormed :
    ∀ (fuel : Nat) (s : Str) (result r : Result),
      parseStringLoop fuel s result = some r → (∀ a ∈ result, WellFormedAttribute a) →
      ∀ a ∈ r, WellFormedAttribute a := by
  intro fuel
  induction fuel with
  | zero => intro s result r h; simp [parseStringLoop] at h
  | succ f ih =>
    intro s result r h hres
    by_cases hs : removeLeadingSpaces s = []
    · rw [parseStringLoop_blank f s result hs] at h
      simp only [Option.some.injEq] at h
      rw [← h]; exact hres
    · rw [parseStringLoop_unfold f s result hs] at h
      cases hp : parse_dn_part (removeLeadingSpaces s) with
      | none =>
        rw [hp] at h
        simp only [Option.some.injEq] at h
        rw [← h]; simp
      | some q =>
        obtain ⟨rest, name, value⟩ := q
        rw [hp] at h
        simp only at h
        have hpush := pushPair_wellFormed result (name, value) hres
          (parse_dn_part_wellFormed _ rest name value (removeLeadingSpaces_head s) hp)
        cases hr : removeLeadingSpaces rest with
        | nil =>
          rw [hr] at h
          simp only [Option.some.injEq] at h
          rw [← h]; exact hpush
        | cons d ds =>
          rw [hr] at h
          simp only at h
          by_cases hd : separator d = true
          · rw [if_pos hd] at h
            exact ih ds _ r h hpush
          · rw [if_neg hd] at h
            simp only [Option.some.injEq] at h
            rw [← h]; simp

theorem parseStringLoop_total :
    ∀ (fuel : Nat) (s : Str) (result : Result), s.length < fuel →
      ∃ r, parseStringLoop fuel s result = some r := by
  intro fuel
  induction fuel with
  | zero => intro s result hf; omega
  | succ f ih =>
    intro s result hf
    by_cases hs : removeLeadingSpaces s = []
    · exact ⟨result, parseStringLoop_blank f s result hs⟩
    · rw [parseStringLoop_unfold f s result hs]
      cases hp : parse_dn_part (removeLeadingSpaces s) with
      | none => exact ⟨[], rfl⟩
      | some q =>
        obtain ⟨rest, dnPair⟩ := q
        simp only
        cases hr : removeLeadingSpaces rest with
        | nil => exact ⟨_, rfl⟩
        | cons d ds =>
          simp only
          by_cases hd : separator d = true
          · rw [if_pos hd]
            have h1 := parse_dn_part_length _ rest dnPair hp
            have h2 := removeLeadingSpaces_length_le s
            have h3 := removeLeadingSpaces_length_le rest
            rw [hr] at h3
            simp only [List.length_cons] at h3
            exact ih ds _ (by omega)
          · rw [if_neg hd]; exact ⟨[], rfl⟩

/-- Claim C30: invariant of the parser output.  For every input `s`, `parseString`
returns a sequence, and every attribute in it has a non-empty value and a non-empty
name that contains no `=` and neither begins nor ends with a space. -/
theorem parseString_output_invariant (s : Str) :
    (∃ attrs, parseString s = some attrs) ∧
    ∀ attrs, parseString s = some attrs →
      ∀ a ∈ attrs, a.2 ≠ [] ∧ a.1 ≠ [] ∧ (∀ c ∈ a.1, c ≠ 61) ∧
        a.1.head? ≠ some 32 ∧ a.1.getLast? ≠ some 32 := by
  refine ⟨parseStringLoop_total _ s [] (by omega), ?_⟩
  intro attrs h a ha
  exact parseStringLoop_wellFormed _ s [] attrs h (by simp) a ha

theorem parseString_output_invariant_witness :
    parseString (str " OID.2.5.4.3 = a b , O  =\\ c") = some [(str "CN", str "a b"),
      (str "O", str " c")] ∧
    (str " c" ≠ [] ∧ str "O" ≠ [] ∧ (∀ c ∈ str "O", c ≠ 61) ∧
      (str "O").head? ≠ some 32 ∧ (str "O").getLast? ≠ some 32) :=
  ⟨by decide,
   (parseString_output_invariant (str " OID.2.5.4.3 = a b , O  =\\ c")).2
     [(str "CN", str "a b"), (str "O", str " c")] (by decide) (str "O", str " c") (by simp)⟩

/-- Claim C31: an unescaped `=`, `<`, `>` or `#` inside a plain-form value makes the
whole parse empty.  For every simple name `n`, simple value `v`, character `c` among
`=`, `<`, `>`, `#` and every rest `w`, `parse_dn_part` stops the value at `c` and
returns `(n, v)` with the remainder `c ++ w`; `c` ends a value but is not one of the
separators `,`, `;`, `+`, so `parseString` returns the empty sequence. -/
theorem parseString_stray_terminator (n v w : Str) (c : Nat) (hn : SimpleName n)
    (hv : SimpleValue v) (hc : c = 61 ∨ c = 60 ∨ c = 62 ∨ c = 35) :
    parse_dn_part (n ++ 61 :: (v ++ c :: w)) = some (c :: w, (n, v)) ∧
    terminator c = true ∧ separator c = false ∧
    parseString (n ++ 61 :: (v ++ c :: w)) = some [] := by
  have ht : terminator c = true := by
    rcases hc with h | h | h | h <;> subst h <;> decide
  have hs : separator c = false := by
    rcases hc with h | h | h | h <;> subst h <;> decide
  have hc32 : c ≠ 32 := by omega
  have hpn := simpleName_plain hn
  have hp : parse_dn_part (n ++ 61 :: (v ++ c :: w)) = some (c :: w, (n, v)) :=
    parse_dn_part_plain n v (c :: w) hpn (simpleValue_plain hv) (Or.inr ⟨c, w, rfl, ht⟩)
  refine ⟨hp, ht, hs, ?_⟩
  have hl : removeLeadingSpaces (n ++ 61 :: (v ++ c :: w)) = n ++ 61 :: (v ++ c :: w) :=
    plainName_head_ne_space hpn _
  exact parseStringLoop_junk _ _ (c :: w) (n, v) [] c w (by rw [hl]; simp)
    (by rw [hl]; exact hp) (removeLeadingSpaces_cons_ne c w hc32) hs

theorem parseString_stray_terminator_witness :
    parseString (str "CN" ++ 61 :: (str "Simple" ++ 61 :: str "x,O=Silly")) = some [] ∧
    parseString (str "CN" ++ 61 :: (str "Simple" ++ 35 :: str "34")) = some [] ∧
    parseString (str "CN" ++ 61 :: (str "a" ++ 60 :: [])) = some [] :=
  ⟨(parseString_stray_terminator (str "CN") (str "Simple") (str "x,O=Silly") 61 (by decide)
      (by decide) (Or.inl rfl)).2.2.2,
   (parseString_stray_terminator (str "CN") (str "Simple") (str "34") 35 (by decide)
      (by decide) (Or.inr (Or.inr (Or.inr rfl)))).2.2.2,
   (parseString_stray_terminator (str "CN") (str "a") [] 60 (by decide)
      (by decide) (Or.inr (Or.inl rfl))).2.2.2⟩

/-- Claim C32: `append` does not leave the display order unchanged when the data is
shared.  `detach` then copies the data with `Private(const Private &)`, which sets
`order` to `CN, L, _X_, OU, O, C` instead of copying it; so after `d.append(x)` the
order of `d` is that list, whatever it was before.  When the data is not shared the
order is unchanged.  For `d` with the attributes of `CN=X,O=W`, the order `[O, CN]`
and one copy: `attributeOrder()` is `[O, CN]` before `d.append((L, Y))` and
`[CN, L, _X_, OU, O, C]` after it. -/
theorem append_resets_shared_order :
    (∀ (h : Heap) (p : Nat) (P : Private) (x : Str × Str), deref h p = some P →
      (1 < P.mRefCount →
        DN.attributeOrder (DN.append h ⟨some p⟩ x).1 (DN.append h ⟨some p⟩ x).2
          = [str "CN", str "L", str "_X_", str "OU", str "O", str "C"]) ∧
      (P.mRefCount ≤ 1 →
        DN.attributeOrder (DN.append h ⟨some p⟩ x).1 (DN.append h ⟨some p⟩ x).2 = P.order)) ∧
    DN.attributeOrder
        [some ⟨[(str "CN", str "X"), (str "O", str "W")], [], [str "O", str "CN"], 2⟩]
        ⟨some 0⟩ = [str "O", str "CN"] ∧
    DN.attributeOrder
        (DN.append
          [some ⟨[(str "CN", str "X"), (str "O", str "W")], [], [str "O", str "CN"], 2⟩]
          ⟨some 0⟩ (str "L", str "Y")).1
        (DN.append
          [some ⟨[(str "CN", str "X"), (str "O", str "W")], [], [str "O", str "CN"], 2⟩]
          ⟨some 0⟩ (str "L", str "Y")).2
      = [str "CN", str "L", str "_X_", str "OU", str "O", str "C"] := by
  refine ⟨fun h p P x hP => ⟨fun hr => ?_, fun hr => ?_⟩, by decide, by decide⟩
  · obtain ⟨h1, h2, _⟩ := append_shared h p P x hP hr
    simp [DN.attributeOrder, h1, h2]
  · obtain ⟨h1, h2⟩ := append_unshared h p P x hP hr
    simp [DN.attributeOrder, h1, h2]

theorem append_resets_shared_order_witness :
    DN.attributeOrder
        (DN.append [some ⟨[(str "CN", str "X")], [], [], 2⟩] ⟨some 0⟩ (str "O", str "W")).1
        (DN.append [some ⟨[(str "CN", str "X")], [], [], 2⟩] ⟨some 0⟩ (str "O", str "W")).2
      = [str "CN", str "L", str "_X_", str "OU", str "O", str "C"] ∧
    DN.attributeOrder
        (DN.append [some ⟨[(str "CN", str "X")], [], [str "O"], 1⟩] ⟨some 0⟩
          (str "O", str "W")).1
        (DN.append [some ⟨[(str "CN", str "X")], [], [str "O"], 1⟩] ⟨some 0⟩
          (str "O", str "W")).2
      = [str "O"] :=
  ⟨(append_resets_shared_order.1 [some ⟨[(str "CN", str "X")], [], [], 2⟩] 0
      ⟨[(str "CN", str "X")], [], [], 2⟩ (str "O", str "W") (by decide)).1 (by decide),
   (append_resets_shared_order.1 [some ⟨[(str "CN", str "X")], [], [str "O"], 1⟩] 0
      ⟨[(str "CN", str "X")], [], [str "O"], 1⟩ (str "O", str "W") (by decide)).2 (by decide)⟩

theorem orderPieces_congr (A B u1 u2 : Result) (ts : List Str) :
    ∀ seen : Bool,
      (∀ t ∈ ts, t ≠ sentinel →
        A.filter (fun a => a.1 == t) = B.filter (fun a => a.1 == t)) →
      (seen = false → sentinel ∈ ts → u1 = u2) →
      orderPieces A u1 ts seen = orderPieces B u2 ts seen := by
  induction ts with
  | nil => intro seen _ _; rfl
  | cons t ts ih =>
    intro seen hf hu
    by_cases ht : t = sentinel
    · subst ht
      simp only [orderPieces, if_true, decide_True, Bool.or_true]
      rw [ih true (fun t ht hne => hf t (List.mem_cons_of_mem _ ht) hne) (fun h => by cases h)]
      cases seen with
      | true => rfl
      | false =>
        simp only [Bool.false_eq_true, if_false]
        rw [hu rfl (List.mem_cons_self _ _)]
    · simp only [orderPieces, ht, if_false, decide_False, Bool.or_false]
      rw [hf t (List.mem_cons_self _ _) ht,
        ih seen (fun t ht hne => hf t (List.mem_cons_of_mem _ ht) hne)
          (fun hs hm => hu hs (List.mem_cons_of_mem _ hm))]

theorem filter_name_filter_name (attrs : Result) (t s : Str) :
    (attrs.filter (fun a => a.1 == s)).filter (fun a => a.1 == t)
      = if s = t then attrs.filter (fun a => a.1 == t) else [] := by
  rw [List.filter_filter]
  split_ifs with h
  · subst h
    apply List.filter_congr
    intro a _
    simp
  · rw [List.filter_eq_nil_iff]
    intro a _
    simp only [Bool.and_eq_true, beq_iff_eq, not_and]
    intro h1 h2
    exact h (h2.symm.trans h1)

theorem filter_name_orderPieces_absent (attrs U : Result) (t : Str)
    (hU : U.filter (fun a => a.1 == t) = []) (ts : List Str) (ht : t ∉ ts) :
    ∀ seen : Bool, (orderPieces attrs U ts seen).filter (fun a => a.1 == t) = [] := by
  induction ts with
  | nil => intro seen; rfl
  | cons s ts ih =>
    intro seen
    have hs : s ≠ t := fun h => ht (by simp [h])
    have hts : t ∉ ts := fun h => ht (List.mem_cons_of_mem _ h)
    simp only [orderPieces, List.filter_append, ih hts]
    by_cases h1 : s = sentinel
    · simp only [h1, if_true]
      cases seen with
      | true => simp
      | false => simp [hU]
    · simp only [h1, if_false, filter_name_filter_name, hs]
      simp

theorem filter_name_orderPieces (attrs U : Result) (t : Str) (hts : t ≠ sentinel)
    (hU : U.filter (fun a => a.1 == t) = []) (ts : List Str) (ht : t ∈ ts)
    (hnd : (literalTokens ts).Nodup) :
    ∀ seen : Bool, (orderPieces attrs U ts seen).filter (fun a => a.1 == t)
      = attrs.filter (fun a => a.1 == t) := by
  induction ts with
  | nil => simp at ht
  | cons s ts ih =>
    intro seen
    simp only [orderPieces, List.filter_append]
    by_cases h1 : s = sentinel
    · have hmem : t ∈ ts := by
        rcases List.mem_cons.mp ht with h | h
        · exact absurd (h.trans h1) hts
        · exact h
      have hnd2 : (literalTokens ts).Nodup := by
        simpa [literalTokens, h1] using hnd
      rw [ih hmem hnd2]
      simp only [h1, if_true]
      cases seen with
      | true => simp
      | false => simp [hU]
    · have hl : literalTokens (s :: ts) = s :: literalTokens ts := by
        simp [literalTokens, h1]
      rw [hl, List.nodup_cons] at hnd
      simp only [h1, if_false, filter_name_filter_name]
      by_cases hst : s = t
      · subst hst
        have habs : s ∉ ts := by
          intro h
          apply hnd.1
          simp [literalTokens, h, h1]
        rw [filter_name_orderPieces_absent attrs U s hU ts habs]
        simp
      · have hmem : t ∈ ts := by
          rcases List.mem_cons.mp ht with h | h
          · exact absurd h.symm hst
          · exact h
        rw [ih hmem hnd.2]
        simp [hst]

theorem filter_unknown_orderPieces (attrs : Result) (order : List Str) (ts : List Str)
    (hsub : ∀ t ∈ ts, t ∈ order) :
    ∀ seen : Bool,
      (orderPieces attrs (attrs.filter (fun a => !order.contains a.1)) ts seen).filter
          (fun a => !order.contains a.1)
        = if seen = false ∧ sentinel ∈ ts then attrs.filter (fun a => !order.contains a.1)
          else [] := by
  induction ts with
  | nil => intro seen; simp [orderPieces]
  | cons s ts ih =>
    intro seen
    have ih2 := ih (fun t ht => hsub t (List.mem_cons_of_mem _ ht))
    simp only [orderPieces, List.filter_append, ih2]
    by_cases h1 : s = sentinel
    · simp only [h1, if_true, decide_True, Bool.or_true, Bool.true_eq_false, false_and, if_false,
        List.append_nil, List.mem_cons, true_or, and_true]
      cases seen with
      | true => simp
      | false =>
        simp only [Bool.false_eq_true, if_false, if_true, List.filter_filter, Bool.and_self]
    · have hso : s ∈ order := hsub s (List.mem_cons_self _ _)
      have hne : sentinel ≠ s := fun h => h1 h.symm
      have he : (attrs.filter (fun a => a.1 == s)).filter (fun a => !order.contains a.1) = [] := by
        rw [List.filter_filter, List.filter_eq_nil_iff]
        intro a _
        simp only [Bool.and_eq_true, beq_iff_eq, not_and]
        intro h2 h3
        rw [h3] at h2
        simp [hso] at h2
      simp only [h1, if_false, he, List.nil_append, decide_False, Bool.or_false, List.mem_cons,
        hne, false_or]

theorem unknown_filter_name (attrs : Result) (order : List Str) (t : Str) (ht : t ∈ order) :
    (attrs.filter (fun a => !order.contains a.1)).filter (fun a => a.1 == t) = [] := by
  rw [List.filter_filter, List.filter_eq_nil_iff]
  intro a _
  simp only [Bool.and_eq_true, beq_iff_eq, not_and]
  intro h2 h3
  rw [h2] at h3
  simp [ht] at h3

/-- Claim C33: `reorder_dn` is idempotent for orders without repeated names: for
every attribute sequence and every order in which no literal name occurs twice (the
sentinel may be repeated), reordering the reordered sequence with the same order
changes nothing. -/
theorem reorder_dn_idempotent (attrs : Result) (order : List Str)
    (hnd : (literalTokens order).Nodup) :
    reorder_dn (reorder_dn attrs order) order = reorder_dn attrs order := by
  rw [reorder_dn_eq (reorder_dn attrs order) order, reorder_dn_eq attrs order]
  unfold reorderByTokens
  apply orderPieces_congr
  · intro t ht hts
    exact filter_name_orderPieces attrs _ t hts (unknown_filter_name attrs order t ht) order ht
      hnd false
  · intro _ hs
    rw [filter_unknown_orderPieces attrs order order (fun t ht => ht) false]
    simp [hs]

theorem reorder_dn_idempotent_witness :
    reorder_dn [(str "O", str "W"), (str "SerialNumber", str "4"), (str "C", str "US"),
        (str "CN", str "X"), (str "O", str "V")]
      [str "CN", str "L", str "_X_", str "OU", str "O", str "C"]
      = [(str "CN", str "X"), (str "SerialNumber", str "4"), (str "O", str "W"),
          (str "O", str "V"), (str "C", str "US")] ∧
    reorder_dn
      (reorder_dn [(str "O", str "W"), (str "SerialNumber", str "4"), (str "C", str "US"),
          (str "CN", str "X"), (str "O", str "V")]
        [str "CN", str "L", str "_X_", str "OU", str "O", str "C"])
      [str "CN", str "L", str "_X_", str "OU", str "O", str "C"]
      = reorder_dn [(str "O", str "W"), (str "SerialNumber", str "4"), (str "C", str "US"),
          (str "CN", str "X"), (str "O", str "V")]
        [str "CN", str "L", str "_X_", str "OU", str "O", str "C"] :=
  ⟨by decide,
   reorder_dn_idempotent _ [str "CN", str "L", str "_X_", str "OU", str "O", str "C"]
     (by decide)⟩

theorem quotedLoop_suffix :
    ∀ (n : Nat) (a value v rest : Str), a.length ≤ n →
      quotedLoop a value = some (v, rest) → rest <:+ a := by
  intro n
  induction n with
  | zero =>
    intro a value v rest hl h
    have : a = [] := List.length_eq_zero.mp (Nat.le_zero.mp hl)
    subst this
    simp [quotedLoop] at h
  | succ n ih =>
    intro a value v rest hl h
    cases a with
    | nil => simp [quotedLoop] at h
    | cons c cs =>
      rw [quotedLoop.eq_def] at h
      simp only at h
      by_cases hc : c = 92
      · simp only [hc, if_true] at h
        cases cs with
        | nil => simp at h
        | cons d ds =>
          simp only at h
          have hl2 : ds.length ≤ n := by simp at hl; omega
          by_cases hd : d = 34
          · simp only [hd, if_true] at h
            exact (ih ds _ v rest hl2 h).trans
              ((List.suffix_cons d ds).trans (List.suffix_cons c _))
          · simp only [hd, if_false] at h
            exact (ih ds _ v rest hl2 h).trans
              ((List.suffix_cons d ds).trans (List.suffix_cons c _))
      · simp only [hc, if_false] at h
        by_cases hq : c = 34
        · simp only [hq, if_true, Option.some.injEq, Prod.mk.injEq] at h
          rw [← h.2]; exact List.suffix_cons _ _
        · simp only [hq, if_false] at h
          exact (ih cs _ v rest (by simp at hl; omega) h).trans (List.suffix_cons c cs)

theorem plainLoop_suffix :
    ∀ (n : Nat) (a value v rest : Str) (last l : Bool), a.length ≤ n →
      plainLoop a value last = some (v, l, rest) → rest <:+ a := by
  intro n
  induction n with
  | zero =>
    intro a value v rest last l hl h
    have : a = [] := List.length_eq_zero.mp (Nat.le_zero.mp hl)
    subst this
    simp only [plainLoop, Option.some.injEq, Prod.mk.injEq] at h
    rw [← h.2.2]
  | succ n ih =>
    intro a value v rest last l hl h
    cases a with
    | nil =>
      simp only [plainLoop, Option.some.injEq, Prod.mk.injEq] at h
      rw [← h.2.2]
    | cons c cs =>
      rw [plainLoop.eq_def] at h
      simp only at h
      by_cases hc : c = 92
      · simp only [hc, if_true] at h
        cases cs with
        | nil => simp at h
        | cons e es =>
          simp only at h
          have hl2 : es.length ≤ n := by simp at hl; omega
          by_cases he : escapable e = true
          · simp only [he, if_true] at h
            exact (ih es _ v rest _ l hl2 h).trans
              ((List.suffix_cons e es).trans (List.suffix_cons c _))
          · simp only [he, if_false] at h
            cases es with
            | nil => simp at h
            | cons f fs =>
              simp only at h
              by_cases hx : (isxdigit e && isxdigit f) = true
              · simp only [hx, if_true] at h
                exact (ih fs _ v rest _ l (by simp at hl; omega) h).trans
                  ((List.suffix_cons f fs).trans
                    ((List.suffix_cons e _).trans (List.suffix_cons c _)))
              · simp [hx] at h
      · simp only [hc, if_false] at h
        by_cases hq : c = 34
        · simp [hq] at h
        · simp only [hq, if_false] at h
          by_cases ht : terminator c = true
          · simp only [ht, if_true, Option.some.injEq, Prod.mk.injEq] at h
            rw [← h.2.2]
          · simp only [ht, if_false] at h
            exact (ih cs _ v rest _ l (by simp at hl; omega) h).trans (List.suffix_cons c cs)

theorem parseValue_suffix (y v rest : Str) (h : parseValue y = some (v, rest)) :
    rest <:+ y := by
  cases y with
  | nil => simp [parseValue] at h
  | cons c tl =>
    by_cases h35 : c = 35
    · subst h35
      simp only [parseValue, if_true] at h
      split_ifs at h
      cases hp : parseHexString (List.take (posValue (find_first_not_of tl hexChars)) tl) with
      | none => simp [hp] at h
      | some value =>
        simp only [hp, Option.some.injEq, Prod.mk.injEq] at h
        rw [← h.2]
        exact (List.drop_suffix _ tl).trans (List.suffix_cons _ _)
    · by_cases h34 : c = 34
      · subst h34
        simp only [parseValue, h35, if_false, if_true] at h
        exact (quotedLoop_suffix tl.length tl [] v rest (Nat.le_refl _) h).trans
          (List.suffix_cons _ _)
      · simp only [parseValue, h35, h34, if_false] at h
        cases hp : plainLoop (c :: tl) [] false with
        | none => simp [hp] at h
        | some r =>
          obtain ⟨value, last, rest0⟩ := r
          have := plainLoop_suffix (c :: tl).length (c :: tl) [] value rest0 false last
            (Nat.le_refl _) hp
          simp only [hp, Option.some.injEq, Prod.mk.injEq] at h
          rw [← h.2]; exact this

theorem removeLeadingSpaces_suffix (s : Str) : removeLeadingSpaces s <:+ s := by
  rw [removeLeadingSpaces_eq_dropWhile]
  exact List.dropWhile_suffix _

theorem parse_dn_part_suffix (s rest : Str) (p : Str × Str)
    (h : parse_dn_part s = some (rest, p)) :
    ∃ i, find_first_of s 61 = some i ∧ 0 < i ∧ i < s.length ∧ rest <:+ s.drop (i + 1) := by
  simp only [parse_dn_part] at h
  cases hf : find_first_of s 61 with
  | none => simp [hf] at h
  | some i =>
    have hi : i < s.length := findFirst_lt _ s i hf
    rw [hf] at h
    simp only at h
    by_cases hz : i = 0
    · simp [hz] at h
    · simp only [hz, if_false] at h
      cases hv : parseValue (removeLeadingSpaces (List.drop (i + 1) s)) with
      | none => simp [hv] at h
      | some r =>
        obtain ⟨value, rest0⟩ := r
        have h1 := parseValue_suffix _ value rest0 hv
        simp only [hv, Option.some.injEq, Prod.mk.injEq] at h
        rw [← h.1]
        exact ⟨i, rfl, by omega, hi, h1.trans (removeLeadingSpaces_suffix _)⟩

/-- Claim C34: the parser terminates on every input.  Whenever `parse_dn_part`
succeeds there is a first `=` at an index `i > 0`, and the remainder is a suffix of
the input after that `=`: a proper suffix of the input, shorter by at least the name
and the `=`.  So the input of the next iteration of the loop of `parseString` is a
strictly shorter suffix, the loop returns whenever the fuel exceeds the length of the
input, with a result that does not depend on the fuel, and `parseString` is total. -/
theorem parser_terminates :
    (∀ (s rest : Str) (p : Str × Str), parse_dn_part s = some (rest, p) →
      (∃ i, find_first_of s 61 = some i ∧ 0 < i ∧ rest <:+ s.drop (i + 1)) ∧
      rest <:+ s ∧ rest.length + 2 ≤ s.length) ∧
    (∀ (s rest : Str) (p : Str × Str) (d : Nat) (ds : Str),
      parse_dn_part (removeLeadingSpaces s) = some (rest, p) →
      removeLeadingSpaces rest = d :: ds →
      ds <:+ s ∧ ds.length + 3 ≤ s.length) ∧
    (∀ (s : Str) (fuel : Nat) (result : Result), s.length < fuel →
      ∃ r, parseStringLoop fuel s result = some r ∧
        ∀ g, s.length < g → parseStringLoop g s result = some r) ∧
    (∀ s : Str, ∃ r, parseString s = some r) := by
  have h1 : ∀ (s rest : Str) (p : Str × Str), parse_dn_part s = some (rest, p) →
      (∃ i, find_first_of s 61 = some i ∧ 0 < i ∧ rest <:+ s.drop (i + 1)) ∧
      rest <:+ s ∧ rest.length + 2 ≤ s.length := by
    intro s rest p h
    obtain ⟨i, hf, hpos, hlt, hsuf⟩ := parse_dn_part_suffix s rest p h
    refine ⟨⟨i, hf, hpos, hsuf⟩, hsuf.trans (List.drop_suffix _ s), ?_⟩
    have := hsuf.length_le
    simp only [List.length_drop] at this
    omega
  refine ⟨h1, ?_, ?_, fun s => parseStringLoop_total _ s [] (by omega)⟩
  · intro s rest p d ds hp hr
    obtain ⟨_, hsuf, hlen⟩ := h1 _ rest p hp
    have h2 := removeLeadingSpaces_suffix rest
    have h3 := removeLeadingSpaces_suffix s
    rw [hr] at h2
    have h4 : ds <:+ rest := (List.suffix_cons d ds).trans h2
    refine ⟨h4.trans (hsuf.trans h3), ?_⟩
    have l1 := h2.length_le
    have l3 := h3.length_le
    simp only [List.length_cons] at l1
    omega
  · intro s fuel result hf
    obtain ⟨r, hr⟩ := parseStringLoop_total fuel s result hf
    exact ⟨r, hr, fun g hg => by rw [← hr]; exact parseStringLoop_fuel g fuel s result hg hf⟩

theorem parser_terminates_witness :
    ((∃ i, find_first_of (str "CN=x,O=y") 61 = some i ∧ 0 < i ∧
        str ",O=y" <:+ (str "CN=x,O=y").drop (i + 1)) ∧
      str ",O=y" <:+ str "CN=x,O=y" ∧ (str ",O=y").length + 2 ≤ (str "CN=x,O=y").length) ∧
    (str " O=y" <:+ str " CN=x, O=y" ∧
      (str " O=y").length + 3 ≤ (str " CN=x, O=y").length) ∧
    (∃ r, parseStringLoop 11 (str " CN=x, O=y") [] = some r ∧
      ∀ g, (str " CN=x, O=y").length < g → parseStringLoop g (str " CN=x, O=y") [] = some r) :=
  ⟨parser_terminates.1 (str "CN=x,O=y") (str ",O=y") (str "CN", str "x") (by decide),
   parser_terminates.2.1 (str " CN=x, O=y") (str ", O=y") (str "CN", str "x") 44 (str " O=y")
     (by decide) (by decide),
   parser_terminates.2.2.1 (str " CN=x, O=y") 11 [] (by decide)⟩

theorem parseHexLoopChecked_eq (view : Str) (hlen : view.length < 2 ^ 64)
    (hpos : 0 < view.length) (heven : view.length % 2 = 0) :
    ∀ (fuel i : Nat) (result : Str), i % 2 = 0 → i ≤ view.length →
      (view.length - i) / 2 < fuel →
      parseHexLoopChecked view fuel i result
        = some (some (result ++ parseHexLoop (view.drop i))) := by
  have h64 : (2 : Nat) ^ 64 = 18446744073709551616 := by norm_num
  rw [h64] at hlen
  have hsz : (view.length + 2 ^ 64 - 1) % 2 ^ 64 = view.length - 1 := by
    rw [h64]; omega
  intro fuel
  induction fuel with
  | zero => intro i result _ _ hf; omega
  | succ f ih =>
    intro i result hi hle hf
    rw [parseHexLoopChecked, hsz]
    by_cases hlt : i < view.length - 1
    · have h1 : i < view.length := by omega
      have h2 : i + 1 < view.length := by omega
      have hmod : (i + 2) % 2 ^ 64 = i + 2 := by rw [h64]; omega
      rw [if_pos hlt, List.getElem?_eq_getElem h1, List.getElem?_eq_getElem h2]
      simp only
      rw [hmod, ih (i + 2) _ (by omega) (by omega) (by omega),
        List.drop_eq_getElem_cons h1, List.drop_eq_getElem_cons h2]
      simp [parseHexLoop]
    · have : i = view.length := by omega
      rw [if_neg hlt, this]
      simp [parseHexLoop]

theorem hexArgument_spec (tl : Str)
    (hguard : ¬ (posValue (find_first_not_of tl hexChars) = 0 ∨
      posValue (find_first_not_of tl hexChars) % 2 = 1)) :
    ∃ i, find_first_not_of tl hexChars = some i ∧ i ≠ 0 ∧ i % 2 = 0 ∧ i < tl.length ∧
      (hexArgument tl).length = i ∧ ∀ c ∈ hexArgument tl, isxdigit c = true := by
  cases hf : find_first_not_of tl hexChars with
  | none =>
    rw [hf] at hguard
    exact absurd (Or.inr npos_odd) hguard
  | some i =>
    rw [hf] at hguard
    simp only [posValue, not_or] at hguard
    have hi : i < tl.length := findFirst_lt _ tl i hf
    refine ⟨i, rfl, hguard.1, by omega, hi, ?_, ?_⟩
    · simp only [hexArgument, hf, posValue, List.length_take]
      omega
    · intro c hc
      simp only [hexArgument, hf, posValue] at hc
      rw [findFirst_take _ tl i hf] at hc
      have := List.mem_takeWhile_imp hc
      simp only [Bool.not_not] at this
      rw [hexChars_contains] at this
      exact this

/-- Claim C35: in the hex branch of `parse_dn_part`, `parseHexString` is called only
when the guard `!endHex || endHex % 2 == 1` is false, and then its argument is a
non-empty string of even length that consists of hex digits only (when no character
other than a hex digit follows, `endHex` is `npos`, which is odd, and the call is not
reached).  So `parseHexString` does not fail there, every read `view[i]`,
`view[i + 1]` of its loop is inside the view, and the branch returns the decoded
bytes with the text from `endHex` on. -/
theorem hex_branch_call_safe (tl : Str) :
    ((posValue (find_first_not_of tl hexChars) = 0 ∨
        posValue (find_first_not_of tl hexChars) % 2 = 1) →
      parseValue (35 :: tl) = none) ∧
    (¬ (posValue (find_first_not_of tl hexChars) = 0 ∨
        posValue (find_first_not_of tl hexChars) % 2 = 1) →
      hexArgument tl ≠ [] ∧ (hexArgument tl).length % 2 = 0 ∧
      (∀ c ∈ hexArgument tl, isxdigit c = true) ∧
      parseHexString (hexArgument tl) = some (parseHexLoop (hexArgument tl)) ∧
      parseValue (35 :: tl)
        = some (parseHexLoop (hexArgument tl),
            tl.drop (posValue (find_first_not_of tl hexChars))) ∧
      (tl.length < 2 ^ 64 →
        parseHexLoopChecked (hexArgument tl) (hexArgument tl).length 0 []
          = some (some (parseHexLoop (hexArgument tl))))) := by
  constructor
  · intro hg
    simp [parseValue, hg]
  · intro hguard
    obtain ⟨i, hf, hi0, hi2, hlt, hal, hx⟩ := hexArgument_spec tl hguard
    have hne : hexArgument tl ≠ [] := by
      intro h
      rw [h] at hal
      exact hi0 hal.symm
    have heven : (hexArgument tl).length % 2 = 0 := by rw [hal]; exact hi2
    have hph : parseHexString (hexArgument tl) = some (parseHexLoop (hexArgument tl)) := by
      rw [parseHexString_hex _ hx hne heven,
        parseHexLoop_eq_decodeHexPairs _ _ (Nat.le_refl _) hx]
    refine ⟨hne, heven, hx, hph, ?_, ?_⟩
    · have hph2 := hph
      unfold hexArgument at hph2
      simp only [parseValue, if_true, hguard, if_false, hph2]
      rfl
    · intro hlen
      have := parseHexLoopChecked_eq (hexArgument tl) (by rw [hal]; omega)
        (by rw [hal]; omega) heven (hexArgument tl).length 0 [] (by decide) (by omega)
        (by rw [hal]; omega)
      simpa using this

theorem hex_branch_call_safe_witness :
    hexArgument (str "4B6f,CN=x") ≠ [] ∧ (hexArgument (str "4B6f,CN=x")).length % 2 = 0 ∧
    parseHexLoopChecked (hexArgument (str "4B6f,CN=x")) (hexArgument (str "4B6f,CN=x")).length
      0 [] = some (some (parseHexLoop (hexArgument (str "4B6f,CN=x")))) ∧
    hexArgument (str "4B6f,CN=x") = str "4B6f" ∧
    parseValue (35 :: str "34") = none :=
  ⟨((hex_branch_call_safe (str "4B6f,CN=x")).2 (by decide)).1,
   ((hex_branch_call_safe (str "4B6f,CN=x")).2 (by decide)).2.1,
   ((hex_branch_call_safe (str "4B6f,CN=x")).2 (by decide)).2.2.2.2.2 (by norm_num [str]),
   by decide,
   (hex_branch_call_safe (str "34")).1 (Or.inr (by decide))⟩

end QGpgME
